import Mathlib

/-! Seam carving engine (`SeamCarver.cpp`): shallow embedding and verified properties.

The C++ class `SeamCarver` owns an image (`std::vector<std::vector<Pixel>>`, addressed
`m_table[column][row]`), an energy table and two cumulative path tables of `double`s.

Modelling conventions.

* `std::vector` is a `List`; `operator[]`, `back()`, `erase` and `pop_back` outside the
  vector's bounds are undefined behaviour in C++ and are modelled as the fault
  `Fault.outOfRange`.  `%` with a zero divisor is modelled as `Fault.modZero`.  Every
  function that indexes a vector therefore lives in `Except Fault`.
* `double` is modelled by an arbitrary linearly ordered type `α` with addition (exact
  arithmetic; theorems about sums take `α` to be a linearly ordered commutative ring).
  `std::sqrt` is a parameter `sqrt : ℤ → α`; the argument of `std::sqrt` in the source is a
  sum of `int`s, which a `double` holds exactly.  Concrete runs use `α = ℤ` with `intSqrt`
  on images all of whose energies are perfect squares, so that every value of the run is a
  small integer, computed without rounding by the C++ code as well.
* `int` channel arithmetic is modelled in `ℤ` (no `int` operation of `RecalcPixelEnergy`
  overflows for channels in `[0, 255]`).
* `size_t` expressions are natural numbers.  The one place where the source relies on
  unsigned wraparound, `value + diff` with a negative `int diff` in `BoundaryDiff`, is
  modelled modulo `2 ^ 64`.  `BoundaryDiff` returns its `size_t` result through a `double`;
  that round trip is the identity below `2 ^ 53`, which is why size hypotheses of theorems
  bound the table dimensions by `maxDim = 2 ^ 53`.
* `for` loops are the combinators `forLoop` (ascending) and `downLoop` (descending).
-/

namespace SeamCarving

/-! ## Faults and vector primitives -/

/-- The ways in which an execution of the C++ code can leave defined behaviour. -/
inductive Fault where
  | outOfRange
  | modZero
  | uninitialized
  deriving DecidableEq, Repr

/-- Computations that may hit undefined behaviour. -/
abbrev M := Except Fault

/-- Vector read `xs[i]`. -/
def vecGet {β : Type} (xs : List β) (i : Nat) : M β :=
  match xs[i]? with
  | some x => pure x
  | none => throw Fault.outOfRange

/-- Vector write `xs[i] = v`. -/
def vecSet {β : Type} (xs : List β) (i : Nat) (v : β) : M (List β) :=
  if i < xs.length then pure (xs.set i v) else throw Fault.outOfRange

/-- Read of `xs.back()`. -/
def vecBack {β : Type} (xs : List β) : M β :=
  match xs.getLast? with
  | some x => pure x
  | none => throw Fault.outOfRange

/-- Table read `t[c][r]`. -/
def tabGet {β : Type} (t : List (List β)) (c r : Nat) : M β := do
  let col ← vecGet t c
  vecGet col r

/-- Table write `t[c][r] = v`. -/
def tabSet {β : Type} (t : List (List β)) (c r : Nat) (v : β) : M (List (List β)) := do
  let col ← vecGet t c
  let col' ← vecSet col r v
  vecSet t c col'

/-- The `size_t` remainder `a % b`. -/
def modS (a b : Nat) : M Nat :=
  if b = 0 then throw Fault.modZero else pure (a % b)

/-- Ascending loop `for (i = start; i < start + count; ++i) body`. -/
def forLoop {β : Type} (body : Nat → β → M β) : Nat → Nat → β → M β
  | _, 0, s => pure s
  | i, n + 1, s => do
    let s' ← body i s
    forLoop body (i + 1) n s'

/-- Descending loop `for (i = top; i > 0; --i) body`. -/
def downLoop {β : Type} (body : Nat → β → M β) : Nat → β → M β
  | 0, s => pure s
  | i + 1, s => do
    let s' ← body (i + 1) s
    downLoop body i s'

/-! ## Data model (`Image.hpp`, `SeamCarver.hpp`) -/

/-- The struct `Image::Pixel`. -/
structure Pixel where
  m_red : Int
  m_green : Int
  m_blue : Int
  deriving DecidableEq, Repr

/-- The struct `Image`: `m_table[column][row]`. -/
structure Image where
  m_table : List (List Pixel)
  deriving DecidableEq, Repr

/-- The alias `SeamCarver::Seam`. -/
abbrev Seam := List Nat

/-- The alias `SeamCarver::Table`. -/
abbrev Table (α : Type) := List (List α)

/-- The data members of the class `SeamCarver`. -/
structure SeamCarver (α : Type) where
  m_image : Image
  m_energyTable : Table α
  m_vEnergyPathTable : Table α
  m_hEnergyPathTable : Table α
  m_vEnergyPathTableIsValid : Bool
  m_hEnergyPathTableIsValid : Bool
  deriving DecidableEq, Repr

/-- Largest dimension for which the `size_t → double → size_t` round trip of
`BoundaryDiff` is exact. -/
def maxDim : Nat := 2 ^ 53

/-- Conversion of an `int` to `size_t`. -/
def toSizeT (i : Int) : Nat := (i % 2 ^ 64).toNat

/-- The method `GetImageWidth`: `m_image.m_table.size()`. -/
def GetImageWidth {α : Type} (s : SeamCarver α) : Nat := s.m_image.m_table.length

/-- The method `GetImageHeight`: `m_image.m_table[0].size()`. -/
def GetImageHeight {α : Type} (s : SeamCarver α) : M Nat := do
  let col ← vecGet s.m_image.m_table 0
  pure col.length

/-- The method `GetPixelEnergy`: `m_energyTable[columnId][rowId]`. -/
def GetPixelEnergy {α : Type} (s : SeamCarver α) (columnId rowId : Nat) : M α :=
  tabGet s.m_energyTable columnId rowId

/-- The static function `BoundaryDiff`:
`value > 0 ? min(value + diff, upperBound - 1) : value == 0 && diff > 0 ? value + diff : 0`. -/
def BoundaryDiff (value : Nat) (diff : Int) (upperBound : Nat) : Nat :=
  if value > 0 then min ((value + toSizeT diff) % 2 ^ 64) ((upperBound + (2 ^ 64 - 1)) % 2 ^ 64)
  else if value = 0 ∧ diff > 0 then (value + toSizeT diff) % 2 ^ 64
  else 0

/-- The summand of `accum` for one `(next, prev)` pair in `RecalcPixelEnergy`. -/
def pairDiff (next prev : Pixel) : Int :=
  (next.m_red - prev.m_red) * (next.m_red - prev.m_red) +
  (next.m_green - prev.m_green) * (next.m_green - prev.m_green) +
  (next.m_blue - prev.m_blue) * (next.m_blue - prev.m_blue)

/-- The method `RecalcPixelEnergy`. -/
def RecalcPixelEnergy {α : Type} (sqrt : Int → α) (s : SeamCarver α) (columnId rowId : Nat) :
    M (SeamCarver α) := do
  let h ← GetImageHeight s
  let rowNext ← tabGet s.m_image.m_table columnId (← modS (rowId + 1) h)
  let h ← GetImageHeight s
  let rowPrev ← tabGet s.m_image.m_table columnId (← modS (rowId + h - 1) h)
  let colNext ← tabGet s.m_image.m_table (← modS (columnId + 1) (GetImageWidth s)) rowId
  let colPrev ← tabGet s.m_image.m_table
    (← modS (columnId + GetImageWidth s - 1) (GetImageWidth s)) rowId
  let accum : Int := 0 + pairDiff rowNext rowPrev + pairDiff colNext colPrev
  let e ← tabSet s.m_energyTable columnId rowId (sqrt accum)
  pure { s with m_energyTable := e }

/-- The method `RecalcTableEnergy`. -/
def RecalcTableEnergy {α : Type} (sqrt : Int → α) (s : SeamCarver α) : M (SeamCarver α) :=
  forLoop (fun columnId s => do
    let h ← GetImageHeight s
    forLoop (fun rowId s => RecalcPixelEnergy sqrt s columnId rowId) 0 h s)
    0 (GetImageWidth s) s

/-- The constructor `SeamCarver::SeamCarver(Image image)`. -/
def SeamCarver.new {α : Type} [Zero α] (sqrt : Int → α) (image : Image) : M (SeamCarver α) := do
  let s0 : SeamCarver α :=
    { m_image := image, m_energyTable := [], m_vEnergyPathTable := [],
      m_hEnergyPathTable := [], m_vEnergyPathTableIsValid := false,
      m_hEnergyPathTableIsValid := false }
  let h ← GetImageHeight s0
  let w := GetImageWidth s0
  let s1 : SeamCarver α :=
    { s0 with
      m_energyTable := List.replicate w (List.replicate h 0)
      m_vEnergyPathTable := List.replicate w (List.replicate h 0)
      m_hEnergyPathTable := List.replicate w (List.replicate h 0) }
  RecalcTableEnergy sqrt s1

/-- The method `RecalcVerticalEnergyPathTable`. -/
def RecalcVerticalEnergyPathTable {α : Type} [LinearOrder α] [Add α] (s : SeamCarver α) :
    M (SeamCarver α) := do
  let w := GetImageWidth s
  let t ← forLoop (fun columnId t => do
      tabSet t columnId 0 (← tabGet s.m_energyTable columnId 0))
    0 w s.m_vEnergyPathTable
  let h ← GetImageHeight s
  let t ← forLoop (fun rowId t =>
      forLoop (fun columnId t => do
          let e ← tabGet s.m_energyTable columnId rowId
          let a ← tabGet t (BoundaryDiff columnId 1 w) (rowId - 1)
          let b ← tabGet t (BoundaryDiff columnId (-1) w) (rowId - 1)
          let c ← tabGet t columnId (rowId - 1)
          tabSet t columnId rowId (e + min (min a b) c))
        0 w t)
    1 (h - 1) t
  pure { s with m_vEnergyPathTable := t, m_vEnergyPathTableIsValid := true }

/-- The method `RecalcHorizontalEnergyPathTable`. -/
def RecalcHorizontalEnergyPathTable {α : Type} [LinearOrder α] [Add α] (s : SeamCarver α) :
    M (SeamCarver α) := do
  let t ← vecSet s.m_hEnergyPathTable 0 (← vecGet s.m_energyTable 0)
  let w := GetImageWidth s
  let t ← forLoop (fun columnId t => do
      let h ← GetImageHeight s
      forLoop (fun rowId t => do
          let e ← tabGet s.m_energyTable columnId rowId
          let a ← tabGet t (columnId - 1) (BoundaryDiff rowId 1 h)
          let b ← tabGet t (columnId - 1) (BoundaryDiff rowId (-1) h)
          let c ← tabGet t (columnId - 1) rowId
          tabSet t columnId rowId (e + min (min a b) c))
        0 h t)
    1 (w - 1) t
  pure { s with m_hEnergyPathTable := t, m_hEnergyPathTableIsValid := true }

/-- Scan of `std::min_element` after its first element: `i` is the position of the
iterator, `best` the position of `smallest` and `bx` the element it points to. -/
def minElementScan {β : Type} (comp : β → β → M Bool) : List β → Nat → Nat → β → M Nat
  | [], _, best, _ => pure best
  | x :: xs, i, best, bx => do
    if (← comp x bx) then minElementScan comp xs (i + 1) i x
    else minElementScan comp xs (i + 1) best bx

/-- The distance `std::min_element(first, last, comp) - first`: the position of the first
smallest element (`last - first = 0` for an empty range). -/
def minElement {β : Type} (comp : β → β → M Bool) : List β → M Nat
  | [] => pure 0
  | x :: xs => minElementScan comp xs 1 0 x

/-- One iteration of the inner loop `for (const int &rowDiff : {0, -1, 1})` of the
backtracking: `best` is `none` while `nextMinEnergy` is `+∞` and `nextMinEnergyIndex` is
uninitialised, and `some (nextMinEnergy, nextMinEnergyIndex)` afterwards.  `lookup` reads
the path table at the candidate position. -/
def candidateStep {α : Type} [LinearOrder α] (lookup : Nat → M α) (cur : Nat) (bound : Nat)
    (best : Option (α × Nat)) (rowDiff : Int) : M (Option (α × Nat)) := do
  let next := BoundaryDiff cur rowDiff bound
  let v ← lookup next
  match best with
  | none => pure (some (v, next))
  | some (m, i) => if v < m then pure (some (v, next)) else pure (some (m, i))

/-- The body of the backtracking loops of `FindVerticalSeam` / `FindHorizontalSeam` for
loop variable `k` (`rowId`, resp. `columnId`): chooses `seam[k - 1]` from `seam[k]`. -/
def backtrackStep {α : Type} [LinearOrder α] (lookup : Nat → Nat → M α) (bound : Nat)
    (k : Nat) (seam : Seam) : M Seam := do
  let best ← [0, -1, 1].foldlM
    (fun best rowDiff => do
      let cur ← vecGet seam k
      candidateStep (fun next => lookup next (k - 1)) cur bound best rowDiff)
    (none : Option (α × Nat))
  match best with
  | some (_, i) => vecSet seam (k - 1) i
  | none => throw Fault.uninitialized

/-- The part of `FindVerticalSeam` after the cache check: seed and backtracking. -/
def extractVerticalSeam {α : Type} [LinearOrder α] (s : SeamCarver α) : M Seam := do
  let h ← GetImageHeight s
  let seam : Seam := List.replicate h 0
  let seed ← minElement
    (fun vec1 vec2 => do pure (decide ((← vecBack vec1) < (← vecBack vec2))))
    s.m_vEnergyPathTable
  let seam ← vecSet seam (seam.length - 1) seed
  downLoop
    (backtrackStep (fun nextColumn r => tabGet s.m_vEnergyPathTable nextColumn r)
      (GetImageWidth s))
    (h - 1) seam

/-- The method `FindVerticalSeam`; the second component is the engine with its `mutable`
cache members updated. -/
def FindVerticalSeam {α : Type} [LinearOrder α] [Add α] (s : SeamCarver α) :
    M (Seam × SeamCarver α) := do
  let s ← if !s.m_vEnergyPathTableIsValid then RecalcVerticalEnergyPathTable s else pure s
  let seam ← extractVerticalSeam s
  pure (seam, s)

/-- The part of `FindHorizontalSeam` after the cache check: seed and backtracking. -/
def extractHorizontalSeam {α : Type} [LinearOrder α] (s : SeamCarver α) : M Seam := do
  let w := GetImageWidth s
  let seam : Seam := List.replicate w 0
  let last ← vecBack s.m_hEnergyPathTable
  let seed ← minElement (fun x y => pure (decide (x < y))) last
  let seam ← vecSet seam (seam.length - 1) seed
  let h ← GetImageHeight s
  downLoop
    (backtrackStep (fun nextRow c => tabGet s.m_hEnergyPathTable c nextRow) h)
    (w - 1) seam

/-- The method `FindHorizontalSeam`; the second component is the engine with its `mutable`
cache members updated. -/
def FindHorizontalSeam {α : Type} [LinearOrder α] [Add α] (s : SeamCarver α) :
    M (Seam × SeamCarver α) := do
  let s ← if !s.m_hEnergyPathTableIsValid then RecalcHorizontalEnergyPathTable s else pure s
  let seam ← extractHorizontalSeam s
  pure (seam, s)

/-- The call `column.erase(column.begin() + i)`. -/
def vecErase {β : Type} (xs : List β) (i : Nat) : M (List β) :=
  if i < xs.length then pure (xs.eraseIdx i) else throw Fault.outOfRange

/-- The call `xs.pop_back()`. -/
def vecPopBack {β : Type} (xs : List β) : M (List β) :=
  if xs.length = 0 then throw Fault.outOfRange else pure xs.dropLast

/-- The method `RemoveHorizontalSeam`. -/
def RemoveHorizontalSeam {α : Type} (sqrt : Int → α) (s : SeamCarver α) (seam : Seam) :
    M (SeamCarver α) := do
  let s ← forLoop (fun columnId s => do
      let rowId ← vecGet seam columnId
      let column ← vecGet s.m_image.m_table columnId
      let column ← vecErase column rowId
      let s := { s with m_image := ⟨s.m_image.m_table.set columnId column⟩ }
      let s ← RecalcPixelEnergy sqrt s columnId (← modS rowId column.length)
      RecalcPixelEnergy sqrt s columnId (← modS (rowId + column.length - 1) column.length))
    0 (GetImageWidth s) s
  pure { s with m_hEnergyPathTableIsValid := false, m_vEnergyPathTableIsValid := false }

/-- The method `RemoveVerticalSeam`. -/
def RemoveVerticalSeam {α : Type} (sqrt : Int → α) (s : SeamCarver α) (seam : Seam) :
    M (SeamCarver α) := do
  let h ← GetImageHeight s
  let s ← forLoop (fun rowId s => do
      let newWidth := GetImageWidth s - 1
      let start ← vecGet seam rowId
      let img ← forLoop (fun columnId img => do
          tabSet img columnId rowId (← tabGet img (columnId + 1) rowId))
        start (newWidth - start) s.m_image.m_table
      let s := { s with m_image := ⟨img⟩ }
      let s ← RecalcPixelEnergy sqrt s (← modS start newWidth) rowId
      RecalcPixelEnergy sqrt s (← modS (start + newWidth - 1) newWidth) rowId)
    0 h s
  let img ← vecPopBack s.m_image.m_table
  pure { s with m_image := ⟨img⟩, m_hEnergyPathTableIsValid := false,
                m_vEnergyPathTableIsValid := false }

/-- A square root on `ℤ` for evaluating the engine on concrete images: the least `k ≥ 0`
with `n ≤ k * k`, which is the exact root whenever `n` is a perfect square. -/
def intSqrt (n : Int) : Int :=
  (((List.range (n.toNat + 1)).find? (fun k => decide (n.toNat ≤ k * k))).getD 0 : Nat)

/-- A pixel with only a red component. -/
def red (v : Int) : Pixel := ⟨v, 0, 0⟩


/-! ## Specification-side definitions -/

/-- A table all of whose `w` columns have `h` entries. -/
def Rect {β : Type} (t : List (List β)) (w h : Nat) : Prop :=
  t.length = w ∧ ∀ col ∈ t, col.length = h

instance {β : Type} (t : List (List β)) (w h : Nat) : Decidable (Rect t w h) := by
  unfold Rect; infer_instance


instance : Inhabited Pixel := ⟨⟨0, 0, 0⟩⟩

/-- Total table accessor: the entry `t[c][r]`, or `d` outside the table. -/
def tabGetD {β : Type} (t : List (List β)) (c r : Nat) (d : β) : β :=
  (t.getD c []).getD r d

/-- The pixel stored at column `c`, row `r` of an image. -/
def pixelAt (img : Image) (c r : Nat) : Pixel := tabGetD img.m_table c r default

/-- The argument of `std::sqrt` that `RecalcPixelEnergy` computes for cell `(c, r)` of an
image table whose width is `w` and whose `GetImageHeight` is `h`. -/
def pixelEnergyArg (t : List (List Pixel)) (w h c r : Nat) : Int :=
  0 + pairDiff (tabGetD t c ((r + 1) % h) default) (tabGetD t c ((r + h - 1) % h) default) +
    pairDiff (tabGetD t ((c + 1) % w) r default) (tabGetD t ((c + w - 1) % w) r default)

/-- Sum over the three channels of the squared difference of two pixels. -/
def channelSqDist (p q : Pixel) : Int :=
  (p.m_red - q.m_red) ^ 2 + (p.m_green - q.m_green) ^ 2 + (p.m_blue - q.m_blue) ^ 2

/-- The squared energy `S(c, r)` of the specification: squared per-channel differences of
the toroidal next/previous neighbours of `(c, r)` on both axes of a `W × H` grid `P`. -/
def specEnergySq (P : Nat → Nat → Pixel) (W H c r : Nat) : Int :=
  channelSqDist (P c ((r + 1) % H)) (P c ((r + H - 1) % H)) +
    channelSqDist (P ((c + 1) % W) r) (P ((c + W - 1) % W) r)

/-- All channels of a pixel lie in `[0, 255]`. -/
def Pixel.InRange (p : Pixel) : Prop :=
  (0 ≤ p.m_red ∧ p.m_red ≤ 255) ∧ (0 ≤ p.m_green ∧ p.m_green ≤ 255) ∧
    (0 ≤ p.m_blue ∧ p.m_blue ≤ 255)

instance (p : Pixel) : Decidable p.InRange := by
  unfold Pixel.InRange; infer_instance

/-- All channels of all pixels of an image lie in `[0, 255]`. -/
def Image.ChannelsInRange (img : Image) : Prop :=
  ∀ col ∈ img.m_table, ∀ p ∈ col, p.InRange

instance (img : Image) : Decidable img.ChannelsInRange := by
  unfold Image.ChannelsInRange; infer_instance

/-- Size invariant of an engine: the image is a `W × H` rectangle with both dimensions
positive, and the three tables are `TW × TH` rectangles (the dimensions the engine was
constructed with) that cover the image and stay below `maxDim`. -/
def Sized {α : Type} (s : SeamCarver α) (W H TW TH : Nat) : Prop :=
  Rect s.m_image.m_table W H ∧ 1 ≤ W ∧ 1 ≤ H ∧ W ≤ TW ∧ H ≤ TH ∧ TW ≤ maxDim ∧ TH ≤ maxDim ∧
    Rect s.m_energyTable TW TH ∧ Rect s.m_vEnergyPathTable TW TH ∧
    Rect s.m_hEnergyPathTable TW TH

instance {α : Type} (s : SeamCarver α) (W H TW TH : Nat) : Decidable (Sized s W H TW TH) := by
  unfold Sized; infer_instance

/-- The value that `RecalcVerticalEnergyPathTable` stores at row `r`, column `c` of the
vertical path table, as a function of the energies `e c r` and the image width `W`: row 0
is the energy, and each later row adds the smallest of the three entries of the previous
row at columns `BoundaryDiff c 1 W`, `BoundaryDiff c (-1) W` and `c`. -/
def vPathValue {α : Type} [LinearOrder α] [Add α] (e : Nat → Nat → α) (W : Nat) :
    Nat → Nat → α
  | 0, c => e c 0
  | r + 1, c =>
    e c (r + 1) +
      min (min (vPathValue e W r (BoundaryDiff c 1 W)) (vPathValue e W r (BoundaryDiff c (-1) W)))
        (vPathValue e W r c)

/-- The index that the candidate loop `for (const int &rowDiff : {0, -1, 1})` of the
backtracking selects from position `cur`, `g` giving the path value of a candidate: the
candidates are examined in the order `0, -1, 1` and a later one replaces the current choice
only when its value is strictly smaller. -/
def pickNext {α : Type} [LinearOrder α] (g : Nat → α) (cur bound : Nat) : Nat :=
  let c0 := BoundaryDiff cur 0 bound
  let c1 := BoundaryDiff cur (-1) bound
  let c2 := BoundaryDiff cur 1 bound
  let i1 := if g c1 < g c0 then c1 else c0
  if g c2 < g i1 then c2 else i1

/-- The energy stored at column `c`, row `r` of the engine's energy table. -/
def energyAt {α : Type} [Zero α] (s : SeamCarver α) (c r : Nat) : α :=
  tabGetD s.m_energyTable c r 0

/-- The entry at column `c`, row `r` of the engine's vertical path table. -/
def vPathAt {α : Type} [Zero α] (s : SeamCarver α) (c r : Nat) : α :=
  tabGetD s.m_vEnergyPathTable c r 0

/-- Total energy of a vertical seam: the sum over rows `r` of `energy[seam[r]][r]`. -/
def seamEnergy {α : Type} [AddCommMonoid α] (e : Nat → Nat → α) (seam : Seam) : α :=
  ∑ r in Finset.range seam.length, e (seam.getD r 0) r

/-- A vertical seam of a `W × H` image: one column index in `[0, W-1]` per row, consecutive
entries differing by at most 1. -/
def IsVerticalSeam (seam : Seam) (W H : Nat) : Prop :=
  seam.length = H ∧ (∀ x ∈ seam, x < W) ∧
    ∀ r, r + 1 < H → seam.getD r 0 ≤ seam.getD (r + 1) 0 + 1 ∧
      seam.getD (r + 1) 0 ≤ seam.getD r 0 + 1

/-- The value that `RecalcHorizontalEnergyPathTable` stores at column `c`, row `r` of the
horizontal path table, as a function of the energies `e c r` and the image height `H`:
column 0 is the energy, and each later column adds the smallest of the three entries of the
previous column at rows `BoundaryDiff r 1 H`, `BoundaryDiff r (-1) H` and `r`. -/
def hPathValue {α : Type} [LinearOrder α] [Add α] (e : Nat → Nat → α) (H : Nat) :
    Nat → Nat → α
  | 0, r => e 0 r
  | c + 1, r =>
    e (c + 1) r +
      min (min (hPathValue e H c (BoundaryDiff r 1 H)) (hPathValue e H c (BoundaryDiff r (-1) H)))
        (hPathValue e H c r)

/-- The entry at column `c`, row `r` of the engine's horizontal path table. -/
def hPathAt {α : Type} [Zero α] (s : SeamCarver α) (c r : Nat) : α :=
  tabGetD s.m_hEnergyPathTable c r 0

/-- The `3 × 3` image whose centre pixel `(1, 1)` is `bright` and whose other eight pixels
are `dark`. -/
def centreImage (dark bright : Pixel) : Image :=
  ⟨[[dark, dark, dark], [dark, bright, dark], [dark, dark, dark]]⟩

/-- The right-hand side of the vertical path recurrence as the specification words it, with
toroidal wraparound of the horizontal neighbours:
`energy[c][r] + min(path[c][r-1], path[(c-1) mod W][r-1], path[(c+1) mod W][r-1])`. -/
def toroidalRecurrenceRhs {α : Type} [LinearOrder α] [Add α] (e p : Nat → Nat → α)
    (W c r : Nat) : α :=
  e c r + min (min (p c (r - 1)) (p ((c + W - 1) % W) (r - 1))) (p ((c + 1) % W) (r - 1))

/-- The engine's step relation: the states reachable by constructing an engine and then
calling `FindVerticalSeam`, `FindHorizontalSeam`, `RemoveVerticalSeam` and
`RemoveHorizontalSeam` any number of times, each call being one that returns. -/
inductive Reachable {α : Type} [LinearOrder α] [Add α] [Zero α] (sqrt : Int → α) :
    SeamCarver α → Prop where
  | construct (img : Image) (s : SeamCarver α) :
      SeamCarver.new sqrt img = Except.ok s → Reachable sqrt s
  | findVertical (s : SeamCarver α) (seam : Seam) (s' : SeamCarver α) :
      Reachable sqrt s → FindVerticalSeam s = Except.ok (seam, s') → Reachable sqrt s'
  | findHorizontal (s : SeamCarver α) (seam : Seam) (s' : SeamCarver α) :
      Reachable sqrt s → FindHorizontalSeam s = Except.ok (seam, s') → Reachable sqrt s'
  | removeVertical (s : SeamCarver α) (seam : Seam) (s' : SeamCarver α) :
      Reachable sqrt s → RemoveVerticalSeam sqrt s seam = Except.ok s' → Reachable sqrt s'
  | removeHorizontal (s : SeamCarver α) (seam : Seam) (s' : SeamCarver α) :
      Reachable sqrt s → RemoveHorizontalSeam sqrt s seam = Except.ok s' → Reachable sqrt s'

/-- Cell `(c, r)` of the table `t` satisfies the recurrence of
`RecalcVerticalEnergyPathTable` for the energy table `e` and the width `W`: the three reads
of row `r - 1` and the read of the energy succeed and `t[c][r]` is their combination. -/
def VRec {α : Type} [LinearOrder α] [Add α] (e : Table α) (W : Nat) (t : Table α)
    (r c : Nat) : Prop :=
  ∃ ev a b d, tabGet e c r = Except.ok ev ∧
    tabGet t (BoundaryDiff c 1 W) (r - 1) = Except.ok a ∧
    tabGet t (BoundaryDiff c (-1) W) (r - 1) = Except.ok b ∧
    tabGet t c (r - 1) = Except.ok d ∧
    tabGet t c r = Except.ok (ev + min (min a b) d)

/-- Cell `(c, r)` of the table `t` satisfies the recurrence of
`RecalcHorizontalEnergyPathTable` for the energy table `e` and the height `H`. -/
def HRec {α : Type} [LinearOrder α] [Add α] (e : Table α) (H : Nat) (t : Table α)
    (c r : Nat) : Prop :=
  ∃ ev a b d, tabGet e c r = Except.ok ev ∧
    tabGet t (c - 1) (BoundaryDiff r 1 H) = Except.ok a ∧
    tabGet t (c - 1) (BoundaryDiff r (-1) H) = Except.ok b ∧
    tabGet t (c - 1) r = Except.ok d ∧
    tabGet t c r = Except.ok (ev + min (min a b) d)

/-! ## Concrete engines used to instantiate the theorems -/

/-- A `3 × 3` image all of whose energies have exact integer square roots. -/
def sampleImage : Image :=
  ⟨[[red 0, red 3, red 0], [red 4, red 0, red 4], [red 0, red 3, red 0]]⟩

/-- The engine that the constructor returns for `sampleImage` (with `intSqrt`). -/
def sampleEngine : SeamCarver Int :=
  { m_image := sampleImage
    m_energyTable := [[5, 3, 5], [4, 0, 4], [5, 3, 5]]
    m_vEnergyPathTable := [[0, 0, 0], [0, 0, 0], [0, 0, 0]]
    m_hEnergyPathTable := [[0, 0, 0], [0, 0, 0], [0, 0, 0]]
    m_vEnergyPathTableIsValid := false
    m_hEnergyPathTableIsValid := false }

/-! ## Reasoning principles for `M`, vectors, tables and loops -/

theorem pure_eq_ok {β : Type} (x : β) : (pure x : M β) = Except.ok x := rfl

theorem throw_eq_error {β : Type} (e : Fault) : (throw e : M β) = Except.error e := rfl

theorem ok_bind {β γ : Type} (x : β) (f : β → M γ) : (Except.ok x : M β) >>= f = f x := rfl

theorem error_bind {β γ : Type} (e : Fault) (f : β → M γ) :
    (Except.error e : M β) >>= f = Except.error e := rfl

theorem bind_eq_ok {β γ : Type} {m : M β} {f : β → M γ} {y : γ} :
    m >>= f = Except.ok y ↔ ∃ x, m = Except.ok x ∧ f x = Except.ok y := by
  cases m with
  | error e => simp [error_bind]
  | ok x => simp [ok_bind]

theorem vecGet_eq_ok {β : Type} {xs : List β} {i : Nat} {x : β} :
    vecGet xs i = Except.ok x ↔ xs[i]? = some x := by
  unfold vecGet
  cases h : xs[i]? <;> simp [pure_eq_ok, throw_eq_error]

theorem vecGet_of_lt {β : Type} {xs : List β} {i : Nat} (h : i < xs.length) :
    vecGet xs i = Except.ok xs[i] := by
  rw [vecGet_eq_ok]; exact List.getElem?_eq_getElem h

theorem vecGet_lt {β : Type} {xs : List β} {i : Nat} {x : β} (h : vecGet xs i = Except.ok x) :
    i < xs.length := by
  rw [vecGet_eq_ok] at h
  exact (List.getElem?_eq_some_iff.mp h).1

theorem vecSet_of_lt {β : Type} {xs : List β} {i : Nat} (v : β) (h : i < xs.length) :
    vecSet xs i v = Except.ok (xs.set i v) := by
  simp [vecSet, h, pure_eq_ok]

theorem vecSet_eq_ok {β : Type} {xs ys : List β} {i : Nat} {v : β} :
    vecSet xs i v = Except.ok ys ↔ i < xs.length ∧ ys = xs.set i v := by
  unfold vecSet
  by_cases h : i < xs.length <;> simp [h, pure_eq_ok, throw_eq_error, eq_comm]

theorem modS_of_pos {a b : Nat} (h : 0 < b) : modS a b = Except.ok (a % b) := by
  simp [modS, Nat.pos_iff_ne_zero.mp h, pure_eq_ok]

theorem modS_zero (a : Nat) : modS a 0 = Except.error Fault.modZero := by
  simp [modS, throw_eq_error]

theorem tabGet_eq_ok {β : Type} {t : List (List β)} {c r : Nat} {x : β} :
    tabGet t c r = Except.ok x ↔ ∃ col, t[c]? = some col ∧ col[r]? = some x := by
  simp [tabGet, bind_eq_ok, vecGet_eq_ok]

theorem tabSet_eq_ok {β : Type} {t t' : List (List β)} {c r : Nat} {v : β} :
    tabSet t c r v = Except.ok t' ↔
      ∃ col, t[c]? = some col ∧ r < col.length ∧ t' = t.set c (col.set r v) := by
  simp only [tabSet, bind_eq_ok, vecGet_eq_ok, vecSet_eq_ok]
  constructor
  · rintro ⟨col, hc, col', ⟨hr, rfl⟩, _, rfl⟩
    exact ⟨col, hc, hr, rfl⟩
  · rintro ⟨col, hc, hr, rfl⟩
    exact ⟨col, hc, _, ⟨hr, rfl⟩, (List.getElem?_eq_some_iff.mp hc).1, rfl⟩

/-- A table write succeeds exactly where a table read does. -/
theorem tabSet_ok_of_tabGet {β : Type} {t : List (List β)} {c r : Nat} {x : β} (v : β)
    (h : tabGet t c r = Except.ok x) : ∃ t', tabSet t c r v = Except.ok t' := by
  obtain ⟨col, hc, hr⟩ := tabGet_eq_ok.mp h
  exact ⟨_, tabSet_eq_ok.mpr ⟨col, hc, (List.getElem?_eq_some_iff.mp hr).1, rfl⟩⟩

/-- Reading a table after a write. -/
theorem tabGet_tabSet {β : Type} {t t' : List (List β)} {c r : Nat} {v : β}
    (h : tabSet t c r v = Except.ok t') (c' r' : Nat) :
    tabGet t' c' r' = if c' = c ∧ r' = r then Except.ok v else tabGet t c' r' := by
  obtain ⟨col, hc, hr, rfl⟩ := tabSet_eq_ok.mp h
  have hcl := (List.getElem?_eq_some_iff.mp hc).1
  by_cases h1 : c' = c
  · subst h1
    by_cases h2 : r' = r
    · subst h2
      simp [tabGet, vecGet, List.getElem?_set, hcl, hr, pure_eq_ok, ok_bind]
    · have h2' : ¬ r = r' := fun e => h2 e.symm
      simp [tabGet, vecGet, List.getElem?_set, hcl, hc, h2, h2', pure_eq_ok, ok_bind]
  · have h1' : ¬ c = c' := fun e => h1 e.symm
    simp [tabGet, vecGet, List.getElem?_set, h1, h1']

/-- A table write keeps the shape of the table. -/
theorem tabSet_lengths {β : Type} {t t' : List (List β)} {c r : Nat} {v : β}
    (h : tabSet t c r v = Except.ok t') : t'.map List.length = t.map List.length := by
  obtain ⟨col, hc, hr, rfl⟩ := tabSet_eq_ok.mp h
  obtain ⟨hcl, rfl⟩ := List.getElem?_eq_some_iff.mp hc
  apply List.ext_getElem?
  intro i
  by_cases hi : c = i
  · subst hi
    simp [List.getElem?_set, hcl]
  · simp [List.getElem?_set, hi]

theorem rect_iff_lengths {β : Type} (t : List (List β)) (w h : Nat) :
    Rect t w h ↔ t.map List.length = List.replicate w h := by
  unfold Rect
  constructor
  · rintro ⟨hl, hc⟩
    apply List.ext_getElem
    · simp [hl]
    · intro i h1 h2
      simp only [List.getElem_map, List.getElem_replicate]
      exact hc _ (List.getElem_mem _)
  · intro h1
    have hl : t.length = w := by simpa using congrArg List.length h1
    refine ⟨hl, fun col hcol => ?_⟩
    have : col.length ∈ t.map List.length := List.mem_map_of_mem _ hcol
    rw [h1] at this
    exact (List.mem_replicate.mp this).2

theorem tabSet_rect {β : Type} {t t' : List (List β)} {c r : Nat} {v : β} {w h : Nat}
    (hs : tabSet t c r v = Except.ok t') (hr : Rect t w h) : Rect t' w h := by
  rw [rect_iff_lengths] at hr ⊢
  rw [tabSet_lengths hs, hr]

theorem rect_getElem? {β : Type} {t : List (List β)} {w h : Nat} (hr : Rect t w h)
    {c : Nat} (hc : c < w) : ∃ col, t[c]? = some col ∧ col.length = h := by
  have hl : c < t.length := by rw [hr.1]; exact hc
  exact ⟨t[c], List.getElem?_eq_getElem hl, hr.2 _ (List.getElem_mem _)⟩

/-- Inside a rectangular table every read succeeds. -/
theorem rect_tabGet {β : Type} {t : List (List β)} {w h : Nat} (hr : Rect t w h)
    {c r : Nat} (hc : c < w) (hrow : r < h) : ∃ x, tabGet t c r = Except.ok x := by
  obtain ⟨col, h1, h2⟩ := rect_getElem? hr hc
  have : r < col.length := by omega
  exact ⟨col[r], tabGet_eq_ok.mpr ⟨col, h1, List.getElem?_eq_getElem this⟩⟩

/-- Hoare rule for the ascending loop: if the invariant `P i s` holds initially, every
iteration re-establishes it without faulting, and at exit it implies `Q`, then the loop
returns a state satisfying `Q`. -/
theorem forLoop_inv {β : Type} (body : Nat → β → M β) (P : Nat → β → Prop) (Q : β → Prop) :
    ∀ (count start : Nat) (s : β), P start s →
      (∀ i s, start ≤ i → i < start + count → P i s →
        ∃ s', body i s = Except.ok s' ∧ P (i + 1) s') →
      (∀ s', P (start + count) s' → Q s') →
      ∃ s', forLoop body start count s = Except.ok s' ∧ Q s' := by
  intro count
  induction count with
  | zero => intro start s h0 _ hQ; exact ⟨s, rfl, hQ s h0⟩
  | succ n ih =>
    intro start s h0 hstep hQ
    obtain ⟨s1, hb, hP⟩ := hstep start s (le_refl _) (by omega) h0
    obtain ⟨s2, hl, hP2⟩ := ih (start + 1) s1 hP
      (fun i s hi hlt hp => hstep i s (by omega) (by omega) hp)
      (fun s' hp => hQ s' (by
        have : start + (n + 1) = start + 1 + n := by omega
        rw [this]; exact hp))
    refine ⟨s2, ?_, hP2⟩
    show (body start s >>= fun s' => forLoop body (start + 1) n s') = _
    rw [hb, ok_bind, hl]

/-- Hoare rule for the descending loop. -/
theorem downLoop_inv {β : Type} (body : Nat → β → M β) (P : Nat → β → Prop) (Q : β → Prop) :
    ∀ (top : Nat) (s : β), P top s →
      (∀ i s, 0 < i → i ≤ top → P i s → ∃ s', body i s = Except.ok s' ∧ P (i - 1) s') →
      (∀ s', P 0 s' → Q s') →
      ∃ s', downLoop body top s = Except.ok s' ∧ Q s' := by
  intro top
  induction top with
  | zero => intro s h0 _ hQ; exact ⟨s, rfl, hQ s h0⟩
  | succ n ih =>
    intro s h0 hstep hQ
    obtain ⟨s1, hb, hP⟩ := hstep (n + 1) s (by omega) (le_refl _) h0
    obtain ⟨s2, hl, hP2⟩ := ih s1 hP (fun i s hi hle hp => hstep i s hi (by omega) hp) hQ
    refine ⟨s2, ?_, hP2⟩
    show (body (n + 1) s >>= fun s' => downLoop body n s') = _
    rw [hb, ok_bind, hl]

/-! ## Energy computation -/

theorem tabGetD_of_tabGet {β : Type} {t : List (List β)} {c r : Nat} {x : β} (d : β)
    (h : tabGet t c r = Except.ok x) : tabGetD t c r d = x := by
  obtain ⟨col, hc, hr⟩ := tabGet_eq_ok.mp h
  simp [tabGetD, List.getD, hc, hr]

theorem tabGet_of_rect {β : Type} {t : List (List β)} {w h : Nat} (hr : Rect t w h)
    {c r : Nat} (hc : c < w) (hrow : r < h) (d : β) :
    tabGet t c r = Except.ok (tabGetD t c r d) := by
  obtain ⟨x, hx⟩ := rect_tabGet hr hc hrow
  rw [hx, tabGetD_of_tabGet d hx]

/-- A read succeeds in a table whose column `c` exists and has more than `r` entries. -/
theorem tabGet_of_col {β : Type} {t : List (List β)} {c r : Nat} {col : List β}
    (hc : t[c]? = some col) (hr : r < col.length) (d : β) :
    tabGet t c r = Except.ok (tabGetD t c r d) := by
  have h : tabGet t c r = Except.ok col[r] :=
    tabGet_eq_ok.mpr ⟨col, hc, List.getElem?_eq_getElem hr⟩
  rw [h, tabGetD_of_tabGet d h]

theorem GetImageHeight_eq_ok {α : Type} {s : SeamCarver α} {h : Nat} :
    GetImageHeight s = Except.ok h ↔ ∃ col, s.m_image.m_table[0]? = some col ∧ col.length = h := by
  simp [GetImageHeight, bind_eq_ok, vecGet_eq_ok, pure_eq_ok]

theorem GetImageHeight_of_rect {α : Type} {s : SeamCarver α} {W H : Nat}
    (hr : Rect s.m_image.m_table W H) (hW : 1 ≤ W) : GetImageHeight s = Except.ok H := by
  obtain ⟨col, h1, h2⟩ := rect_getElem? hr (c := 0) (by omega)
  exact GetImageHeight_eq_ok.mpr ⟨col, h1, h2⟩

/-- `RecalcPixelEnergy` on an image all of whose columns have at least `h` entries, `h`
being the height `GetImageHeight` reports: it overwrites energy cell `(c, r)` with the
square root of `pixelEnergyArg` and changes nothing else. -/
theorem RecalcPixelEnergy_spec {α : Type} (sqrt : Int → α) (s : SeamCarver α) {h c r : Nat}
    (hh : GetImageHeight s = Except.ok h)
    (hcols : ∀ col ∈ s.m_image.m_table, h ≤ col.length)
    (hc : c < s.m_image.m_table.length) (hr : r < h)
    {x : α} (he : tabGet s.m_energyTable c r = Except.ok x) :
    ∃ e', tabSet s.m_energyTable c r
        (sqrt (pixelEnergyArg s.m_image.m_table (GetImageWidth s) h c r)) = Except.ok e' ∧
      RecalcPixelEnergy sqrt s c r = Except.ok { s with m_energyTable := e' } := by
  obtain ⟨e', he'⟩ := tabSet_ok_of_tabGet
    (sqrt (pixelEnergyArg s.m_image.m_table (GetImageWidth s) h c r)) he
  refine ⟨e', he', ?_⟩
  have hw : 0 < GetImageWidth s := by unfold GetImageWidth; omega
  have hpos : 0 < h := by omega
  have rd : ∀ c' r', c' < s.m_image.m_table.length → r' < h →
      tabGet s.m_image.m_table c' r' =
        Except.ok (tabGetD s.m_image.m_table c' r' default) := by
    intro c' r' hc' hr'
    have hm : s.m_image.m_table[c'] ∈ s.m_image.m_table := List.getElem_mem _
    have := hcols _ hm
    exact tabGet_of_col (List.getElem?_eq_getElem hc') (by omega) default
  have m1 : (r + 1) % h < h := Nat.mod_lt _ hpos
  have m2 : (r + h - 1) % h < h := Nat.mod_lt _ hpos
  have m3 : (c + 1) % GetImageWidth s < s.m_image.m_table.length := Nat.mod_lt _ hw
  have m4 : (c + GetImageWidth s - 1) % GetImageWidth s < s.m_image.m_table.length :=
    Nat.mod_lt _ hw
  unfold RecalcPixelEnergy
  simp only [hh, ok_bind, modS_of_pos hpos, modS_of_pos hw, rd _ _ hc m1, rd _ _ hc m2,
    rd _ _ m3 hr, rd _ _ m4 hr]
  unfold pixelEnergyArg at he'
  rw [he']
  rfl

/-- `RecalcTableEnergy` fills every cell `(c, r)` of the `W × H` image area of the energy
table with the square root of `pixelEnergyArg` and changes nothing else. -/
theorem RecalcTableEnergy_spec {α : Type} (sqrt : Int → α) (s : SeamCarver α)
    {W H TW TH : Nat} (himg : Rect s.m_image.m_table W H) (hW : 1 ≤ W)
    (he : Rect s.m_energyTable TW TH) (hWT : W ≤ TW) (hHT : H ≤ TH) :
    ∃ s', RecalcTableEnergy sqrt s = Except.ok s' ∧
      ∃ e', s' = { s with m_energyTable := e' } ∧ Rect e' TW TH ∧
      ∀ c r, tabGet e' c r =
        if c < W ∧ r < H then Except.ok (sqrt (pixelEnergyArg s.m_image.m_table W H c r))
        else tabGet s.m_energyTable c r := by
  unfold RecalcTableEnergy
  have hw : GetImageWidth s = W := himg.1
  rw [hw]
  refine forLoop_inv _
    (fun i s' => ∃ e', s' = { s with m_energyTable := e' } ∧ Rect e' TW TH ∧
      ∀ c r, tabGet e' c r =
        if c < i ∧ r < H then Except.ok (sqrt (pixelEnergyArg s.m_image.m_table W H c r))
        else tabGet s.m_energyTable c r)
    _ W 0 s ⟨s.m_energyTable, rfl, he, by simp⟩ ?_ ?_
  · rintro i s1 - hi ⟨e1, rfl, hr1, hc1⟩
    have hh : GetImageHeight { s with m_energyTable := e1 } = Except.ok H :=
      GetImageHeight_of_rect himg hW
    simp only [hh, ok_bind]
    refine forLoop_inv _
      (fun j s' => ∃ e', s' = { s with m_energyTable := e' } ∧ Rect e' TW TH ∧
        ∀ c r, tabGet e' c r =
          if (c < i ∧ r < H) ∨ (c = i ∧ r < j) then
            Except.ok (sqrt (pixelEnergyArg s.m_image.m_table W H c r))
          else tabGet s.m_energyTable c r)
      _ H 0 { s with m_energyTable := e1 } ⟨e1, rfl, hr1, by
        intro c r; rw [hc1]; simp⟩ ?_ ?_
    · rintro j s3 - hj ⟨e3, rfl, hr3, hc3⟩
      obtain ⟨x, hx⟩ := rect_tabGet hr3 (c := i) (r := j) (by omega) (by omega)
      obtain ⟨e4, hset, hrec⟩ := RecalcPixelEnergy_spec sqrt
        { s with m_energyTable := e3 } (h := H) (c := i) (r := j) hh
        (fun col hcol => le_of_eq (himg.2 col hcol).symm)
        (by show i < s.m_image.m_table.length; rw [himg.1]; omega) (by omega) hx
      refine ⟨_, hrec, e4, rfl, tabSet_rect hset hr3, ?_⟩
      intro c r
      have hw' : GetImageWidth { s with m_energyTable := e3 } = W := himg.1
      rw [hw'] at hset
      rw [tabGet_tabSet hset, hc3]
      split_ifs with h1 h2 h3 h4 <;>
        first
        | rfl
        | (exfalso; omega)
        | (obtain ⟨rfl, rfl⟩ := h1; rfl)
    · rintro s2 ⟨e2, rfl, hr2, hc2⟩
      refine ⟨e2, rfl, hr2, ?_⟩
      intro c r
      rw [hc2]
      split_ifs with h1 h2 h2 <;> first | rfl | (exfalso; omega)
  · rintro s2 ⟨e2, rfl, hr2, hc2⟩
    exact ⟨e2, rfl, hr2, by simpa using hc2⟩

theorem rect_replicate {β : Type} (w h : Nat) (x : β) :
    Rect (List.replicate w (List.replicate h x)) w h := by
  refine ⟨by simp, fun col hcol => ?_⟩
  rw [(List.mem_replicate.mp hcol).2]; simp

/-- The constructor on a `W × H` image with `W ≥ 1`: it returns an engine that owns the
image, whose energy table holds the square root of `pixelEnergyArg` in every cell, whose
path tables are zero-filled and whose validity flags are false. -/
theorem new_spec {α : Type} [Zero α] (sqrt : Int → α) (img : Image) {W H : Nat}
    (himg : Rect img.m_table W H) (hW : 1 ≤ W) :
    ∃ s, SeamCarver.new sqrt img = Except.ok s ∧ s.m_image = img ∧
      Rect s.m_energyTable W H ∧
      s.m_vEnergyPathTable = List.replicate W (List.replicate H 0) ∧
      s.m_hEnergyPathTable = List.replicate W (List.replicate H 0) ∧
      s.m_vEnergyPathTableIsValid = false ∧ s.m_hEnergyPathTableIsValid = false ∧
      ∀ c r, c < W → r < H →
        tabGet s.m_energyTable c r = Except.ok (sqrt (pixelEnergyArg img.m_table W H c r)) := by
  unfold SeamCarver.new
  have hh : GetImageHeight (⟨img, [], [], [], false, false⟩ : SeamCarver α) = Except.ok H :=
    GetImageHeight_of_rect (s := ⟨img, [], [], [], false, false⟩) himg hW
  simp only [hh, ok_bind, GetImageWidth, himg.1]
  obtain ⟨s', hs', e', rfl, hrect, hcells⟩ := RecalcTableEnergy_spec sqrt
    ({ m_image := img, m_energyTable := List.replicate W (List.replicate H 0),
       m_vEnergyPathTable := List.replicate W (List.replicate H 0),
       m_hEnergyPathTable := List.replicate W (List.replicate H 0),
       m_vEnergyPathTableIsValid := false,
       m_hEnergyPathTableIsValid := false } : SeamCarver α)
    himg hW (rect_replicate W H 0) (le_refl _) (le_refl _)
  refine ⟨_, hs', rfl, hrect, rfl, rfl, rfl, rfl, ?_⟩
  intro c r hc hr
  rw [hcells]
  simp [hc, hr]

/-- A freshly constructed engine satisfies the size invariant with the tables exactly as
large as the image. -/
theorem new_sized {α : Type} [Zero α] (sqrt : Int → α) (img : Image) {W H : Nat}
    (himg : Rect img.m_table W H) (hW : 1 ≤ W) (hH : 1 ≤ H) (hWm : W ≤ maxDim)
    (hHm : H ≤ maxDim) {s : SeamCarver α} (hs : SeamCarver.new sqrt img = Except.ok s) :
    Sized s W H W H := by
  obtain ⟨s', hs', h1, h2, h3, h4, -⟩ := new_spec sqrt img himg hW
  rw [hs] at hs'
  cases hs'
  refine ⟨by rw [h1]; exact himg, hW, hH, le_refl _, le_refl _, hWm, hHm, h2, ?_, ?_⟩
  · rw [h3]; exact rect_replicate W H 0
  · rw [h4]; exact rect_replicate W H 0

theorem pairDiff_eq_channelSqDist (p q : Pixel) : pairDiff p q = channelSqDist p q := by
  unfold pairDiff channelSqDist; ring

theorem channelSqDist_nonneg (p q : Pixel) : 0 ≤ channelSqDist p q := by
  unfold channelSqDist; positivity

/-- The argument of the square root computed by the code is the squared energy of the
specification. -/
theorem pixelEnergyArg_eq_spec (img : Image) (W H c r : Nat) :
    pixelEnergyArg img.m_table W H c r = specEnergySq (pixelAt img) W H c r := by
  unfold pixelEnergyArg specEnergySq pixelAt
  rw [pairDiff_eq_channelSqDist, pairDiff_eq_channelSqDist, zero_add]

theorem specEnergySq_nonneg (P : Nat → Nat → Pixel) (W H c r : Nat) :
    0 ≤ specEnergySq P W H c r :=
  add_nonneg (channelSqDist_nonneg _ _) (channelSqDist_nonneg _ _)

/-- Frame form of `RecalcPixelEnergy_spec`: the call succeeds, keeps the energy table's
shape and leaves every energy cell other than `(c, r)` and every other member alone. -/
theorem RecalcPixelEnergy_frame {α : Type} (sqrt : Int → α) (s : SeamCarver α)
    {h c r TW TH : Nat} (hh : GetImageHeight s = Except.ok h)
    (hcols : ∀ col ∈ s.m_image.m_table, h ≤ col.length)
    (hc : c < s.m_image.m_table.length) (hr : r < h)
    (he : Rect s.m_energyTable TW TH) (hcT : c < TW) (hrT : r < TH) :
    ∃ e', RecalcPixelEnergy sqrt s c r = Except.ok { s with m_energyTable := e' } ∧
      Rect e' TW TH ∧
      ∀ c' r', ¬ (c' = c ∧ r' = r) → tabGet e' c' r' = tabGet s.m_energyTable c' r' := by
  obtain ⟨x, hx⟩ := rect_tabGet he hcT hrT
  obtain ⟨e', hset, hrec⟩ := RecalcPixelEnergy_spec sqrt s hh hcols hc hr hx
  refine ⟨e', hrec, tabSet_rect hset he, fun c' r' hne => ?_⟩
  rw [tabGet_tabSet hset, if_neg hne]

theorem vecPopBack_of_pos {β : Type} {xs : List β} (h : 0 < xs.length) :
    vecPopBack xs = Except.ok xs.dropLast := by
  simp [vecPopBack, Nat.pos_iff_ne_zero.mp h, pure_eq_ok]

theorem tabGet_dropLast {β : Type} (t : List (List β)) {c : Nat} (hc : c < t.length - 1)
    (r : Nat) : tabGet t.dropLast c r = tabGet t c r := by
  have : t.dropLast[c]? = t[c]? := by
    rw [List.dropLast_eq_take, List.getElem?_take]
    simp [hc]
  simp [tabGet, vecGet, this]

theorem rect_dropLast {β : Type} {t : List (List β)} {w h : Nat} (hr : Rect t w h) :
    Rect t.dropLast (w - 1) h :=
  ⟨by simp [hr.1], fun col hcol => hr.2 col (List.mem_of_mem_dropLast hcol)⟩

theorem exists_bind_ok {β γ : Type} {m : M β} {k : β → M γ} {Q : γ → Prop}
    (h : ∃ x, m = Except.ok x ∧ ∃ y, k x = Except.ok y ∧ Q y) :
    ∃ y, m >>= k = Except.ok y ∧ Q y := by
  obtain ⟨x, hx, y, hy, hq⟩ := h
  exact ⟨y, by rw [hx, ok_bind, hy], hq⟩

theorem vecGet_getD {β : Type} {xs : List β} {i : Nat} (h : i < xs.length) (d : β) :
    vecGet xs i = Except.ok (xs.getD i d) := by
  rw [vecGet_of_lt h]
  simp [List.getD, List.getElem?_eq_getElem h]

/-- `RemoveVerticalSeam` on a sized engine of width at least 2 with a seam of one entry per
row: the call succeeds; in every row the pixels right of the seam entry move one column
left and the last column is dropped; energy cells other than the two patched per row keep
their values; the path tables are untouched and both validity flags are cleared. -/
theorem RemoveVerticalSeam_spec {α : Type} (sqrt : Int → α) (s : SeamCarver α) (seam : Seam)
    {W H TW TH : Nat} (hs : Sized s W H TW TH) (hW : 2 ≤ W) (hlen : seam.length = H) :
    ∃ s', RemoveVerticalSeam sqrt s seam = Except.ok s' ∧
      ∃ img e, s' = { s with m_image := ⟨img⟩, m_energyTable := e,
                             m_hEnergyPathTableIsValid := false,
                             m_vEnergyPathTableIsValid := false } ∧
        Rect img (W - 1) H ∧ Rect e TW TH ∧
        (∀ c r, c < W - 1 → r < H → tabGet img c r =
          tabGet s.m_image.m_table (if c < seam.getD r 0 then c else c + 1) r) ∧
        (∀ c r, (r < H → c ≠ seam.getD r 0 % (W - 1) ∧
            c ≠ (seam.getD r 0 + (W - 1) - 1) % (W - 1)) →
          tabGet e c r = tabGet s.m_energyTable c r) := by
  obtain ⟨himg, hW1, hH1, hWT, hHT, hTW, hTH, he, hv, hh⟩ := hs
  unfold RemoveVerticalSeam
  rw [GetImageHeight_of_rect himg hW1]
  simp only [ok_bind]
  apply exists_bind_ok
  refine forLoop_inv _
    (fun i s1 => ∃ img e, s1 = { s with m_image := ⟨img⟩, m_energyTable := e } ∧
      Rect img W H ∧ Rect e TW TH ∧
      (∀ c r, tabGet img c r =
        if r < i ∧ seam.getD r 0 ≤ c ∧ c < W - 1 then tabGet s.m_image.m_table (c + 1) r
        else tabGet s.m_image.m_table c r) ∧
      (∀ c r, (r < i → c ≠ seam.getD r 0 % (W - 1) ∧
          c ≠ (seam.getD r 0 + (W - 1) - 1) % (W - 1)) →
        tabGet e c r = tabGet s.m_energyTable c r))
    _ H 0 s ⟨s.m_image.m_table, s.m_energyTable, rfl, himg, he, by simp, fun _ _ _ => rfl⟩ ?_ ?_
  · rintro i s1 - hi ⟨img1, e1, rfl, himg1, he1, hc1, hf1⟩
    have hiH : i < H := by omega
    have hw1 : GetImageWidth ({ s with m_image := ⟨img1⟩, m_energyTable := e1 }) = W := himg1.1
    simp only [hw1, vecGet_getD (show i < seam.length by omega) 0, ok_bind]
    apply exists_bind_ok
    refine forLoop_inv _
      (fun j img2 => Rect img2 W H ∧
        ∀ c r, tabGet img2 c r =
          if (r < i ∧ seam.getD r 0 ≤ c ∧ c < W - 1) ∨ (r = i ∧ seam.getD i 0 ≤ c ∧ c < j) then
            tabGet s.m_image.m_table (c + 1) r
          else tabGet s.m_image.m_table c r)
      _ (W - 1 - seam.getD i 0) (seam.getD i 0) img1 ⟨himg1, by
        intro c r; rw [hc1]
        split_ifs with h1 h2 h2 <;> first | rfl | (exfalso; omega)⟩ ?_ ?_
    · rintro j img2 hj1 hj2 ⟨himg2, hc2⟩
      have hread : tabGet img2 (j + 1) i = tabGet s.m_image.m_table (j + 1) i := by
        rw [hc2, if_neg]; omega
      obtain ⟨v, hv'⟩ := rect_tabGet himg (c := j + 1) (r := i) (by omega) hiH
      obtain ⟨x, hx⟩ := rect_tabGet himg2 (c := j) (r := i) (by omega) hiH
      obtain ⟨img3, hset⟩ := tabSet_ok_of_tabGet v hx
      rw [hread, hv']
      simp only [ok_bind]
      refine ⟨img3, hset, tabSet_rect hset himg2, ?_⟩
      intro c r
      rw [tabGet_tabSet hset, hc2]
      split_ifs with h1 h2 h3 h4 h5 <;>
        first
        | rfl
        | (exfalso; omega)
        | (obtain ⟨rfl, rfl⟩ := h1; exact hv'.symm)
    · rintro img2 ⟨himg2, hc2⟩
      have hpos : 0 < W - 1 := by omega
      simp only [modS_of_pos hpos, ok_bind]
      have hh2 : ∀ e : Table α, GetImageHeight ({ s with m_image := ⟨img2⟩, m_energyTable := e })
          = Except.ok H := fun e => GetImageHeight_of_rect himg2 hW1
      have hcols : ∀ col ∈ img2, H ≤ col.length := fun col hcol => le_of_eq (himg2.2 col hcol).symm
      have hm1 : seam.getD i 0 % (W - 1) < W - 1 := Nat.mod_lt _ hpos
      have hm2 : (seam.getD i 0 + (W - 1) - 1) % (W - 1) < W - 1 := Nat.mod_lt _ hpos
      obtain ⟨e2, hrec2, he2, hf2⟩ := RecalcPixelEnergy_frame sqrt
        ({ s with m_image := ⟨img2⟩, m_energyTable := e1 }) (hh2 e1) hcols
        (by show seam.getD i 0 % (W - 1) < img2.length; rw [himg2.1]; omega) hiH he1
        (by omega) (by omega)
      obtain ⟨e3, hrec3, he3, hf3⟩ := RecalcPixelEnergy_frame sqrt
        ({ s with m_image := ⟨img2⟩, m_energyTable := e2 }) (hh2 e2) hcols
        (by show (seam.getD i 0 + (W - 1) - 1) % (W - 1) < img2.length; rw [himg2.1]; omega)
        hiH he2 (by omega) (by omega)
      refine ⟨_, by rw [hrec2, ok_bind]; exact hrec3, img2, e3, rfl, himg2, he3, ?_, ?_⟩
      · intro c r
        rw [hc2]
        by_cases hri : r = i
        · subst hri
          split_ifs with h1 h2 h2 <;> first | rfl | (exfalso; omega)
        · split_ifs with h1 h2 h2 <;> first | rfl | (exfalso; omega)
      · intro c r hcr
        have hne1 : ¬ (c = (seam.getD i 0 + (W - 1) - 1) % (W - 1) ∧ r = i) := by
          rintro ⟨rfl, rfl⟩; exact (hcr (by omega)).2 rfl
        have hne2 : ¬ (c = seam.getD i 0 % (W - 1) ∧ r = i) := by
          rintro ⟨rfl, rfl⟩; exact (hcr (by omega)).1 rfl
        show tabGet e3 c r = _
        rw [hf3 c r hne1]
        show tabGet e2 c r = _
        rw [hf2 c r hne2]
        exact hf1 c r (fun hlt => hcr (by omega))
  · rintro s1 ⟨img1, e1, rfl, himg1, he1, hc1, hf1⟩
    have hpos : 0 < img1.length := by rw [himg1.1]; omega
    simp only [vecPopBack_of_pos hpos, ok_bind, pure_eq_ok]
    refine ⟨_, rfl, img1.dropLast, e1, rfl, rect_dropLast himg1, he1, ?_, ?_⟩
    · intro c r hc hr
      rw [tabGet_dropLast img1 (by rw [himg1.1]; exact hc), hc1]
      split_ifs with h1 h2 h2 <;> first | rfl | (exfalso; omega)
    · intro c r hcr
      exact hf1 c r (by simpa using hcr)

theorem vecErase_of_lt {β : Type} {xs : List β} {i : Nat} (h : i < xs.length) :
    vecErase xs i = Except.ok (xs.eraseIdx i) := by
  simp [vecErase, h, pure_eq_ok]

theorem getD_lt_of_forall {seam : Seam} {n b : Nat} (hin : ∀ x ∈ seam, x < b) (hb : 0 < b) :
    seam.getD n 0 < b := by
  by_cases h : n < seam.length
  · have : seam.getD n 0 = seam[n] := by simp [List.getD, List.getElem?_eq_getElem h]
    rw [this]; exact hin _ (List.getElem_mem _)
  · have : seam.getD n 0 = 0 := by
      simp [List.getD, List.getElem?_eq_none (Nat.le_of_not_lt h)]
    rw [this]; exact hb

/-- `RemoveHorizontalSeam` on a sized engine of height at least 2 with a seam of one valid
row per column: the call succeeds; every column loses exactly the entry at its seam row;
energy cells other than the two patched per column keep their values; the path tables are
untouched and both validity flags are cleared. -/
theorem RemoveHorizontalSeam_spec {α : Type} (sqrt : Int → α) (s : SeamCarver α) (seam : Seam)
    {W H TW TH : Nat} (hs : Sized s W H TW TH) (hH : 2 ≤ H) (hlen : seam.length = W)
    (hin : ∀ x ∈ seam, x < H) :
    ∃ s', RemoveHorizontalSeam sqrt s seam = Except.ok s' ∧
      ∃ img e, s' = { s with m_image := ⟨img⟩, m_energyTable := e,
                             m_hEnergyPathTableIsValid := false,
                             m_vEnergyPathTableIsValid := false } ∧
        Rect img W (H - 1) ∧ Rect e TW TH ∧
        (∀ c : Nat, img[c]? =
          (s.m_image.m_table[c]?).map (fun col : List Pixel => col.eraseIdx (seam.getD c 0))) ∧
        (∀ c r, (c < W → r ≠ seam.getD c 0 % (H - 1) ∧
            r ≠ (seam.getD c 0 + (H - 1) - 1) % (H - 1)) →
          tabGet e c r = tabGet s.m_energyTable c r) := by
  obtain ⟨himg, hW1, hH1, hWT, hHT, hTW, hTH, he, hv, hh⟩ := hs
  have hseam : ∀ n, seam.getD n 0 < H := fun n => getD_lt_of_forall hin (by omega)
  -- every column described by the invariant has at least `H - 1` entries
  have hcolumn : ∀ (img : List (List Pixel)) (i : Nat),
      (∀ c, img[c]? = if c < i then
          (s.m_image.m_table[c]?).map (fun col => col.eraseIdx (seam.getD c 0))
        else s.m_image.m_table[c]?) →
      ∀ c col, img[c]? = some col →
        col.length = if c < i then H - 1 else H := by
    intro img i hp c col hcol
    rw [hp] at hcol
    split_ifs at hcol with h1
    · rw [if_pos h1]
      obtain ⟨col0, h0, rfl⟩ := Option.map_eq_some'.mp hcol
      have hl : col0.length = H := himg.2 col0 (List.mem_iff_getElem?.mpr ⟨c, h0⟩)
      rw [List.length_eraseIdx, hl, if_pos (hseam c)]
    · rw [if_neg h1]
      exact himg.2 col (List.mem_iff_getElem?.mpr ⟨c, hcol⟩)
  unfold RemoveHorizontalSeam
  have hw0 : GetImageWidth s = W := himg.1
  rw [hw0]
  apply exists_bind_ok
  refine forLoop_inv _
    (fun i s1 => ∃ img e, s1 = { s with m_image := ⟨img⟩, m_energyTable := e } ∧
      img.length = W ∧ Rect e TW TH ∧
      (∀ c, img[c]? = if c < i then
          (s.m_image.m_table[c]?).map (fun col => col.eraseIdx (seam.getD c 0))
        else s.m_image.m_table[c]?) ∧
      (∀ c r, (c < i → r ≠ seam.getD c 0 % (H - 1) ∧
          r ≠ (seam.getD c 0 + (H - 1) - 1) % (H - 1)) →
        tabGet e c r = tabGet s.m_energyTable c r))
    _ W 0 s ⟨s.m_image.m_table, s.m_energyTable, rfl, himg.1, he, by simp, fun _ _ _ => rfl⟩
    ?_ ?_
  · rintro i s1 - hi ⟨img1, e1, rfl, hlen1, he1, hc1, hf1⟩
    have hiW : i < W := by omega
    obtain ⟨col0, hcol0, hcol0len⟩ := rect_getElem? himg hiW
    have hget : vecGet img1 i = Except.ok col0 := by
      rw [vecGet_eq_ok, hc1, if_neg (lt_irrefl i)]; exact hcol0
    have her : vecErase col0 (seam.getD i 0) = Except.ok (col0.eraseIdx (seam.getD i 0)) :=
      vecErase_of_lt (by rw [hcol0len]; exact hseam i)
    have hlen' : (col0.eraseIdx (seam.getD i 0)).length = H - 1 := by
      rw [List.length_eraseIdx, hcol0len, if_pos (hseam i)]
    have hpos : 0 < H - 1 := by omega
    simp only [vecGet_getD (show i < seam.length by omega) 0, ok_bind, hget, her, hlen',
      modS_of_pos hpos]
    -- the image after erasing in column `i`
    have hp2 : ∀ c, (img1.set i (col0.eraseIdx (seam.getD i 0)))[c]? =
        if c < i + 1 then
          (s.m_image.m_table[c]?).map (fun col => col.eraseIdx (seam.getD c 0))
        else s.m_image.m_table[c]? := by
      intro c
      rw [List.getElem?_set]
      by_cases hci : i = c
      · subst hci
        simp [hlen1, hiW, hcol0]
      · rw [if_neg hci, hc1]
        split_ifs with h1 h2 h2 <;> first | rfl | (exfalso; omega)
    have hlen2 : (img1.set i (col0.eraseIdx (seam.getD i 0))).length = W := by
      rw [List.length_set]; exact hlen1
    have hh2 : ∀ e : Table α, GetImageHeight
        ({ s with m_image := ⟨img1.set i (col0.eraseIdx (seam.getD i 0))⟩, m_energyTable := e })
          = Except.ok (H - 1) := by
      intro e
      have h0 : (0 : Nat) < (img1.set i (col0.eraseIdx (seam.getD i 0))).length := by omega
      refine GetImageHeight_eq_ok.mpr ⟨_, List.getElem?_eq_getElem h0, ?_⟩
      have := hcolumn _ (i + 1) hp2 0 _ (List.getElem?_eq_getElem h0)
      rw [this, if_pos (by omega)]
    have hcols : ∀ col ∈ img1.set i (col0.eraseIdx (seam.getD i 0)), H - 1 ≤ col.length := by
      intro col hcol
      obtain ⟨c, hc⟩ := List.mem_iff_getElem?.mp hcol
      have := hcolumn _ (i + 1) hp2 c col hc
      rw [this]; split_ifs <;> omega
    have hm1 : seam.getD i 0 % (H - 1) < H - 1 := Nat.mod_lt _ hpos
    have hm2 : (seam.getD i 0 + (H - 1) - 1) % (H - 1) < H - 1 := Nat.mod_lt _ hpos
    obtain ⟨e2, hrec2, he2, hf2⟩ := RecalcPixelEnergy_frame sqrt
      ({ s with m_image := ⟨img1.set i (col0.eraseIdx (seam.getD i 0))⟩, m_energyTable := e1 })
      (hh2 e1) hcols (by show i < (img1.set i _).length; omega) hm1 he1 (by omega) (by omega)
    obtain ⟨e3, hrec3, he3, hf3⟩ := RecalcPixelEnergy_frame sqrt
      ({ s with m_image := ⟨img1.set i (col0.eraseIdx (seam.getD i 0))⟩, m_energyTable := e2 })
      (hh2 e2) hcols (by show i < (img1.set i _).length; omega) hm2 he2 (by omega) (by omega)
    refine ⟨_, by rw [hrec2, ok_bind]; exact hrec3, _, e3, rfl, hlen2, he3, hp2, ?_⟩
    intro c r hcr
    have hne1 : ¬ (c = i ∧ r = (seam.getD i 0 + (H - 1) - 1) % (H - 1)) := by
      rintro ⟨rfl, rfl⟩; exact (hcr (by omega)).2 rfl
    have hne2 : ¬ (c = i ∧ r = seam.getD i 0 % (H - 1)) := by
      rintro ⟨rfl, rfl⟩; exact (hcr (by omega)).1 rfl
    show tabGet e3 c r = _
    rw [hf3 c r hne1]
    show tabGet e2 c r = _
    rw [hf2 c r hne2]
    exact hf1 c r (fun hlt => hcr (by omega))
  · rintro s1 ⟨img1, e1, rfl, hlen1, he1, hc1, hf1⟩
    refine ⟨_, rfl, img1, e1, rfl, ⟨hlen1, ?_⟩, he1, ?_, ?_⟩
    · intro col hcol
      obtain ⟨c, hc⟩ := List.mem_iff_getElem?.mp hcol
      have hcW : c < W := by
        rw [← hlen1]; exact (List.getElem?_eq_some_iff.mp hc).1
      have := hcolumn _ (0 + W) hc1 c col hc
      rw [this, if_pos (by omega)]
    · intro c
      rw [hc1]
      split_ifs with h1
      · rfl
      · have : s.m_image.m_table[c]? = none :=
          List.getElem?_eq_none (by rw [himg.1]; omega)
        rw [this]; rfl
    · intro c r hcr
      exact hf1 c r (fun hlt => hcr (by omega))

theorem sampleEngine_eq_new : SeamCarver.new intSqrt sampleImage = Except.ok sampleEngine := by
  rfl

/-- C6: on a sized engine whose image is `W × H` with `W ≥ 2`, `RemoveVerticalSeam` with a
seam of length `H` and entries in `[0, W-1]` succeeds and leaves a `(W-1) × H` image whose
pixel at column `c`, row `r` is the old pixel at `(c, r)` when `c < seam[r]` and the old
pixel at `(c+1, r)` when `c ≥ seam[r]`: each row is the old row with the single pixel at
column `seam[r]` deleted, the order of the others preserved. -/
theorem RemoveVerticalSeam_deletes_seam_pixel_per_row {α : Type} (sqrt : Int → α)
    (s : SeamCarver α) (seam : Seam) (W H TW TH : Nat) (hs : Sized s W H TW TH) (hW : 2 ≤ W)
    (hlen : seam.length = H) (_hin : ∀ x ∈ seam, x < W) :
    ∃ s', RemoveVerticalSeam sqrt s seam = Except.ok s' ∧
      Rect s'.m_image.m_table (W - 1) H ∧
      ∀ c r, c < W - 1 → r < H →
        tabGet s'.m_image.m_table c r =
          Except.ok (pixelAt s.m_image (if c < seam.getD r 0 then c else c + 1) r) := by
  obtain ⟨s', hs', img, e, rfl, himg, -, hpix, -⟩ := RemoveVerticalSeam_spec sqrt s seam hs hW hlen
  refine ⟨_, hs', himg, fun c r hc hr => ?_⟩
  show tabGet img c r = _
  rw [hpix c r hc hr]
  exact tabGet_of_rect hs.1 (by split_ifs <;> omega) hr default

/-- Witness for C6: the sample engine and the seam `[1, 0, 2]`. -/
theorem RemoveVerticalSeam_deletes_seam_pixel_per_row_witness :
    ∃ s', RemoveVerticalSeam intSqrt sampleEngine [1, 0, 2] = Except.ok s' ∧
      Rect s'.m_image.m_table (3 - 1) 3 ∧
      ∀ c r, c < 3 - 1 → r < 3 →
        tabGet s'.m_image.m_table c r =
          Except.ok (pixelAt sampleEngine.m_image
            (if c < [1, 0, 2].getD r 0 then c else c + 1) r) :=
  RemoveVerticalSeam_deletes_seam_pixel_per_row intSqrt sampleEngine [1, 0, 2] 3 3 3 3
    (by decide) (by decide) (by decide) (by decide)

/-- C7: on a sized engine whose image is `W × H` with `H ≥ 2`, `RemoveHorizontalSeam` with
a seam of length `W` and entries in `[0, H-1]` succeeds and leaves a `W × (H-1)` image every
column `c` of which is the old column `c` with the entry at row `seam[c]` erased: the new
pixel at `(c, r)` is the old pixel at `(c, r)` when `r < seam[c]` and the old pixel at
`(c, r+1)` when `r ≥ seam[c]`. -/
theorem RemoveHorizontalSeam_erases_seam_pixel_per_column {α : Type} (sqrt : Int → α)
    (s : SeamCarver α) (seam : Seam) (W H TW TH : Nat) (hs : Sized s W H TW TH) (hH : 2 ≤ H)
    (hlen : seam.length = W) (hin : ∀ x ∈ seam, x < H) :
    ∃ s', RemoveHorizontalSeam sqrt s seam = Except.ok s' ∧
      Rect s'.m_image.m_table W (H - 1) ∧
      (∀ c, c < W → s'.m_image.m_table[c]? =
        some ((s.m_image.m_table.getD c []).eraseIdx (seam.getD c 0))) ∧
      ∀ c r, c < W → r < H - 1 →
        tabGet s'.m_image.m_table c r =
          Except.ok (pixelAt s.m_image c (if r < seam.getD c 0 then r else r + 1)) := by
  obtain ⟨s', hs', img, e, rfl, himg, -, hcol, -⟩ :=
    RemoveHorizontalSeam_spec sqrt s seam hs hH hlen hin
  have hcol' : ∀ c, c < W → img[c]? =
      some ((s.m_image.m_table.getD c []).eraseIdx (seam.getD c 0)) := by
    intro c hc
    obtain ⟨col0, h0, -⟩ := rect_getElem? hs.1 hc
    rw [hcol c, h0]
    simp [List.getD, h0]
  refine ⟨_, hs', himg, hcol', fun c r hc hr => ?_⟩
  show tabGet img c r = _
  obtain ⟨col0, h0, hl0⟩ := rect_getElem? hs.1 hc
  have hg : s.m_image.m_table.getD c [] = col0 := by simp [List.getD, h0]
  have e1 : img[c]? = some (col0.eraseIdx (seam.getD c 0)) := by rw [hcol' c hc, hg]
  have h1 : tabGet img c r = tabGet s.m_image.m_table c (if r < seam.getD c 0 then r else r + 1) := by
    simp only [tabGet, vecGet, e1, h0, pure_eq_ok, ok_bind, List.getElem?_eraseIdx]
    split_ifs <;> rfl
  rw [h1]
  exact tabGet_of_rect hs.1 hc (by split_ifs <;> omega) default

/-- Witness for C7: the sample engine and the seam `[1, 0, 2]`. -/
theorem RemoveHorizontalSeam_erases_seam_pixel_per_column_witness :
    ∃ s', RemoveHorizontalSeam intSqrt sampleEngine [1, 0, 2] = Except.ok s' ∧
      Rect s'.m_image.m_table 3 (3 - 1) ∧
      (∀ c, c < 3 → s'.m_image.m_table[c]? =
        some ((sampleEngine.m_image.m_table.getD c []).eraseIdx ([1, 0, 2].getD c 0))) ∧
      ∀ c r, c < 3 → r < 3 - 1 →
        tabGet s'.m_image.m_table c r =
          Except.ok (pixelAt sampleEngine.m_image c
            (if r < [1, 0, 2].getD c 0 then r else r + 1)) :=
  RemoveHorizontalSeam_erases_seam_pixel_per_column intSqrt sampleEngine [1, 0, 2] 3 3 3 3
    (by decide) (by decide) (by decide) (by decide)

/-- C8: on a sized engine whose image is `W × H`, `RemoveVerticalSeam` with a well-formed
seam (`W ≥ 2`) makes `GetImageWidth` equal `W - 1` and leaves `GetImageHeight` equal `H`;
`RemoveHorizontalSeam` with a well-formed seam (`H ≥ 2`) makes `GetImageHeight` equal
`H - 1` and leaves `GetImageWidth` equal `W`. -/
theorem removal_changes_one_dimension_by_one {α : Type} (sqrt : Int → α) (s : SeamCarver α)
    (vseam hseam : Seam) (W H TW TH : Nat) (hs : Sized s W H TW TH) :
    (2 ≤ W → vseam.length = H → (∀ x ∈ vseam, x < W) →
      ∃ s', RemoveVerticalSeam sqrt s vseam = Except.ok s' ∧
        GetImageWidth s' = W - 1 ∧ GetImageHeight s' = Except.ok H) ∧
    (2 ≤ H → hseam.length = W → (∀ x ∈ hseam, x < H) →
      ∃ s', RemoveHorizontalSeam sqrt s hseam = Except.ok s' ∧
        GetImageHeight s' = Except.ok (H - 1) ∧ GetImageWidth s' = W) := by
  constructor
  · intro hW hlen _
    obtain ⟨s', hs', img, e, rfl, himg, -⟩ := RemoveVerticalSeam_spec sqrt s vseam hs hW hlen
    exact ⟨_, hs', himg.1, GetImageHeight_of_rect himg (by omega)⟩
  · intro hH hlen hin
    obtain ⟨s', hs', img, e, rfl, himg, -⟩ :=
      RemoveHorizontalSeam_spec sqrt s hseam hs hH hlen hin
    exact ⟨_, hs', GetImageHeight_of_rect himg hs.2.1, himg.1⟩

/-- Witness for C8: the sample engine with the vertical seam `[1, 0, 2]` and the horizontal
seam `[2, 2, 1]`. -/
theorem removal_changes_one_dimension_by_one_witness :
    (∃ s', RemoveVerticalSeam intSqrt sampleEngine [1, 0, 2] = Except.ok s' ∧
        GetImageWidth s' = 3 - 1 ∧ GetImageHeight s' = Except.ok 3) ∧
    (∃ s', RemoveHorizontalSeam intSqrt sampleEngine [2, 2, 1] = Except.ok s' ∧
        GetImageHeight s' = Except.ok (3 - 1) ∧ GetImageWidth s' = 3) :=
  ⟨(removal_changes_one_dimension_by_one intSqrt sampleEngine [1, 0, 2] [2, 2, 1] 3 3 3 3
      (by decide)).1 (by decide) (by decide) (by decide),
   (removal_changes_one_dimension_by_one intSqrt sampleEngine [1, 0, 2] [2, 2, 1] 3 3 3 3
      (by decide)).2 (by decide) (by decide) (by decide)⟩

/-! ## Behaviour on concrete images -/

/-- C1 (the code departs from the claim): (1) on a freshly constructed engine over the
`1 × 2` image of two equal pixels, `FindVerticalSeam` indexes the path table out of range
(`BoundaryDiff(0, 1, 1) = 1` is used as a column of a one-column table); (2) on the `3 × 1`
image with red values `0, 0, 1`, after the engine's own seam `[2]` has been removed the
image is 2 columns wide and the next `FindVerticalSeam` returns `[2]`, which is not a
column of the image. -/
theorem FindVerticalSeam_out_of_range_runs :
    (SeamCarver.new intSqrt ⟨[[red 0, red 0]]⟩ >>= FindVerticalSeam)
        = Except.error Fault.outOfRange ∧
    BoundaryDiff 0 1 1 = 1 ∧
    (do let s ← SeamCarver.new intSqrt ⟨[[red 0], [red 0], [red 1]]⟩
        let (seam, s) ← FindVerticalSeam s
        let s ← RemoveVerticalSeam intSqrt s seam
        let (seam2, s2) ← FindVerticalSeam s
        pure (seam, GetImageWidth s2, seam2)) = Except.ok ([2], 2, [2]) := by
  refine ⟨by rfl, by decide, by rfl⟩

/-- C2 (the code departs from the claim): (1) on a freshly constructed engine over the
`2 × 1` image of two equal pixels, `FindHorizontalSeam` indexes a path-table column out of
range; (2) on the `1 × 4` image with red values `0, 1, 3, 7`, after the engine's own seam
`[1]` has been removed the image is 3 rows high and the next `FindHorizontalSeam` returns
`[3]`, which is not a row of the image: the seed is taken from all four entries of the
path-table column, the last of which is stale; removing that seam then erases out of
range. -/
theorem FindHorizontalSeam_out_of_range_runs :
    (SeamCarver.new intSqrt ⟨[[red 0], [red 0]]⟩ >>= FindHorizontalSeam)
        = Except.error Fault.outOfRange ∧
    (do let s ← SeamCarver.new intSqrt ⟨[[red 0, red 1, red 3, red 7]]⟩
        let (seam, s) ← FindHorizontalSeam s
        let s ← RemoveHorizontalSeam intSqrt s seam
        let (seam2, s2) ← FindHorizontalSeam s
        pure (seam, ← GetImageHeight s2, seam2, s2.m_hEnergyPathTable))
      = Except.ok ([1], 3, [3], [[4, 7, 6, 3]]) ∧
    (do let s ← SeamCarver.new intSqrt ⟨[[red 0, red 1, red 3, red 7]]⟩
        let (seam, s) ← FindHorizontalSeam s
        let s ← RemoveHorizontalSeam intSqrt s seam
        let (seam2, s2) ← FindHorizontalSeam s
        RemoveHorizontalSeam intSqrt s2 seam2) = Except.error Fault.outOfRange := by
  refine ⟨by rfl, by rfl, by rfl⟩

/-- C5 (the code departs from the claim): after the engine's own seam has been removed the
stored energies differ from a direct recomputation on the shrunk grid.  Vertical: the
`3 × 1` image with red values `0, 0, 1` becomes `2 × 1` with equal pixels, whose energy at
`(0, 0)` is `0`, but `GetPixelEnergy(0, 0)` is `1`.  Horizontal: the `1 × 4` image with red
values `0, 1, 3, 7` becomes `1 × 3` with values `0, 3, 7`, whose energy at `(0, 2)` is `3`,
but `GetPixelEnergy(0, 2)` is `6`. -/
theorem energy_stale_after_removal_runs :
    (do let s ← SeamCarver.new intSqrt ⟨[[red 0], [red 0], [red 1]]⟩
        let (seam, s) ← FindVerticalSeam s
        let s ← RemoveVerticalSeam intSqrt s seam
        pure (s.m_image, GetImageWidth s, ← GetImageHeight s, ← GetPixelEnergy s 0 0,
          intSqrt (specEnergySq (pixelAt s.m_image) 2 1 0 0)))
      = Except.ok (⟨[[red 0], [red 0]]⟩, 2, 1, 1, 0) ∧
    (do let s ← SeamCarver.new intSqrt ⟨[[red 0, red 1, red 3, red 7]]⟩
        let (seam, s) ← FindHorizontalSeam s
        let s ← RemoveHorizontalSeam intSqrt s seam
        pure (s.m_image, GetImageWidth s, ← GetImageHeight s, ← GetPixelEnergy s 0 2,
          intSqrt (specEnergySq (pixelAt s.m_image) 1 3 0 2)))
      = Except.ok (⟨[[red 0, red 3, red 7]]⟩, 1, 3, 6, 3) := by
  refine ⟨by rfl, by rfl⟩

/-- C10, counterexample: on the `2 × 1` image with red values `0, 1` the first removal of
the engine's own vertical seam succeeds and leaves width 1; the second removal then computes
`seam[0] % 0` and ends in the modulo-by-zero fault instead of a checked failure that leaves
the engine unchanged. -/
theorem RemoveVerticalSeam_at_width_one_run :
    (do let s ← SeamCarver.new intSqrt ⟨[[red 0], [red 1]]⟩
        let (seam, s) ← FindVerticalSeam s
        let s ← RemoveVerticalSeam intSqrt s seam
        pure (GetImageWidth s)) = Except.ok 1 ∧
    (do let s ← SeamCarver.new intSqrt ⟨[[red 0], [red 1]]⟩
        let (seam, s) ← FindVerticalSeam s
        let s ← RemoveVerticalSeam intSqrt s seam
        let (seam2, s2) ← FindVerticalSeam s
        RemoveVerticalSeam intSqrt s2 seam2) = Except.error Fault.modZero := by
  refine ⟨by rfl, by rfl⟩

/-- C10, as amended: the code has no degenerate-image check.  On every engine whose image
has exactly one column with at least one row, `RemoveVerticalSeam` with a non-empty seam
computes `seam[0] % 0` in its first iteration: the call has no defined result (the
modulo-by-zero fault) and produces no engine state. -/
theorem RemoveVerticalSeam_at_width_one_is_modZero {α : Type} (sqrt : Int → α)
    (s : SeamCarver α) (seam : Seam) (col : List Pixel)
    (himg : s.m_image.m_table = [col]) (hcol : col ≠ []) (hseam : seam ≠ []) :
    RemoveVerticalSeam sqrt s seam = Except.error Fault.modZero := by
  obtain ⟨p, ps, rfl⟩ := List.exists_cons_of_ne_nil hcol
  obtain ⟨x, xs, rfl⟩ := List.exists_cons_of_ne_nil hseam
  have hh : GetImageHeight s = Except.ok (ps.length + 1) := by
    rw [GetImageHeight_eq_ok]; exact ⟨p :: ps, by rw [himg]; rfl, rfl⟩
  have hw : GetImageWidth s = 1 := by unfold GetImageWidth; rw [himg]; rfl
  unfold RemoveVerticalSeam
  rw [hh]
  simp only [ok_bind, forLoop, hw, Nat.sub_self, Nat.zero_sub]
  have hx : vecGet (x :: xs) 0 = Except.ok x := by rw [vecGet_eq_ok]; simp
  simp only [hx, ok_bind, pure_eq_ok, modS_zero, error_bind]

/-- Witness for the amended C10: a `1 × 1` engine and the seam `[0]`. -/
theorem RemoveVerticalSeam_at_width_one_is_modZero_witness :
    RemoveVerticalSeam intSqrt
      (⟨⟨[[red 7]]⟩, [[0]], [[0]], [[0]], false, false⟩ : SeamCarver Int) [0]
      = Except.error Fault.modZero :=
  RemoveVerticalSeam_at_width_one_is_modZero intSqrt
    (⟨⟨[[red 7]]⟩, [[0]], [[0]], [[0]], false, false⟩ : SeamCarver Int) [0] [red 7]
    rfl (by decide) (by decide)

/-! ## `BoundaryDiff` -/

theorem toSizeT_zero : toSizeT 0 = 0 := by decide

theorem toSizeT_one : toSizeT 1 = 1 := by decide

theorem toSizeT_neg_one : toSizeT (-1) = 2 ^ 64 - 1 := by decide

theorem maxDim_lt : maxDim < 2 ^ 64 := by decide

/-- For an index inside `[0, n)` and a step `0`, `BoundaryDiff` is the identity. -/
theorem BoundaryDiff_zero {v n : Nat} (hv : v < n) (hn : n ≤ maxDim) :
    BoundaryDiff v 0 n = v := by
  have := maxDim_lt
  unfold BoundaryDiff
  rw [toSizeT_zero]
  split_ifs with h1 h2
  · have e1 : (v + 0) % 2 ^ 64 = v := Nat.mod_eq_of_lt (by omega)
    have e2 : (n + (2 ^ 64 - 1)) % 2 ^ 64 = n - 1 := by omega
    rw [e1, e2]; omega
  · omega
  · omega

/-- For an index inside `[0, n)` and a step `-1`, `BoundaryDiff` is the predecessor,
clamped at `0`. -/
theorem BoundaryDiff_neg_one {v n : Nat} (hv : v < n) (hn : n ≤ maxDim) :
    BoundaryDiff v (-1) n = v - 1 := by
  have := maxDim_lt
  unfold BoundaryDiff
  rw [toSizeT_neg_one]
  split_ifs with h1 h2
  · have e1 : (v + (2 ^ 64 - 1)) % 2 ^ 64 = v - 1 := by omega
    have e2 : (n + (2 ^ 64 - 1)) % 2 ^ 64 = n - 1 := by omega
    rw [e1, e2]; omega
  · omega
  · omega

/-- For an index inside `[0, n)` and a step `+1`: from a positive index the successor
clamped at `n - 1`, but from index `0` always `1`. -/
theorem BoundaryDiff_one {v n : Nat} (hv : v < n) (hn : n ≤ maxDim) :
    BoundaryDiff v 1 n = if v = 0 then 1 else min (v + 1) (n - 1) := by
  have := maxDim_lt
  by_cases hv0 : v = 0
  · subst hv0; rw [if_pos rfl]; rfl
  · rw [if_neg hv0]
    unfold BoundaryDiff
    rw [toSizeT_one, if_pos (by omega)]
    have e1 : (v + 1) % 2 ^ 64 = v + 1 := Nat.mod_eq_of_lt (by omega)
    have e2 : (n + (2 ^ 64 - 1)) % 2 ^ 64 = n - 1 := by omega
    rw [e1, e2]

/-- Whatever the index, a step in `{0, -1, 1}` with bound `n ≥ 2` lands inside `[0, n)`. -/
theorem BoundaryDiff_lt (v : Nat) {d : Int} {n : Nat} (hd : d = 0 ∨ d = -1 ∨ d = 1)
    (hn2 : 2 ≤ n) (hn : n ≤ maxDim) : BoundaryDiff v d n < n := by
  have := maxDim_lt
  unfold BoundaryDiff
  have e2 : (n + (2 ^ 64 - 1)) % 2 ^ 64 = n - 1 := by omega
  rcases hd with rfl | rfl | rfl
  · rw [toSizeT_zero, e2]
    split_ifs <;> omega
  · rw [toSizeT_neg_one, e2]
    split_ifs <;> omega
  · rw [toSizeT_one, e2]
    split_ifs <;> omega

/-! ## Vertical path table -/

theorem energyAt_tabGet {α : Type} [Zero α] {s : SeamCarver α} {TW TH : Nat}
    (he : Rect s.m_energyTable TW TH) {c r : Nat} (hc : c < TW) (hr : r < TH) :
    tabGet s.m_energyTable c r = Except.ok (energyAt s c r) :=
  tabGet_of_rect he hc hr 0

/-- `RecalcVerticalEnergyPathTable` on a sized engine of width at least 2 succeeds; it
stores `vPathValue` in every cell of the `W × H` image area of the vertical path table,
leaves the other cells alone and sets the vertical validity flag. -/
theorem RecalcVerticalEnergyPathTable_spec {α : Type} [LinearOrder α] [Add α] [Zero α]
    (s : SeamCarver α) {W H TW TH : Nat} (hs : Sized s W H TW TH) (hW : 2 ≤ W) :
    ∃ s', RecalcVerticalEnergyPathTable s = Except.ok s' ∧
      ∃ t, s' = { s with m_vEnergyPathTable := t, m_vEnergyPathTableIsValid := true } ∧
        Rect t TW TH ∧
        ∀ c r, tabGet t c r =
          if c < W ∧ r < H then Except.ok (vPathValue (energyAt s) W r c)
          else tabGet s.m_vEnergyPathTable c r := by
  obtain ⟨himg, hW1, hH1, hWT, hHT, hTW, hTH, he, hv, hh⟩ := hs
  have hWm : W ≤ maxDim := le_trans hWT hTW
  unfold RecalcVerticalEnergyPathTable
  have hw : GetImageWidth s = W := himg.1
  simp only [hw]
  apply exists_bind_ok
  refine forLoop_inv _
    (fun i t => Rect t TW TH ∧ ∀ c r, tabGet t c r =
      if c < i ∧ r = 0 then Except.ok (energyAt s c 0) else tabGet s.m_vEnergyPathTable c r)
    _ W 0 s.m_vEnergyPathTable ⟨hv, by simp⟩ ?_ ?_
  · rintro i t - hi ⟨hrt, hct⟩
    rw [energyAt_tabGet he (show i < TW by omega) (show 0 < TH by omega)]
    simp only [ok_bind]
    obtain ⟨x, hx⟩ := rect_tabGet hrt (show i < TW by omega) (show 0 < TH by omega)
    obtain ⟨t', hset⟩ := tabSet_ok_of_tabGet (energyAt s i 0) hx
    refine ⟨t', hset, tabSet_rect hset hrt, fun c r => ?_⟩
    rw [tabGet_tabSet hset, hct]
    split_ifs with h1 h2 h3 h4 <;>
      first
      | rfl
      | (exfalso; omega)
      | (obtain ⟨rfl, rfl⟩ := h1; rfl)
  · rintro t1 ⟨hrt1, hct1⟩
    rw [GetImageHeight_of_rect himg hW1]
    simp only [ok_bind]
    apply exists_bind_ok
    refine forLoop_inv _
      (fun i t => Rect t TW TH ∧ ∀ c r, tabGet t c r =
        if c < W ∧ r < i then Except.ok (vPathValue (energyAt s) W r c)
        else tabGet s.m_vEnergyPathTable c r)
      _ (H - 1) 1 t1 ⟨hrt1, fun c r => by
        rw [hct1]
        split_ifs with h1 h2 h3 <;>
          first
          | rfl
          | (exfalso; omega)
          | (obtain ⟨-, rfl⟩ := h1; rfl)⟩ ?_ ?_
    · rintro i t hi1 hi2 ⟨hrt, hct⟩
      obtain ⟨i', rfl⟩ : ∃ i', i = i' + 1 := ⟨i - 1, by omega⟩
      refine forLoop_inv _
        (fun j t => Rect t TW TH ∧ ∀ c r, tabGet t c r =
          if (c < W ∧ r < i' + 1) ∨ (c < j ∧ r = i' + 1) then
            Except.ok (vPathValue (energyAt s) W r c)
          else tabGet s.m_vEnergyPathTable c r)
        _ W 0 t ⟨hrt, fun c r => by
          rw [hct]
          split_ifs with h1 h2 h3 <;> first | rfl | (exfalso; omega)⟩ ?_ ?_
      · rintro j t2 - hj ⟨hrt2, hct2⟩
        have hjW : j < W := by omega
        have b1 := BoundaryDiff_lt j (d := 1) (Or.inr (Or.inr rfl)) hW hWm
        have b2 := BoundaryDiff_lt j (d := -1) (Or.inr (Or.inl rfl)) hW hWm
        have r1 : tabGet t2 (BoundaryDiff j 1 W) i' =
            Except.ok (vPathValue (energyAt s) W i' (BoundaryDiff j 1 W)) := by
          rw [hct2, if_pos (Or.inl ⟨b1, by omega⟩)]
        have r2 : tabGet t2 (BoundaryDiff j (-1) W) i' =
            Except.ok (vPathValue (energyAt s) W i' (BoundaryDiff j (-1) W)) := by
          rw [hct2, if_pos (Or.inl ⟨b2, by omega⟩)]
        have r3 : tabGet t2 j i' = Except.ok (vPathValue (energyAt s) W i' j) := by
          rw [hct2, if_pos (Or.inl ⟨hjW, by omega⟩)]
        rw [energyAt_tabGet he (show j < TW by omega) (show i' + 1 < TH by omega)]
        simp only [ok_bind, Nat.add_sub_cancel, r1, r2, r3]
        obtain ⟨x, hx⟩ := rect_tabGet hrt2 (show j < TW by omega) (show i' + 1 < TH by omega)
        obtain ⟨t', hset⟩ := tabSet_ok_of_tabGet
          (energyAt s j (i' + 1) +
            min (min (vPathValue (energyAt s) W i' (BoundaryDiff j 1 W))
                (vPathValue (energyAt s) W i' (BoundaryDiff j (-1) W)))
              (vPathValue (energyAt s) W i' j)) hx
        refine ⟨t', hset, tabSet_rect hset hrt2, fun c r => ?_⟩
        rw [tabGet_tabSet hset, hct2]
        split_ifs with h1 h2 h3 h4 <;>
          first
          | rfl
          | (exfalso; omega)
          | (obtain ⟨rfl, rfl⟩ := h1; rfl)
      · rintro t2 ⟨hrt2, hct2⟩
        refine ⟨hrt2, fun c r => ?_⟩
        rw [hct2]
        split_ifs with h1 h2 h3 <;> first | rfl | (exfalso; omega)
    · rintro t2 ⟨hrt2, hct2⟩
      refine ⟨_, rfl, t2, rfl, hrt2, fun c r => ?_⟩
      rw [hct2]
      split_ifs with h1 h2 h3 <;> first | rfl | (exfalso; omega)

/-! ## Seed and backtracking -/

/-- The scan of `std::min_element` keeps the position of the first smallest key: `f j` is
the key of the element at position `j`, `i` the position reached and `best` the position of
the smallest key among the first `i`. -/
theorem minElementScan_spec {β α : Type} [LinearOrder α] (comp : β → β → M Bool)
    (k : β → α) (good : β → Prop)
    (hcomp : ∀ x y, good x → good y → comp x y = Except.ok (decide (k x < k y)))
    (f : Nat → α) :
    ∀ (xs : List β) (i best : Nat) (bx : β),
      (∀ x ∈ xs, good x) → good bx →
      (∀ j (hj : j < xs.length), k xs[j] = f (i + j)) → k bx = f best → best < i →
      (∀ j, j < i → f best ≤ f j) → (∀ j, j < best → f best < f j) →
      ∃ r, minElementScan comp xs i best bx = Except.ok r ∧ r < i + xs.length ∧
        (∀ j, j < i + xs.length → f r ≤ f j) ∧ (∀ j, j < r → f r < f j) := by
  intro xs
  induction xs with
  | nil =>
    intro i best bx _ _ _ _ hbi hmin hfirst
    exact ⟨best, rfl, by simpa using hbi, by simpa using hmin, hfirst⟩
  | cons x xs ih =>
    intro i best bx hgood hgbx hkeys hkb hbi hmin hfirst
    have hgx : good x := hgood x (List.mem_cons_self _ _)
    have hkx : k x = f i := by simpa using hkeys 0 (by simp)
    have hkeys' : ∀ j (hj : j < xs.length), k xs[j] = f (i + 1 + j) := by
      intro j hj
      have := hkeys (j + 1) (by simp; omega)
      simpa [Nat.add_assoc, Nat.add_comm 1 j] using this
    have hgood' : ∀ y ∈ xs, good y := fun y hy => hgood y (List.mem_cons_of_mem _ hy)
    have hlen : i + (x :: xs).length = i + 1 + xs.length := by simp; omega
    unfold minElementScan
    rw [hcomp x bx hgx hgbx]
    simp only [ok_bind]
    by_cases hlt : k x < k bx
    · rw [decide_eq_true hlt]
      simp only [if_true]
      rw [hkx, hkb] at hlt
      obtain ⟨r, hr, h1, h2, h3⟩ := ih (i + 1) i x hgood' hgx hkeys' hkx (by omega)
        (fun j hj => by
          rcases Nat.lt_succ_iff_lt_or_eq.mp hj with h | h
          · exact le_trans (le_of_lt hlt) (hmin j h)
          · rw [h])
        (fun j hj => lt_of_lt_of_le hlt (hmin j hj))
      exact ⟨r, hr, by rw [hlen]; exact h1, by rw [hlen]; exact h2, h3⟩
    · rw [decide_eq_false hlt]
      simp only [Bool.false_eq_true, if_false]
      rw [hkx, hkb] at hlt
      obtain ⟨r, hr, h1, h2, h3⟩ := ih (i + 1) best bx hgood' hgbx hkeys' hkb (by omega)
        (fun j hj => by
          rcases Nat.lt_succ_iff_lt_or_eq.mp hj with h | h
          · exact hmin j h
          · rw [h]; exact le_of_not_lt hlt)
        hfirst
      exact ⟨r, hr, by rw [hlen]; exact h1, by rw [hlen]; exact h2, h3⟩

/-- `std::min_element` on a non-empty range returns the position of the first smallest
key. -/
theorem minElement_spec {β α : Type} [LinearOrder α] (comp : β → β → M Bool)
    (k : β → α) (good : β → Prop)
    (hcomp : ∀ x y, good x → good y → comp x y = Except.ok (decide (k x < k y)))
    (d : β) (xs : List β) (hne : 0 < xs.length) (hgood : ∀ x ∈ xs, good x) :
    ∃ r, minElement comp xs = Except.ok r ∧ r < xs.length ∧
      (∀ j, j < xs.length → k (xs.getD r d) ≤ k (xs.getD j d)) ∧
      (∀ j, j < r → k (xs.getD r d) < k (xs.getD j d)) := by
  cases xs with
  | nil => simp at hne
  | cons x xs =>
    obtain ⟨r, hr, h1, h2, h3⟩ := minElementScan_spec comp k good hcomp
      (fun j => k ((x :: xs).getD j d)) xs 1 0 x
      (fun y hy => hgood y (List.mem_cons_of_mem _ hy)) (hgood x (List.mem_cons_self _ _))
      (fun j hj => by
        have : (x :: xs).getD (1 + j) d = xs[j] := by
          rw [Nat.add_comm]
          simp [List.getD, List.getElem?_eq_getElem hj]
        show k xs[j] = k ((x :: xs).getD (1 + j) d)
        rw [this])
      (by simp) (by omega)
      (fun j hj => by
        have : j = 0 := by omega
        rw [this])
      (fun j hj => by omega)
    refine ⟨r, hr, by simp; omega, fun j hj => h2 j (by simp at hj; omega), h3⟩

theorem vecBack_of_length {β : Type} {xs : List β} {n : Nat} (h : xs.length = n + 1) (d : β) :
    vecBack xs = Except.ok (xs.getD n d) := by
  unfold vecBack
  have hn : n < xs.length := by omega
  rw [List.getLast?_eq_getElem?, h, Nat.add_sub_cancel, List.getElem?_eq_getElem hn]
  simp [List.getD, List.getElem?_eq_getElem hn, pure_eq_ok]

theorem getD_set {β : Type} (l : List β) (i j : Nat) (a d : β) :
    (l.set i a).getD j d = if i = j ∧ i < l.length then a else l.getD j d := by
  simp only [List.getD, List.getElem?_set]
  by_cases h1 : i = j
  · subst h1
    by_cases h2 : i < l.length
    · simp [h2]
    · have e1 : (l.set i a)[i]? = none :=
        List.getElem?_eq_none (by rw [List.length_set]; omega)
      simp [h2, e1, List.getElem?_eq_none (Nat.le_of_not_lt h2)]
  · simp [h1]

/-- One backtracking iteration: when `seam[k]` is `cur` and the three candidate lookups
succeed with the values given by `g`, the iteration stores `pickNext g cur bound` in
`seam[k - 1]`. -/
theorem backtrackStep_spec {α : Type} [LinearOrder α] (lookup : Nat → Nat → M α)
    (g : Nat → α) (bound k : Nat) (seam : Seam) (cur : Nat)
    (hcur : vecGet seam k = Except.ok cur)
    (hl : ∀ d : Int, d = 0 ∨ d = -1 ∨ d = 1 →
      lookup (BoundaryDiff cur d bound) (k - 1) = Except.ok (g (BoundaryDiff cur d bound))) :
    backtrackStep lookup bound k seam =
      Except.ok (seam.set (k - 1) (pickNext g cur bound)) := by
  have hk : k - 1 < seam.length := by have := vecGet_lt hcur; omega
  unfold backtrackStep
  simp only [List.foldlM, hcur, ok_bind, candidateStep, hl 0 (Or.inl rfl),
    hl (-1) (Or.inr (Or.inl rfl)), hl 1 (Or.inr (Or.inr rfl)), pure_eq_ok]
  unfold pickNext
  by_cases h1 : g (BoundaryDiff cur (-1) bound) < g (BoundaryDiff cur 0 bound)
  · by_cases h2 : g (BoundaryDiff cur 1 bound) < g (BoundaryDiff cur (-1) bound)
    · simp [h1, h2, ok_bind, vecSet_of_lt _ hk]
    · simp [h1, h2, ok_bind, vecSet_of_lt _ hk]
  · by_cases h2 : g (BoundaryDiff cur 1 bound) < g (BoundaryDiff cur 0 bound)
    · simp [h1, h2, ok_bind, vecSet_of_lt _ hk]
    · simp [h1, h2, ok_bind, vecSet_of_lt _ hk]

theorem vPathAt_tabGet {α : Type} [Zero α] {s : SeamCarver α} {TW TH : Nat}
    (hv : Rect s.m_vEnergyPathTable TW TH) {c r : Nat} (hc : c < TW) (hr : r < TH) :
    tabGet s.m_vEnergyPathTable c r = Except.ok (vPathAt s c r) :=
  tabGet_of_rect hv hc hr 0

/-- Seed and backtracking of `FindVerticalSeam` on a sized engine of width at least 2: the
call succeeds and returns one entry per image row; the last entry is the position of the
first smallest entry of the last row of the stored path table (all `TW` columns, row
`TH - 1`), and every other entry is chosen by `pickNext` from the entry below it. -/
theorem extractVerticalSeam_spec {α : Type} [LinearOrder α] [Zero α] (s : SeamCarver α)
    {W H TW TH : Nat} (hs : Sized s W H TW TH) (hW : 2 ≤ W) :
    ∃ seam, extractVerticalSeam s = Except.ok seam ∧ seam.length = H ∧
      seam.getD (H - 1) 0 < TW ∧
      (∀ j, j < TW → vPathAt s (seam.getD (H - 1) 0) (TH - 1) ≤ vPathAt s j (TH - 1)) ∧
      (∀ j, j < seam.getD (H - 1) 0 →
        vPathAt s (seam.getD (H - 1) 0) (TH - 1) < vPathAt s j (TH - 1)) ∧
      ∀ r, r + 1 < H →
        seam.getD r 0 = pickNext (fun c => vPathAt s c r) (seam.getD (r + 1) 0) W := by
  obtain ⟨himg, hW1, hH1, hWT, hHT, hTW, hTH, he, hv, hh⟩ := hs
  have hWm : W ≤ maxDim := le_trans hWT hTW
  have hTH1 : TH = (TH - 1) + 1 := by omega
  obtain ⟨seed, hseed, hs1, hs2, hs3⟩ := minElement_spec
    (fun vec1 vec2 : List α => do pure (decide ((← vecBack vec1) < (← vecBack vec2))))
    (fun col => col.getD (TH - 1) 0) (fun col => col.length = TH)
    (fun x y hx hy => by
      show (vecBack x >>= fun a => vecBack y >>= fun b => pure (decide (a < b))) = _
      rw [vecBack_of_length (hx.trans hTH1) 0, vecBack_of_length (hy.trans hTH1) 0]
      rfl)
    [] s.m_vEnergyPathTable (by rw [hv.1]; omega) hv.2
  rw [hv.1] at hs1 hs2
  unfold extractVerticalSeam
  rw [GetImageHeight_of_rect himg hW1]
  simp only [ok_bind, hseed, List.length_replicate]
  rw [vecSet_of_lt seed (show H - 1 < (List.replicate H 0).length by simp; omega)]
  simp only [ok_bind]
  have hw : GetImageWidth s = W := himg.1
  rw [hw]
  refine downLoop_inv _
    (fun i seam => seam.length = H ∧ seam.getD (H - 1) 0 = seed ∧
      ∀ r, i ≤ r → r + 1 < H →
        seam.getD r 0 = pickNext (fun c => vPathAt s c r) (seam.getD (r + 1) 0) W)
    _ (H - 1) _ ⟨by simp, by rw [getD_set]; simp; omega, fun r h1 h2 => by omega⟩ ?_ ?_
  · rintro i seam hi1 hi2 ⟨hlen, hlast, hpick⟩
    have hstep := backtrackStep_spec
      (fun nextColumn r => tabGet s.m_vEnergyPathTable nextColumn r)
      (fun c => vPathAt s c (i - 1)) W i seam (seam.getD i 0)
      (vecGet_getD (by omega) 0)
      (fun d hd => vPathAt_tabGet hv
        (lt_of_lt_of_le (BoundaryDiff_lt _ hd hW hWm) hWT) (by omega))
    refine ⟨_, hstep, by rw [List.length_set]; exact hlen, ?_, ?_⟩
    · rw [getD_set, if_neg (by omega)]; exact hlast
    · intro r hr1 hr2
      rw [getD_set, getD_set]
      by_cases hri : i - 1 = r
      · subst hri
        rw [if_pos ⟨rfl, by omega⟩, if_neg (by omega)]
        have : i - 1 + 1 = i := by omega
        rw [this]
      · rw [if_neg (fun h => hri h.1), if_neg (by omega)]
        exact hpick r (by omega) hr2
  · rintro seam ⟨hlen, hlast, hpick⟩
    refine ⟨hlen, by rw [hlast]; exact hs1, ?_, ?_, fun r hr => hpick r (Nat.zero_le _) hr⟩
    · intro j hj
      rw [hlast]; exact hs2 j hj
    · intro j hj
      rw [hlast] at hj ⊢; exact hs3 j hj

/-! ## `FindVerticalSeam` -/

/-- Whenever `RecalcVerticalEnergyPathTable` returns, the vertical validity flag is set. -/
theorem RecalcVerticalEnergyPathTable_valid {α : Type} [LinearOrder α] [Add α]
    {s s' : SeamCarver α} (h : RecalcVerticalEnergyPathTable s = Except.ok s') :
    s'.m_vEnergyPathTableIsValid = true := by
  unfold RecalcVerticalEnergyPathTable at h
  obtain ⟨t1, -, h⟩ := bind_eq_ok.mp h
  obtain ⟨hgt, -, h⟩ := bind_eq_ok.mp h
  obtain ⟨t2, -, h⟩ := bind_eq_ok.mp h
  cases h
  rfl

/-- `FindVerticalSeam` with a valid cache returns the extracted seam and leaves the engine
as it is. -/
theorem FindVerticalSeam_of_valid {α : Type} [LinearOrder α] [Add α] (s : SeamCarver α)
    (hv : s.m_vEnergyPathTableIsValid = true) :
    FindVerticalSeam s = extractVerticalSeam s >>= fun seam => pure (seam, s) := by
  unfold FindVerticalSeam
  rw [hv]
  rfl

/-- `FindVerticalSeam` with an invalid cache recomputes the path table first. -/
theorem FindVerticalSeam_of_invalid {α : Type} [LinearOrder α] [Add α] (s : SeamCarver α)
    (hv : s.m_vEnergyPathTableIsValid = false) :
    FindVerticalSeam s = RecalcVerticalEnergyPathTable s >>= fun s' =>
      extractVerticalSeam s' >>= fun seam => pure (seam, s') := by
  unfold FindVerticalSeam
  rw [hv]
  rfl

/-- The engine returned by `FindVerticalSeam` has a valid vertical cache, on which
`extractVerticalSeam` yields the returned seam. -/
theorem FindVerticalSeam_result {α : Type} [LinearOrder α] [Add α] {s s1 : SeamCarver α}
    {seam : Seam} (h : FindVerticalSeam s = Except.ok (seam, s1)) :
    s1.m_vEnergyPathTableIsValid = true ∧ extractVerticalSeam s1 = Except.ok seam := by
  cases hv : s.m_vEnergyPathTableIsValid with
  | true =>
    rw [FindVerticalSeam_of_valid s hv] at h
    obtain ⟨seam', hex, h⟩ := bind_eq_ok.mp h
    cases h
    exact ⟨hv, hex⟩
  | false =>
    rw [FindVerticalSeam_of_invalid s hv] at h
    obtain ⟨s', hrec, h⟩ := bind_eq_ok.mp h
    obtain ⟨seam', hex, h⟩ := bind_eq_ok.mp h
    cases h
    exact ⟨RecalcVerticalEnergyPathTable_valid hrec, hex⟩

/-- On a sized engine of width at least 2, `FindVerticalSeam` returns. -/
theorem FindVerticalSeam_total {α : Type} [LinearOrder α] [Add α] [Zero α]
    (s : SeamCarver α) {W H TW TH : Nat} (hs : Sized s W H TW TH) (hW : 2 ≤ W) :
    ∃ seam s1, FindVerticalSeam s = Except.ok (seam, s1) := by
  cases hv : s.m_vEnergyPathTableIsValid with
  | true =>
    obtain ⟨seam, hex, -⟩ := extractVerticalSeam_spec s hs hW
    exact ⟨seam, s, by rw [FindVerticalSeam_of_valid s hv, hex]; rfl⟩
  | false =>
    obtain ⟨s', hrec, t, rfl, hrt, -⟩ := RecalcVerticalEnergyPathTable_spec s hs hW
    obtain ⟨himg, hW1, hH1, hWT, hHT, hTW, hTH, he, hvp, hh⟩ := hs
    obtain ⟨seam, hex, -⟩ := extractVerticalSeam_spec
      ({ s with m_vEnergyPathTable := t, m_vEnergyPathTableIsValid := true })
      ⟨himg, hW1, hH1, hWT, hHT, hTW, hTH, he, hrt, hh⟩ hW
    exact ⟨seam, _, by rw [FindVerticalSeam_of_invalid s hv, hrec, ok_bind, hex]; rfl⟩

theorem pickNext_cases {α : Type} [LinearOrder α] (g : Nat → α) (cur bound : Nat) :
    pickNext g cur bound = BoundaryDiff cur 0 bound ∨
      pickNext g cur bound = BoundaryDiff cur (-1) bound ∨
      pickNext g cur bound = BoundaryDiff cur 1 bound := by
  unfold pickNext
  simp only
  split_ifs <;> simp

/-- The candidate chosen by the backtracking has the smallest value of the three. -/
theorem pickNext_le {α : Type} [LinearOrder α] (g : Nat → α) (cur bound : Nat) (d : Int)
    (hd : d = 0 ∨ d = -1 ∨ d = 1) :
    g (pickNext g cur bound) ≤ g (BoundaryDiff cur d bound) := by
  unfold pickNext
  simp only
  rcases hd with rfl | rfl | rfl
  · split_ifs with h1 h2 h2
    · exact le_of_lt (lt_trans h2 h1)
    · exact le_of_lt h1
    · exact le_of_lt h2
    · exact le_refl _
  · split_ifs with h1 h2 h2
    · exact le_of_lt h2
    · exact le_refl _
    · exact le_trans (le_of_lt h2) (le_of_not_lt h1)
    · exact le_of_not_lt h1
  · split_ifs with h1 h2 h2
    · exact le_refl _
    · exact le_of_not_lt h2
    · exact le_refl _
    · exact le_of_not_lt h2

theorem pickNext_congr {α : Type} [LinearOrder α] (g g' : Nat → α) (cur bound : Nat)
    (h : ∀ d : Int, d = 0 ∨ d = -1 ∨ d = 1 →
      g (BoundaryDiff cur d bound) = g' (BoundaryDiff cur d bound)) :
    pickNext g cur bound = pickNext g' cur bound := by
  unfold pickNext
  simp only [h 0 (Or.inl rfl), h (-1) (Or.inr (Or.inl rfl)), h 1 (Or.inr (Or.inr rfl))]
  split_ifs <;> simp_all

theorem pickNext_lt {α : Type} [LinearOrder α] (g : Nat → α) (cur : Nat) {bound : Nat}
    (hb2 : 2 ≤ bound) (hb : bound ≤ maxDim) : pickNext g cur bound < bound := by
  rcases pickNext_cases g cur bound with h | h | h <;> rw [h]
  · exact BoundaryDiff_lt cur (Or.inl rfl) hb2 hb
  · exact BoundaryDiff_lt cur (Or.inr (Or.inl rfl)) hb2 hb
  · exact BoundaryDiff_lt cur (Or.inr (Or.inr rfl)) hb2 hb

/-- The chosen candidate is at distance at most 1 from the current position. -/
theorem pickNext_adjacent {α : Type} [LinearOrder α] (g : Nat → α) {cur bound : Nat}
    (hc : cur < bound) (hb : bound ≤ maxDim) :
    pickNext g cur bound ≤ cur + 1 ∧ cur ≤ pickNext g cur bound + 1 := by
  rcases pickNext_cases g cur bound with h | h | h <;> rw [h]
  · rw [BoundaryDiff_zero hc hb]; omega
  · rw [BoundaryDiff_neg_one hc hb]; omega
  · rw [BoundaryDiff_one hc hb]; split_ifs <;> omega

/-- The value of the previous-row minimum in the recurrence of `vPathValue` is attained at
the candidate the backtracking chooses. -/
theorem vPathValue_pickNext {α : Type} [LinearOrderedCommRing α] (e : Nat → Nat → α)
    {W : Nat} (hWm : W ≤ maxDim) (r : Nat) {c : Nat} (hc : c < W) :
    vPathValue e W (r + 1) c =
      e c (r + 1) + vPathValue e W r (pickNext (vPathValue e W r) c W) := by
  show e c (r + 1) + min (min (vPathValue e W r (BoundaryDiff c 1 W))
    (vPathValue e W r (BoundaryDiff c (-1) W))) (vPathValue e W r c) = _
  congr 1
  apply le_antisymm
  · rcases pickNext_cases (vPathValue e W r) c W with h | h | h <;> rw [h]
    · rw [BoundaryDiff_zero hc hWm]; exact min_le_right _ _
    · exact le_trans (min_le_left _ _) (min_le_right _ _)
    · exact le_trans (min_le_left _ _) (min_le_left _ _)
  · refine le_min (le_min ?_ ?_) ?_
    · exact pickNext_le _ c W 1 (Or.inr (Or.inr rfl))
    · exact pickNext_le _ c W (-1) (Or.inr (Or.inl rfl))
    · have := pickNext_le (vPathValue e W r) c W 0 (Or.inl rfl)
      rwa [BoundaryDiff_zero hc hWm] at this

/-- Lower bound: the path value at the end of any connected seam is at most the energy
summed along that seam. -/
theorem vPathValue_le_sum {α : Type} [LinearOrderedCommRing α] (e : Nat → Nat → α)
    {W : Nat} (hWm : W ≤ maxDim) (σ : Nat → Nat) :
    ∀ n, (∀ r, r ≤ n → σ r < W) →
      (∀ r, r < n → σ r ≤ σ (r + 1) + 1 ∧ σ (r + 1) ≤ σ r + 1) →
      vPathValue e W n (σ n) ≤ ∑ r in Finset.range (n + 1), e (σ r) r := by
  intro n
  induction n with
  | zero => intro _ _; simp [vPathValue]
  | succ n ih =>
    intro hσ hadj
    have ih' := ih (fun r hr => hσ r (by omega)) (fun r hr => hadj r (by omega))
    have hc : σ (n + 1) < W := hσ (n + 1) (le_refl _)
    have hp : σ n < W := hσ n (by omega)
    obtain ⟨ha1, ha2⟩ := hadj n (by omega)
    have hv : vPathValue e W (n + 1) (σ (n + 1)) =
        min (min (vPathValue e W n (BoundaryDiff (σ (n + 1)) 1 W))
          (vPathValue e W n (BoundaryDiff (σ (n + 1)) (-1) W))) (vPathValue e W n (σ (n + 1))) +
        e (σ (n + 1)) (n + 1) := by
      rw [add_comm (min _ _) (e _ _)]; rfl
    rw [Finset.sum_range_succ, hv]
    refine add_le_add_right (le_trans ?_ ih') _
    rcases Nat.lt_trichotomy (σ n) (σ (n + 1)) with h | h | h
    · have : BoundaryDiff (σ (n + 1)) (-1) W = σ n := by
        rw [BoundaryDiff_neg_one hc hWm]; omega
      rw [this]
      exact le_trans (min_le_left _ _) (min_le_right _ _)
    · rw [h]; exact min_le_right _ _
    · have : BoundaryDiff (σ (n + 1)) 1 W = σ n := by
        rw [BoundaryDiff_one hc hWm]
        split_ifs with h0
        · omega
        · rw [Nat.min_def]; split_ifs <;> omega
      rw [this]
      exact le_trans (min_le_left _ _) (min_le_left _ _)

/-- The energy summed along a backtracked seam is the path value at its end. -/
theorem sum_eq_vPathValue {α : Type} [LinearOrderedCommRing α] (e : Nat → Nat → α)
    {W : Nat} (hW : 2 ≤ W) (hWm : W ≤ maxDim) (σ : Nat → Nat) :
    ∀ n, σ n < W →
      (∀ r, r < n → σ r = pickNext (vPathValue e W r) (σ (r + 1)) W) →
      ∑ r in Finset.range (n + 1), e (σ r) r = vPathValue e W n (σ n) := by
  intro n
  induction n with
  | zero => intro _ _; simp [vPathValue]
  | succ n ih =>
    intro hc hpick
    have hn : σ n = pickNext (vPathValue e W n) (σ (n + 1)) W := hpick n (by omega)
    have hp : σ n < W := by rw [hn]; exact pickNext_lt _ _ hW hWm
    rw [Finset.sum_range_succ, ih hp (fun r hr => hpick r (by omega)),
      vPathValue_pickNext e hWm n hc, ← hn, add_comm]

/-- C3: for a freshly constructed engine over a rectangular `W × H` image with `W ≥ 2` and
`H ≥ 1` (energies in exact arithmetic), `FindVerticalSeam` returns a connected seam whose
total energy, the sum over rows `r` of `energy[seam[r]][r]`, equals the smallest entry of
the last row of the vertical path table and is at most the total energy of every sequence
of length `H` with entries in `[0, W-1]` whose consecutive entries differ by at most 1. -/
theorem FindVerticalSeam_globally_minimal {α : Type} [LinearOrderedCommRing α]
    (sqrt : Int → α) (img : Image) (W H : Nat) (himg : Rect img.m_table W H) (hW : 2 ≤ W)
    (hH : 1 ≤ H) (hWm : W ≤ maxDim) (hHm : H ≤ maxDim) :
    ∃ s0 seam s1, SeamCarver.new sqrt img = Except.ok s0 ∧
      FindVerticalSeam s0 = Except.ok (seam, s1) ∧ IsVerticalSeam seam W H ∧
      seamEnergy (energyAt s1) seam = vPathAt s1 (seam.getD (H - 1) 0) (H - 1) ∧
      (∀ c, c < W → vPathAt s1 (seam.getD (H - 1) 0) (H - 1) ≤ vPathAt s1 c (H - 1)) ∧
      ∀ other, IsVerticalSeam other W H →
        seamEnergy (energyAt s1) seam ≤ seamEnergy (energyAt s1) other := by
  obtain ⟨s0, hnew, -, -, -, -, hvf, -, -⟩ := new_spec sqrt img himg (by omega)
  have hs0 : Sized s0 W H W H := new_sized sqrt img himg (by omega) hH hWm hHm hnew
  obtain ⟨s', hrec, t, rfl, hrt, hct⟩ := RecalcVerticalEnergyPathTable_spec s0 hs0 hW
  have hs1 : Sized ({ s0 with m_vEnergyPathTable := t, m_vEnergyPathTableIsValid := true })
      W H W H := by
    obtain ⟨h1, h2, h3, h4, h5, h6, h7, h8, -, h10⟩ := hs0
    exact ⟨h1, h2, h3, h4, h5, h6, h7, h8, hrt, h10⟩
  obtain ⟨seam, hex, hlen, hseedlt, hseedmin, -, hpick⟩ := extractVerticalSeam_spec _ hs1 hW
  have hfind : FindVerticalSeam s0 =
      Except.ok (seam, { s0 with m_vEnergyPathTable := t, m_vEnergyPathTableIsValid := true }) := by
    rw [FindVerticalSeam_of_invalid s0 hvf, hrec, ok_bind, hex]; rfl
  refine ⟨s0, seam, _, hnew, hfind, ?_⟩
  have hvp : ∀ c r, c < W → r < H →
      vPathAt ({ s0 with m_vEnergyPathTable := t, m_vEnergyPathTableIsValid := true }) c r =
        vPathValue (energyAt s0) W r c := by
    intro c r hc hr
    exact tabGetD_of_tabGet 0 (by rw [hct, if_pos ⟨hc, hr⟩])
  have hpick' : ∀ r, r + 1 < H → seam.getD r 0 =
      pickNext (vPathValue (energyAt s0) W r) (seam.getD (r + 1) 0) W := by
    intro r hr
    rw [hpick r hr]
    exact pickNext_congr _ _ _ _ (fun d hd => hvp _ r (BoundaryDiff_lt _ hd hW hWm) (by omega))
  have hlt : ∀ r, r < H → seam.getD r 0 < W := by
    intro r hr
    by_cases hlast : r + 1 < H
    · rw [hpick' r hlast]; exact pickNext_lt _ _ hW hWm
    · have : r = H - 1 := by omega
      rw [this]; exact hseedlt
  have hsum : seamEnergy (energyAt s0) seam =
      vPathValue (energyAt s0) W (H - 1) (seam.getD (H - 1) 0) := by
    unfold seamEnergy
    rw [show seam.length = H - 1 + 1 by omega]
    exact sum_eq_vPathValue (energyAt s0) hW hWm (fun r => seam.getD r 0) (H - 1)
      hseedlt (fun r hr => hpick' r (by omega))
  refine ⟨⟨hlen, ?_, ?_⟩, ?_, hseedmin, ?_⟩
  · intro x hx
    obtain ⟨i, hi, rfl⟩ := List.getElem_of_mem hx
    have := hlt i (by omega)
    simpa [List.getD, List.getElem?_eq_getElem hi] using this
  · intro r hr
    rw [hpick' r hr]
    have := pickNext_adjacent (vPathValue (energyAt s0) W r) (hlt (r + 1) hr) hWm
    omega
  · rw [hvp _ _ hseedlt (by omega)]
    exact hsum
  · rintro other ⟨holen, hoin, hoadj⟩
    have holt : ∀ r, other.getD r 0 < W := fun r => getD_lt_of_forall hoin (by omega)
    have hlow := vPathValue_le_sum (energyAt s0) hWm (fun r => other.getD r 0) (H - 1)
      (fun r _ => holt r) (fun r hr => by
        have := hoadj r (by omega)
        exact ⟨this.1, this.2⟩)
    have hmin := hseedmin (other.getD (H - 1) 0) (holt _)
    rw [hvp _ _ hseedlt (by omega), hvp _ _ (holt _) (by omega)] at hmin
    show seamEnergy (energyAt s0) seam ≤ seamEnergy (energyAt s0) other
    rw [hsum]
    refine le_trans hmin ?_
    unfold seamEnergy
    rw [show other.length = H - 1 + 1 by omega]
    exact hlow

/-- Witness for C3: the `3 × 3` sample image over the integers. -/
theorem FindVerticalSeam_globally_minimal_witness :
    ∃ s0 seam s1, SeamCarver.new intSqrt sampleImage = Except.ok s0 ∧
      FindVerticalSeam s0 = Except.ok (seam, s1) ∧ IsVerticalSeam seam 3 3 ∧
      seamEnergy (energyAt s1) seam = vPathAt s1 (seam.getD (3 - 1) 0) (3 - 1) ∧
      (∀ c, c < 3 → vPathAt s1 (seam.getD (3 - 1) 0) (3 - 1) ≤ vPathAt s1 c (3 - 1)) ∧
      ∀ other, IsVerticalSeam other 3 3 →
        seamEnergy (energyAt s1) seam ≤ seamEnergy (energyAt s1) other :=
  FindVerticalSeam_globally_minimal intSqrt sampleImage 3 3 (by decide) (by decide)
    (by decide) (by decide) (by decide)

/-! ## The size invariant along removals -/

/-- `RemoveVerticalSeam` keeps the size invariant, with the width reduced by one. -/
theorem RemoveVerticalSeam_sized {α : Type} (sqrt : Int → α) (s : SeamCarver α) (seam : Seam)
    {W H TW TH : Nat} (hs : Sized s W H TW TH) (hW : 2 ≤ W) (hlen : seam.length = H) :
    ∃ s', RemoveVerticalSeam sqrt s seam = Except.ok s' ∧ Sized s' (W - 1) H TW TH := by
  obtain ⟨s', hs', img, e, rfl, himg, he, -, -⟩ := RemoveVerticalSeam_spec sqrt s seam hs hW hlen
  obtain ⟨-, h2, h3, h4, h5, h6, h7, -, h9, h10⟩ := hs
  exact ⟨_, hs', himg, by omega, h3, by omega, h5, h6, h7, he, h9, h10⟩

/-- `RemoveHorizontalSeam` keeps the size invariant, with the height reduced by one. -/
theorem RemoveHorizontalSeam_sized {α : Type} (sqrt : Int → α) (s : SeamCarver α)
    (seam : Seam) {W H TW TH : Nat} (hs : Sized s W H TW TH) (hH : 2 ≤ H)
    (hlen : seam.length = W) (hin : ∀ x ∈ seam, x < H) :
    ∃ s', RemoveHorizontalSeam sqrt s seam = Except.ok s' ∧ Sized s' W (H - 1) TW TH := by
  obtain ⟨s', hs', img, e, rfl, himg, he, -, -⟩ :=
    RemoveHorizontalSeam_spec sqrt s seam hs hH hlen hin
  obtain ⟨-, h2, h3, h4, h5, h6, h7, -, h9, h10⟩ := hs
  exact ⟨_, hs', himg, h2, by omega, h4, by omega, h6, h7, he, h9, h10⟩


/-! ## Small images and the boundary helper -/

/-- C12: for every `1 × 1` image, whatever its pixel `p`, the constructor returns and
`GetPixelEnergy(0, 0)` is `sqrt 0 = 0`: the four wraparound neighbours `(0, (0+1) % 1)`,
`(0, (0+1-1) % 1)`, `((0+1) % 1, 0)` and `((0+1-1) % 1, 0)` are all the pixel itself. -/
theorem one_by_one_image_has_zero_energy {α : Type} [Zero α] (sqrt : Int → α)
    (hsqrt : sqrt 0 = 0) (p : Pixel) :
    ∃ s, SeamCarver.new sqrt ⟨[[p]]⟩ = Except.ok s ∧
      GetPixelEnergy s 0 0 = Except.ok 0 ∧
      pixelAt ⟨[[p]]⟩ 0 ((0 + 1) % 1) = p ∧ pixelAt ⟨[[p]]⟩ 0 ((0 + 1 - 1) % 1) = p ∧
      pixelAt ⟨[[p]]⟩ ((0 + 1) % 1) 0 = p ∧ pixelAt ⟨[[p]]⟩ ((0 + 1 - 1) % 1) 0 = p := by
  have himg : Rect (⟨[[p]]⟩ : Image).m_table 1 1 := ⟨rfl, by simp⟩
  obtain ⟨s, hs, -, -, -, -, -, -, hcells⟩ := new_spec sqrt ⟨[[p]]⟩ himg (le_refl 1)
  refine ⟨s, hs, ?_, rfl, rfl, rfl, rfl⟩
  have h := hcells 0 0 (by decide) (by decide)
  have harg : pixelEnergyArg (⟨[[p]]⟩ : Image).m_table 1 1 0 0 = 0 := by
    simp [pixelEnergyArg, tabGetD, pairDiff]
  rw [harg, hsqrt] at h
  exact h

/-- Witness for C12: the pixel `(7, 0, 0)` over the integers. -/
theorem one_by_one_image_has_zero_energy_witness :
    ∃ s, SeamCarver.new intSqrt ⟨[[red 7]]⟩ = Except.ok s ∧
      GetPixelEnergy s 0 0 = Except.ok 0 ∧
      pixelAt ⟨[[red 7]]⟩ 0 ((0 + 1) % 1) = red 7 ∧
      pixelAt ⟨[[red 7]]⟩ 0 ((0 + 1 - 1) % 1) = red 7 ∧
      pixelAt ⟨[[red 7]]⟩ ((0 + 1) % 1) 0 = red 7 ∧
      pixelAt ⟨[[red 7]]⟩ ((0 + 1 - 1) % 1) 0 = red 7 :=
  one_by_one_image_has_zero_energy intSqrt (by decide) (red 7)

/-- C14 (the code departs from the claim): for the dimension `n = 1` and the only index
`v = 0`, which is both the first and the last index, the step `+1` yields
`BoundaryDiff(0, 1, 1) = 1`, which is not an index in `[0, n - 1]` and not `n - 1 = 0`. -/
theorem BoundaryDiff_leaves_grid_of_dimension_one :
    BoundaryDiff 0 1 1 = 1 ∧ ¬ BoundaryDiff 0 1 1 < 1 ∧ BoundaryDiff (1 - 1) 1 1 ≠ 1 - 1 := by
  decide

/-! ## Frame and shape of removals -/

/-- C17: on a sized engine, `RemoveVerticalSeam` (`W ≥ 2`, well-formed seam) leaves every
stored energy cell `(c, r)` with `c` different from both `seam[r] mod (W-1)` and
`(seam[r] + W - 2) mod (W-1)` at its pre-removal value (cells of rows outside the image are
never touched); `RemoveHorizontalSeam` (`H ≥ 2`, well-formed seam) changes in column `c`
only the cells at rows `seam[c] mod (H-1)` and `(seam[c] + H - 2) mod (H-1)`. -/
theorem removal_patches_two_energy_cells {α : Type} (sqrt : Int → α) (s : SeamCarver α)
    (vseam hseam : Seam) (W H TW TH : Nat) (hs : Sized s W H TW TH) :
    (2 ≤ W → vseam.length = H → (∀ x ∈ vseam, x < W) →
      ∃ s', RemoveVerticalSeam sqrt s vseam = Except.ok s' ∧
        ∀ c r, (r < H → c ≠ vseam.getD r 0 % (W - 1) ∧
            c ≠ (vseam.getD r 0 + W - 2) % (W - 1)) →
          GetPixelEnergy s' c r = GetPixelEnergy s c r) ∧
    (2 ≤ H → hseam.length = W → (∀ x ∈ hseam, x < H) →
      ∃ s', RemoveHorizontalSeam sqrt s hseam = Except.ok s' ∧
        ∀ c r, (c < W → r ≠ hseam.getD c 0 % (H - 1) ∧
            r ≠ (hseam.getD c 0 + H - 2) % (H - 1)) →
          GetPixelEnergy s' c r = GetPixelEnergy s c r) := by
  constructor
  · intro hW hlen _
    obtain ⟨s', hs', img, e, rfl, -, -, -, hfr⟩ := RemoveVerticalSeam_spec sqrt s vseam hs hW hlen
    refine ⟨_, hs', fun c r hcr => hfr c r (fun hr => ?_)⟩
    have := hcr hr
    have e1 : vseam.getD r 0 + (W - 1) - 1 = vseam.getD r 0 + W - 2 := by omega
    rw [e1]; exact this
  · intro hH hlen hin
    obtain ⟨s', hs', img, e, rfl, -, -, -, hfr⟩ :=
      RemoveHorizontalSeam_spec sqrt s hseam hs hH hlen hin
    refine ⟨_, hs', fun c r hcr => hfr c r (fun hc => ?_)⟩
    have := hcr hc
    have e1 : hseam.getD c 0 + (H - 1) - 1 = hseam.getD c 0 + H - 2 := by omega
    rw [e1]; exact this

/-- Witness for C17: the sample engine with the vertical seam `[1, 0, 2]` and the
horizontal seam `[2, 2, 1]`. -/
theorem removal_patches_two_energy_cells_witness :
    (∃ s', RemoveVerticalSeam intSqrt sampleEngine [1, 0, 2] = Except.ok s' ∧
        ∀ c r, (r < 3 → c ≠ [1, 0, 2].getD r 0 % (3 - 1) ∧
            c ≠ ([1, 0, 2].getD r 0 + 3 - 2) % (3 - 1)) →
          GetPixelEnergy s' c r = GetPixelEnergy sampleEngine c r) ∧
    (∃ s', RemoveHorizontalSeam intSqrt sampleEngine [2, 2, 1] = Except.ok s' ∧
        ∀ c r, (c < 3 → r ≠ [2, 2, 1].getD c 0 % (3 - 1) ∧
            r ≠ ([2, 2, 1].getD c 0 + 3 - 2) % (3 - 1)) →
          GetPixelEnergy s' c r = GetPixelEnergy sampleEngine c r) :=
  ⟨(removal_patches_two_energy_cells intSqrt sampleEngine [1, 0, 2] [2, 2, 1] 3 3 3 3
      (by decide)).1 (by decide) (by decide) (by decide),
   (removal_patches_two_energy_cells intSqrt sampleEngine [1, 0, 2] [2, 2, 1] 3 3 3 3
      (by decide)).2 (by decide) (by decide) (by decide)⟩

/-- C19: rectangularity is preserved by both mutations.  On a sized engine whose image has
`W` columns of height `H`, after `RemoveVerticalSeam` with a seam of length `H` and entries
in `[0, W-1]` (`W ≥ 2`) the image has `W - 1` columns, all of height `H`; after
`RemoveHorizontalSeam` with a seam of length `W` and entries in `[0, H-1]` (`H ≥ 2`) it has
`W` columns, all of height `H - 1`. -/
theorem removal_preserves_rectangularity {α : Type} (sqrt : Int → α) (s : SeamCarver α)
    (vseam hseam : Seam) (W H TW TH : Nat) (hs : Sized s W H TW TH) :
    (2 ≤ W → vseam.length = H → (∀ x ∈ vseam, x < W) →
      ∃ s', RemoveVerticalSeam sqrt s vseam = Except.ok s' ∧
        s'.m_image.m_table.length = W - 1 ∧ ∀ col ∈ s'.m_image.m_table, col.length = H) ∧
    (2 ≤ H → hseam.length = W → (∀ x ∈ hseam, x < H) →
      ∃ s', RemoveHorizontalSeam sqrt s hseam = Except.ok s' ∧
        s'.m_image.m_table.length = W ∧ ∀ col ∈ s'.m_image.m_table, col.length = H - 1) := by
  constructor
  · intro hW hlen _
    obtain ⟨s', hs', hsz⟩ := RemoveVerticalSeam_sized sqrt s vseam hs hW hlen
    exact ⟨s', hs', hsz.1.1, hsz.1.2⟩
  · intro hH hlen hin
    obtain ⟨s', hs', hsz⟩ := RemoveHorizontalSeam_sized sqrt s hseam hs hH hlen hin
    exact ⟨s', hs', hsz.1.1, hsz.1.2⟩

/-- Witness for C19: the sample engine with the vertical seam `[1, 0, 2]` and the
horizontal seam `[2, 2, 1]`. -/
theorem removal_preserves_rectangularity_witness :
    (∃ s', RemoveVerticalSeam intSqrt sampleEngine [1, 0, 2] = Except.ok s' ∧
        s'.m_image.m_table.length = 3 - 1 ∧ ∀ col ∈ s'.m_image.m_table, col.length = 3) ∧
    (∃ s', RemoveHorizontalSeam intSqrt sampleEngine [2, 2, 1] = Except.ok s' ∧
        s'.m_image.m_table.length = 3 ∧ ∀ col ∈ s'.m_image.m_table, col.length = 3 - 1) :=
  ⟨(removal_preserves_rectangularity intSqrt sampleEngine [1, 0, 2] [2, 2, 1] 3 3 3 3
      (by decide)).1 (by decide) (by decide) (by decide),
   (removal_preserves_rectangularity intSqrt sampleEngine [1, 0, 2] [2, 2, 1] 3 3 3 3
      (by decide)).2 (by decide) (by decide) (by decide)⟩

/-! ## First-minimum-wins selection -/

/-- `FindVerticalSeam` on a freshly constructed engine over a `W × H` image with `W ≥ 2`:
the path table holds `vPathValue`, the seam has one in-range entry per row, its last entry
is the first smallest entry of the last row, and every other entry is chosen by `pickNext`
from the entry below it. -/
theorem FindVerticalSeam_fresh_spec {α : Type} [LinearOrder α] [Add α] [Zero α]
    (sqrt : Int → α) (img : Image) {W H : Nat} (himg : Rect img.m_table W H) (hW : 2 ≤ W)
    (hH : 1 ≤ H) (hWm : W ≤ maxDim) (hHm : H ≤ maxDim) :
    ∃ s0 seam s1, SeamCarver.new sqrt img = Except.ok s0 ∧
      FindVerticalSeam s0 = Except.ok (seam, s1) ∧ seam.length = H ∧
      s1.m_energyTable = s0.m_energyTable ∧
      (∀ c r, c < W → r < H → vPathAt s1 c r = vPathValue (energyAt s0) W r c) ∧
      (∀ r, r < H → seam.getD r 0 < W) ∧
      (∀ c, c < W → vPathAt s1 (seam.getD (H - 1) 0) (H - 1) ≤ vPathAt s1 c (H - 1)) ∧
      (∀ c, c < seam.getD (H - 1) 0 →
        vPathAt s1 (seam.getD (H - 1) 0) (H - 1) < vPathAt s1 c (H - 1)) ∧
      ∀ r, r + 1 < H →
        seam.getD r 0 = pickNext (fun c => vPathAt s1 c r) (seam.getD (r + 1) 0) W := by
  obtain ⟨s0, hnew, -, -, -, -, hvf, -, -⟩ := new_spec sqrt img himg (by omega)
  have hs0 : Sized s0 W H W H := new_sized sqrt img himg (by omega) hH hWm hHm hnew
  obtain ⟨s', hrec, t, rfl, hrt, hct⟩ := RecalcVerticalEnergyPathTable_spec s0 hs0 hW
  have hs1 : Sized ({ s0 with m_vEnergyPathTable := t, m_vEnergyPathTableIsValid := true })
      W H W H := by
    obtain ⟨h1, h2, h3, h4, h5, h6, h7, h8, -, h10⟩ := hs0
    exact ⟨h1, h2, h3, h4, h5, h6, h7, h8, hrt, h10⟩
  obtain ⟨seam, hex, hlen, hseedlt, hseedmin, hseedfirst, hpick⟩ :=
    extractVerticalSeam_spec _ hs1 hW
  have hfind : FindVerticalSeam s0 =
      Except.ok (seam, { s0 with m_vEnergyPathTable := t, m_vEnergyPathTableIsValid := true }) := by
    rw [FindVerticalSeam_of_invalid s0 hvf, hrec, ok_bind, hex]; rfl
  refine ⟨s0, seam, _, hnew, hfind, hlen, rfl, ?_, ?_, hseedmin, hseedfirst, hpick⟩
  · intro c r hc hr
    exact tabGetD_of_tabGet 0 (by rw [hct, if_pos ⟨hc, hr⟩])
  · intro r hr
    by_cases hlast : r + 1 < H
    · rw [hpick r hlast]; exact pickNext_lt _ _ hW hWm
    · have : r = H - 1 := by omega
      rw [this]; exact hseedlt

/-- With a bound of at least 2, a `+1` step from an index inside the grid is the
successor clamped at the last index. -/
theorem BoundaryDiff_one_clamped {v n : Nat} (hv : v < n) (hn2 : 2 ≤ n) (hn : n ≤ maxDim) :
    BoundaryDiff v 1 n = min (v + 1) (n - 1) := by
  rw [BoundaryDiff_one hv hn]
  split_ifs with h
  · subst h; rw [Nat.min_def]; split_ifs <;> omega
  · rfl

/-- C15: seam selection is first-minimum-wins on a freshly constructed engine over a
`W × H` image with `W ≥ 2`.  The last entry of `FindVerticalSeam` is the lowest column
among those minimising the last row of the vertical path table.  From the entry `c` of row
`r + 1` the entry of row `r` is chosen among `c`, `c - 1` (clamped at 0) and `c + 1`
(clamped at `W - 1`), examined in this order, a later candidate replacing the current
choice only when its path value is strictly smaller; hence the seam stays in column `c`
whenever the value at `c` is at most both neighbours' values. -/
theorem FindVerticalSeam_first_minimum_wins {α : Type} [LinearOrder α] [Add α] [Zero α]
    (sqrt : Int → α) (img : Image) (W H : Nat) (himg : Rect img.m_table W H) (hW : 2 ≤ W)
    (hH : 1 ≤ H) (hWm : W ≤ maxDim) (hHm : H ≤ maxDim) :
    ∃ s0 seam s1, SeamCarver.new sqrt img = Except.ok s0 ∧
      FindVerticalSeam s0 = Except.ok (seam, s1) ∧ seam.length = H ∧
      seam.getD (H - 1) 0 < W ∧
      (∀ c, c < W → vPathAt s1 (seam.getD (H - 1) 0) (H - 1) ≤ vPathAt s1 c (H - 1)) ∧
      (∀ c, c < seam.getD (H - 1) 0 →
        vPathAt s1 (seam.getD (H - 1) 0) (H - 1) < vPathAt s1 c (H - 1)) ∧
      ∀ r, r + 1 < H →
        seam.getD r 0 =
          (if vPathAt s1 (min (seam.getD (r + 1) 0 + 1) (W - 1)) r <
              vPathAt s1 (if vPathAt s1 (seam.getD (r + 1) 0 - 1) r <
                vPathAt s1 (seam.getD (r + 1) 0) r then seam.getD (r + 1) 0 - 1
                else seam.getD (r + 1) 0) r
            then min (seam.getD (r + 1) 0 + 1) (W - 1)
            else if vPathAt s1 (seam.getD (r + 1) 0 - 1) r <
                vPathAt s1 (seam.getD (r + 1) 0) r then seam.getD (r + 1) 0 - 1
              else seam.getD (r + 1) 0) ∧
        (vPathAt s1 (seam.getD (r + 1) 0) r ≤ vPathAt s1 (seam.getD (r + 1) 0 - 1) r →
          vPathAt s1 (seam.getD (r + 1) 0) r ≤
            vPathAt s1 (min (seam.getD (r + 1) 0 + 1) (W - 1)) r →
          seam.getD r 0 = seam.getD (r + 1) 0) := by
  obtain ⟨s0, seam, s1, hnew, hfind, hlen, -, -, hlt, hmin, hfirst, hpick⟩ :=
    FindVerticalSeam_fresh_spec sqrt img himg hW hH hWm hHm
  refine ⟨s0, seam, s1, hnew, hfind, hlen, hlt _ (by omega), hmin, hfirst, fun r hr => ?_⟩
  have hc := hlt (r + 1) hr
  have hstep : seam.getD r 0 =
      (if vPathAt s1 (min (seam.getD (r + 1) 0 + 1) (W - 1)) r <
          vPathAt s1 (if vPathAt s1 (seam.getD (r + 1) 0 - 1) r <
            vPathAt s1 (seam.getD (r + 1) 0) r then seam.getD (r + 1) 0 - 1
            else seam.getD (r + 1) 0) r
        then min (seam.getD (r + 1) 0 + 1) (W - 1)
        else if vPathAt s1 (seam.getD (r + 1) 0 - 1) r <
            vPathAt s1 (seam.getD (r + 1) 0) r then seam.getD (r + 1) 0 - 1
          else seam.getD (r + 1) 0) := by
    rw [hpick r hr]
    unfold pickNext
    simp only [BoundaryDiff_zero hc hWm, BoundaryDiff_neg_one hc hWm,
      BoundaryDiff_one_clamped hc hW hWm]
  refine ⟨hstep, fun h1 h2 => ?_⟩
  rw [hstep, if_neg (not_lt.mpr h1), if_neg (not_lt.mpr h2)]

/-- Witness for C15: the `3 × 3` sample image over the integers. -/
theorem FindVerticalSeam_first_minimum_wins_witness :
    ∃ s0 seam s1, SeamCarver.new intSqrt sampleImage = Except.ok s0 ∧
      FindVerticalSeam s0 = Except.ok (seam, s1) ∧ seam.length = 3 ∧
      seam.getD (3 - 1) 0 < 3 ∧
      (∀ c, c < 3 → vPathAt s1 (seam.getD (3 - 1) 0) (3 - 1) ≤ vPathAt s1 c (3 - 1)) ∧
      (∀ c, c < seam.getD (3 - 1) 0 →
        vPathAt s1 (seam.getD (3 - 1) 0) (3 - 1) < vPathAt s1 c (3 - 1)) ∧
      ∀ r, r + 1 < 3 →
        seam.getD r 0 =
          (if vPathAt s1 (min (seam.getD (r + 1) 0 + 1) (3 - 1)) r <
              vPathAt s1 (if vPathAt s1 (seam.getD (r + 1) 0 - 1) r <
                vPathAt s1 (seam.getD (r + 1) 0) r then seam.getD (r + 1) 0 - 1
                else seam.getD (r + 1) 0) r
            then min (seam.getD (r + 1) 0 + 1) (3 - 1)
            else if vPathAt s1 (seam.getD (r + 1) 0 - 1) r <
                vPathAt s1 (seam.getD (r + 1) 0) r then seam.getD (r + 1) 0 - 1
              else seam.getD (r + 1) 0) ∧
        (vPathAt s1 (seam.getD (r + 1) 0) r ≤ vPathAt s1 (seam.getD (r + 1) 0 - 1) r →
          vPathAt s1 (seam.getD (r + 1) 0) r ≤
            vPathAt s1 (min (seam.getD (r + 1) 0 + 1) (3 - 1)) r →
          seam.getD r 0 = seam.getD (r + 1) 0) :=
  FindVerticalSeam_first_minimum_wins intSqrt sampleImage 3 3 (by decide) (by decide)
    (by decide) (by decide) (by decide)

/-! ## Horizontal path table -/

theorem hPathAt_tabGet {α : Type} [Zero α] {s : SeamCarver α} {TW TH : Nat}
    (hh : Rect s.m_hEnergyPathTable TW TH) {c r : Nat} (hc : c < TW) (hr : r < TH) :
    tabGet s.m_hEnergyPathTable c r = Except.ok (hPathAt s c r) :=
  tabGet_of_rect hh hc hr 0

/-- `RecalcHorizontalEnergyPathTable` on a sized engine of height at least 2 succeeds; it
copies column 0 of the energy table into column 0 of the horizontal path table, stores
`hPathValue` in every cell of columns `1 .. W-1` of the image area, leaves the other cells
alone and sets the horizontal validity flag. -/
theorem RecalcHorizontalEnergyPathTable_spec {α : Type} [LinearOrder α] [Add α] [Zero α]
    (s : SeamCarver α) {W H TW TH : Nat} (hs : Sized s W H TW TH) (hH : 2 ≤ H) :
    ∃ s', RecalcHorizontalEnergyPathTable s = Except.ok s' ∧
      ∃ t, s' = { s with m_hEnergyPathTable := t, m_hEnergyPathTableIsValid := true } ∧
        Rect t TW TH ∧
        ∀ c r, tabGet t c r =
          if c = 0 then tabGet s.m_energyTable 0 r
          else if c < W ∧ r < H then Except.ok (hPathValue (energyAt s) H c r)
          else tabGet s.m_hEnergyPathTable c r := by
  obtain ⟨himg, hW1, hH1, hWT, hHT, hTW, hTH, he, hv, hh⟩ := hs
  have hHm : H ≤ maxDim := le_trans hHT hTH
  unfold RecalcHorizontalEnergyPathTable
  obtain ⟨ecol, hecol, hecollen⟩ := rect_getElem? he (show 0 < TW by omega)
  have hget0 : vecGet s.m_energyTable 0 = Except.ok ecol := vecGet_eq_ok.mpr hecol
  have hset0 : vecSet s.m_hEnergyPathTable 0 ecol =
      Except.ok (s.m_hEnergyPathTable.set 0 ecol) :=
    vecSet_of_lt ecol (by rw [hh.1]; omega)
  have hw : GetImageWidth s = W := himg.1
  simp only [hget0, hset0, ok_bind, hw]
  have hr0 : Rect (s.m_hEnergyPathTable.set 0 ecol) TW TH := by
    refine ⟨by rw [List.length_set]; exact hh.1, fun col hcol => ?_⟩
    rcases List.mem_or_eq_of_mem_set hcol with h | h
    · exact hh.2 col h
    · rw [h]; exact hecollen
  have hc0 : ∀ c r, tabGet (s.m_hEnergyPathTable.set 0 ecol) c r =
      if c = 0 then tabGet s.m_energyTable 0 r else tabGet s.m_hEnergyPathTable c r := by
    intro c r
    by_cases hc : c = 0
    · subst hc
      have : (s.m_hEnergyPathTable.set 0 ecol)[0]? = some ecol := by
        rw [List.getElem?_set]; simp [hh.1]; omega
      simp [tabGet, vecGet, this, hecol]
    · have hc' : ¬ 0 = c := fun h => hc h.symm
      simp [tabGet, vecGet, List.getElem?_set, hc, hc']
  apply exists_bind_ok
  refine forLoop_inv _
    (fun i t => Rect t TW TH ∧ ∀ c r, tabGet t c r =
      if c = 0 then tabGet s.m_energyTable 0 r
      else if c < i ∧ r < H then Except.ok (hPathValue (energyAt s) H c r)
      else tabGet s.m_hEnergyPathTable c r)
    _ (W - 1) 1 _ ⟨hr0, fun c r => by
      rw [hc0]
      split_ifs with h1 h2 <;> first | rfl | (exfalso; omega)⟩ ?_ ?_
  · rintro i t hi1 hi2 ⟨hrt, hct⟩
    obtain ⟨i', rfl⟩ : ∃ i', i = i' + 1 := ⟨i - 1, by omega⟩
    rw [GetImageHeight_of_rect himg hW1]
    simp only [ok_bind]
    -- the previous column holds `hPathValue`
    have hprev : ∀ r, r < H → tabGet t i' r = Except.ok (hPathValue (energyAt s) H i' r) := by
      intro r hr
      rw [hct]
      by_cases h0 : i' = 0
      · subst h0
        rw [if_pos rfl, energyAt_tabGet he (show 0 < TW by omega) (show r < TH by omega)]
        rfl
      · rw [if_neg h0, if_pos ⟨by omega, hr⟩]
    refine forLoop_inv _
      (fun j t => Rect t TW TH ∧ ∀ c r, tabGet t c r =
        if c = 0 then tabGet s.m_energyTable 0 r
        else if (c < i' + 1 ∧ r < H) ∨ (c = i' + 1 ∧ r < j) then
          Except.ok (hPathValue (energyAt s) H c r)
        else tabGet s.m_hEnergyPathTable c r)
      _ H 0 t ⟨hrt, fun c r => by
        rw [hct]
        split_ifs with h1 h2 h3 <;> first | rfl | (exfalso; omega)⟩ ?_ ?_
    · rintro j t2 - hj ⟨hrt2, hct2⟩
      have hjH : j < H := by omega
      have b1 := BoundaryDiff_lt j (d := 1) (Or.inr (Or.inr rfl)) hH hHm
      have b2 := BoundaryDiff_lt j (d := -1) (Or.inr (Or.inl rfl)) hH hHm
      have hprev2 : ∀ r, r < H →
          tabGet t2 i' r = Except.ok (hPathValue (energyAt s) H i' r) := by
        intro r hr
        rw [hct2]
        by_cases h0 : i' = 0
        · subst h0
          rw [if_pos rfl, energyAt_tabGet he (show 0 < TW by omega) (show r < TH by omega)]
          rfl
        · rw [if_neg h0, if_pos (Or.inl ⟨by omega, hr⟩)]
      rw [energyAt_tabGet he (show i' + 1 < TW by omega) (show j < TH by omega)]
      simp only [ok_bind, Nat.add_sub_cancel, hprev2 _ b1, hprev2 _ b2, hprev2 _ hjH]
      obtain ⟨x, hx⟩ := rect_tabGet hrt2 (show i' + 1 < TW by omega) (show j < TH by omega)
      obtain ⟨t', hset⟩ := tabSet_ok_of_tabGet
        (energyAt s (i' + 1) j +
          min (min (hPathValue (energyAt s) H i' (BoundaryDiff j 1 H))
              (hPathValue (energyAt s) H i' (BoundaryDiff j (-1) H)))
            (hPathValue (energyAt s) H i' j)) hx
      refine ⟨t', hset, tabSet_rect hset hrt2, fun c r => ?_⟩
      rw [tabGet_tabSet hset, hct2]
      split_ifs with h1 h2 h3 h4 h5 <;>
        first
        | rfl
        | (exfalso; omega)
        | (obtain ⟨rfl, rfl⟩ := h1; rfl)
    · rintro t2 ⟨hrt2, hct2⟩
      refine ⟨hrt2, fun c r => ?_⟩
      rw [hct2]
      split_ifs with h1 h2 h3 <;> first | rfl | (exfalso; omega)
  · rintro t2 ⟨hrt2, hct2⟩
    refine ⟨_, rfl, t2, rfl, hrt2, fun c r => ?_⟩
    rw [hct2]
    split_ifs with h1 h2 h3 <;> first | rfl | (exfalso; omega)

/-- Seed and backtracking of `FindHorizontalSeam` on a sized engine of height at least 2:
the call succeeds and returns one entry per image column; the last entry is the position of
the first smallest entry of the last column of the stored path table (column `TW - 1`, all
`TH` rows), and every other entry is chosen by `pickNext` from the entry right of it. -/
theorem extractHorizontalSeam_spec {α : Type} [LinearOrder α] [Zero α] (s : SeamCarver α)
    {W H TW TH : Nat} (hs : Sized s W H TW TH) (hH : 2 ≤ H) :
    ∃ seam, extractHorizontalSeam s = Except.ok seam ∧ seam.length = W ∧
      seam.getD (W - 1) 0 < TH ∧
      (∀ j, j < TH → hPathAt s (TW - 1) (seam.getD (W - 1) 0) ≤ hPathAt s (TW - 1) j) ∧
      (∀ j, j < seam.getD (W - 1) 0 →
        hPathAt s (TW - 1) (seam.getD (W - 1) 0) < hPathAt s (TW - 1) j) ∧
      ∀ c, c + 1 < W →
        seam.getD c 0 = pickNext (fun r => hPathAt s c r) (seam.getD (c + 1) 0) H := by
  obtain ⟨himg, hW1, hH1, hWT, hHT, hTW, hTH, he, hv, hh⟩ := hs
  have hHm : H ≤ maxDim := le_trans hHT hTH
  have hTW1 : s.m_hEnergyPathTable.length = (TW - 1) + 1 := by rw [hh.1]; omega
  have hback := vecBack_of_length hTW1 ([] : List α)
  have hlastlen : (s.m_hEnergyPathTable.getD (TW - 1) []).length = TH := by
    obtain ⟨col, h1, h2⟩ := rect_getElem? hh (show TW - 1 < TW by omega)
    simp [List.getD, h1, h2]
  obtain ⟨seed, hseed, hs1, hs2, hs3⟩ := minElement_spec
    (fun x y : α => (pure (decide (x < y)) : M Bool)) (fun x => x) (fun _ => True)
    (fun x y _ _ => rfl) 0 (s.m_hEnergyPathTable.getD (TW - 1) [])
    (by rw [hlastlen]; omega) (fun _ _ => trivial)
  rw [hlastlen] at hs1 hs2
  unfold extractHorizontalSeam
  have hw : GetImageWidth s = W := himg.1
  simp only [hw, hback, ok_bind, hseed, List.length_replicate]
  rw [vecSet_of_lt seed (show W - 1 < (List.replicate W 0).length by simp; omega),
    GetImageHeight_of_rect himg hW1]
  simp only [ok_bind]
  refine downLoop_inv _
    (fun i seam => seam.length = W ∧ seam.getD (W - 1) 0 = seed ∧
      ∀ c, i ≤ c → c + 1 < W →
        seam.getD c 0 = pickNext (fun r => hPathAt s c r) (seam.getD (c + 1) 0) H)
    _ (W - 1) _ ⟨by simp, by rw [getD_set]; simp; omega, fun c h1 h2 => by omega⟩ ?_ ?_
  · rintro i seam hi1 hi2 ⟨hlen, hlast, hpick⟩
    have hstep := backtrackStep_spec
      (fun nextRow c => tabGet s.m_hEnergyPathTable c nextRow)
      (fun r => hPathAt s (i - 1) r) H i seam (seam.getD i 0)
      (vecGet_getD (by omega) 0)
      (fun d hd => hPathAt_tabGet hh (by omega)
        (lt_of_lt_of_le (BoundaryDiff_lt _ hd hH hHm) hHT))
    refine ⟨_, hstep, by rw [List.length_set]; exact hlen, ?_, ?_⟩
    · rw [getD_set, if_neg (by omega)]; exact hlast
    · intro c hc1 hc2
      rw [getD_set, getD_set]
      by_cases hci : i - 1 = c
      · subst hci
        rw [if_pos ⟨rfl, by omega⟩, if_neg (by omega)]
        have : i - 1 + 1 = i := by omega
        rw [this]
      · rw [if_neg (fun h => hci h.1), if_neg (by omega)]
        exact hpick c (by omega) hc2
  · rintro seam ⟨hlen, hlast, hpick⟩
    refine ⟨hlen, by rw [hlast]; exact hs1, ?_, ?_, fun c hc => hpick c (Nat.zero_le _) hc⟩
    · intro j hj
      rw [hlast]; exact hs2 j hj
    · intro j hj
      rw [hlast] at hj ⊢; exact hs3 j hj

/-- Whenever `RecalcHorizontalEnergyPathTable` returns, the horizontal validity flag is
set. -/
theorem RecalcHorizontalEnergyPathTable_valid {α : Type} [LinearOrder α] [Add α]
    {s s' : SeamCarver α} (h : RecalcHorizontalEnergyPathTable s = Except.ok s') :
    s'.m_hEnergyPathTableIsValid = true := by
  unfold RecalcHorizontalEnergyPathTable at h
  obtain ⟨e0, -, h⟩ := bind_eq_ok.mp h
  obtain ⟨t1, -, h⟩ := bind_eq_ok.mp h
  obtain ⟨t2, -, h⟩ := bind_eq_ok.mp h
  cases h
  rfl

/-- `FindHorizontalSeam` with a valid cache returns the extracted seam and leaves the engine
as it is. -/
theorem FindHorizontalSeam_of_valid {α : Type} [LinearOrder α] [Add α] (s : SeamCarver α)
    (hv : s.m_hEnergyPathTableIsValid = true) :
    FindHorizontalSeam s = extractHorizontalSeam s >>= fun seam => pure (seam, s) := by
  unfold FindHorizontalSeam
  rw [hv]
  rfl

/-- `FindHorizontalSeam` with an invalid cache recomputes the path table first. -/
theorem FindHorizontalSeam_of_invalid {α : Type} [LinearOrder α] [Add α] (s : SeamCarver α)
    (hv : s.m_hEnergyPathTableIsValid = false) :
    FindHorizontalSeam s = RecalcHorizontalEnergyPathTable s >>= fun s' =>
      extractHorizontalSeam s' >>= fun seam => pure (seam, s') := by
  unfold FindHorizontalSeam
  rw [hv]
  rfl

/-- `FindHorizontalSeam` on a freshly constructed engine over a `W × H` image with
`H ≥ 2`: the path table holds `hPathValue`, the seam has one in-range entry per column, its
last entry is the first smallest entry of the last column, and every other entry is chosen
by `pickNext` from the entry right of it. -/
theorem FindHorizontalSeam_fresh_spec {α : Type} [LinearOrder α] [Add α] [Zero α]
    (sqrt : Int → α) (img : Image) {W H : Nat} (himg : Rect img.m_table W H) (hW : 1 ≤ W)
    (hH : 2 ≤ H) (hWm : W ≤ maxDim) (hHm : H ≤ maxDim) :
    ∃ s0 seam s1, SeamCarver.new sqrt img = Except.ok s0 ∧
      FindHorizontalSeam s0 = Except.ok (seam, s1) ∧ seam.length = W ∧
      s1.m_energyTable = s0.m_energyTable ∧
      (∀ c r, c < W → r < H → hPathAt s1 c r = hPathValue (energyAt s0) H c r) ∧
      (∀ c, c < W → seam.getD c 0 < H) ∧
      (∀ r, r < H → hPathAt s1 (W - 1) (seam.getD (W - 1) 0) ≤ hPathAt s1 (W - 1) r) ∧
      (∀ r, r < seam.getD (W - 1) 0 →
        hPathAt s1 (W - 1) (seam.getD (W - 1) 0) < hPathAt s1 (W - 1) r) ∧
      ∀ c, c + 1 < W →
        seam.getD c 0 = pickNext (fun r => hPathAt s1 c r) (seam.getD (c + 1) 0) H := by
  obtain ⟨s0, hnew, -, -, -, -, -, hhf, -⟩ := new_spec sqrt img himg hW
  have hs0 : Sized s0 W H W H := new_sized sqrt img himg hW (by omega) hWm hHm hnew
  obtain ⟨s', hrec, t, rfl, hrt, hct⟩ := RecalcHorizontalEnergyPathTable_spec s0 hs0 hH
  have hs1 : Sized ({ s0 with m_hEnergyPathTable := t, m_hEnergyPathTableIsValid := true })
      W H W H := by
    obtain ⟨h1, h2, h3, h4, h5, h6, h7, h8, h9, -⟩ := hs0
    exact ⟨h1, h2, h3, h4, h5, h6, h7, h8, h9, hrt⟩
  obtain ⟨seam, hex, hlen, hseedlt, hseedmin, hseedfirst, hpick⟩ :=
    extractHorizontalSeam_spec _ hs1 hH
  have hfind : FindHorizontalSeam s0 =
      Except.ok (seam, { s0 with m_hEnergyPathTable := t, m_hEnergyPathTableIsValid := true }) := by
    rw [FindHorizontalSeam_of_invalid s0 hhf, hrec, ok_bind, hex]; rfl
  refine ⟨s0, seam, _, hnew, hfind, hlen, rfl, ?_, ?_, hseedmin, hseedfirst, hpick⟩
  · intro c r hc hr
    apply tabGetD_of_tabGet 0
    rw [hct]
    by_cases h0 : c = 0
    · subst h0
      rw [if_pos rfl, energyAt_tabGet hs0.2.2.2.2.2.2.2.1 (by omega) hr]
      rfl
    · rw [if_neg h0, if_pos ⟨hc, hr⟩]
  · intro c hc
    by_cases hlast : c + 1 < W
    · rw [hpick c hlast]; exact pickNext_lt _ _ hH hHm
    · have : c = W - 1 := by omega
      rw [this]; exact hseedlt

/-! ## The image with a single bright centre pixel -/

theorem pairDiff_self (p : Pixel) : pairDiff p p = 0 := by
  unfold pairDiff; ring

theorem pairDiff_comm (p q : Pixel) : pairDiff p q = pairDiff q p := by
  unfold pairDiff; ring

theorem BoundaryDiff_three :
    BoundaryDiff 0 0 3 = 0 ∧ BoundaryDiff 1 0 3 = 1 ∧ BoundaryDiff 2 0 3 = 2 ∧
    BoundaryDiff 0 (-1) 3 = 0 ∧ BoundaryDiff 1 (-1) 3 = 0 ∧ BoundaryDiff 2 (-1) 3 = 1 ∧
    BoundaryDiff 0 1 3 = 1 ∧ BoundaryDiff 1 1 3 = 2 ∧ BoundaryDiff 2 1 3 = 2 := by
  decide

theorem list_of_length_three (l : List Nat) (h : l.length = 3) :
    l = [l.getD 0 0, l.getD 1 0, l.getD 2 0] := by
  match l, h with
  | [a, b, c], _ => rfl

/-- Energies of the engine constructed from `centreImage`: `0` at the centre and at the four
corners, `sqrt (pairDiff bright dark)` at the four edge midpoints. -/
theorem centreImage_energy {α : Type} [Zero α] (sqrt : Int → α) (dark bright : Pixel)
    (h0 : sqrt 0 = 0) {s0 : SeamCarver α}
    (hnew : SeamCarver.new sqrt (centreImage dark bright) = Except.ok s0) :
    (energyAt s0 0 0 = 0 ∧ energyAt s0 0 1 = sqrt (pairDiff bright dark) ∧ energyAt s0 0 2 = 0) ∧
    (energyAt s0 1 0 = sqrt (pairDiff bright dark) ∧ energyAt s0 1 1 = 0 ∧
      energyAt s0 1 2 = sqrt (pairDiff bright dark)) ∧
    (energyAt s0 2 0 = 0 ∧ energyAt s0 2 1 = sqrt (pairDiff bright dark) ∧ energyAt s0 2 2 = 0) := by
  have himg : Rect (centreImage dark bright).m_table 3 3 := ⟨rfl, by simp [centreImage]⟩
  obtain ⟨s, hs, -, -, -, -, -, -, hcells⟩ := new_spec sqrt (centreImage dark bright) himg
    (by decide)
  rw [hnew] at hs
  cases hs
  have cell : ∀ c r, c < 3 → r < 3 →
      energyAt s0 c r = sqrt (pixelEnergyArg (centreImage dark bright).m_table 3 3 c r) :=
    fun c r hc hr => tabGetD_of_tabGet 0 (hcells c r hc hr)
  refine ⟨⟨?_, ?_, ?_⟩, ⟨?_, ?_, ?_⟩, ⟨?_, ?_, ?_⟩⟩ <;>
    (rw [cell _ _ (by decide) (by decide)]
     simp [pixelEnergyArg, tabGetD, centreImage, pairDiff_self, h0, pairDiff_comm dark bright])

/-- Vertical seam of the freshly constructed engine over `centreImage`: it is `[0, 1, 0]`,
through the centre pixel. -/
theorem centreImage_vertical_seam {α : Type} [LinearOrderedCommRing α] (sqrt : Int → α)
    (dark bright : Pixel) (h0 : sqrt 0 = 0) (hpos : 0 < sqrt (pairDiff bright dark)) :
    ∃ s0 s1, SeamCarver.new sqrt (centreImage dark bright) = Except.ok s0 ∧
      FindVerticalSeam s0 = Except.ok ([0, 1, 0], s1) := by
  have himg : Rect (centreImage dark bright).m_table 3 3 := ⟨rfl, by simp [centreImage]⟩
  obtain ⟨s0, seam, s1, hnew, hfind, hlen, -, hvp, hlt, hmin, hfirst, hpick⟩ :=
    FindVerticalSeam_fresh_spec sqrt (centreImage dark bright) himg (by decide) (by decide)
      (by decide) (by decide)
  obtain ⟨⟨e00, e01, e02⟩, ⟨e10, e11, e12⟩, ⟨e20, e21, e22⟩⟩ :=
    centreImage_energy sqrt dark bright h0 hnew
  obtain ⟨b00, b10, b20, b0m, b1m, b2m, b0p, b1p, b2p⟩ := BoundaryDiff_three
  have hle : (0 : α) ≤ sqrt (pairDiff bright dark) := le_of_lt hpos
  -- the path table
  have p00 : vPathAt s1 0 0 = 0 := by rw [hvp 0 0 (by decide) (by decide)]; exact e00
  have p10 : vPathAt s1 1 0 = sqrt (pairDiff bright dark) := by
    rw [hvp 1 0 (by decide) (by decide)]; exact e10
  have p20 : vPathAt s1 2 0 = 0 := by rw [hvp 2 0 (by decide) (by decide)]; exact e20
  have p01 : vPathAt s1 0 1 = sqrt (pairDiff bright dark) := by
    rw [hvp 0 1 (by decide) (by decide)]
    simp [vPathValue, b0m, b0p, e00, e10, e01, min_eq_right hle]
  have p11 : vPathAt s1 1 1 = 0 := by
    rw [hvp 1 1 (by decide) (by decide)]
    simp [vPathValue, b1m, b1p, e00, e10, e20, e11, min_eq_left hle]
  have p21 : vPathAt s1 2 1 = sqrt (pairDiff bright dark) := by
    rw [hvp 2 1 (by decide) (by decide)]
    simp [vPathValue, b2m, b2p, e20, e10, e21, min_eq_left hle, min_eq_right hle]
  have p02 : vPathAt s1 0 2 = 0 := by
    rw [hvp 0 2 (by decide) (by decide)]
    have q0 := hvp 0 1 (by decide) (by decide)
    have q1 := hvp 1 1 (by decide) (by decide)
    show energyAt s0 0 2 + min (min (vPathValue (energyAt s0) 3 1 (BoundaryDiff 0 1 3))
      (vPathValue (energyAt s0) 3 1 (BoundaryDiff 0 (-1) 3))) (vPathValue (energyAt s0) 3 1 0) = 0
    rw [b0p, b0m, ← q0, ← q1, p01, p11, e02]
    simp [min_eq_left hle]
  have p12 : vPathAt s1 1 2 = sqrt (pairDiff bright dark) := by
    rw [hvp 1 2 (by decide) (by decide)]
    have q0 := hvp 0 1 (by decide) (by decide)
    have q1 := hvp 1 1 (by decide) (by decide)
    have q2 := hvp 2 1 (by decide) (by decide)
    show energyAt s0 1 2 + min (min (vPathValue (energyAt s0) 3 1 (BoundaryDiff 1 1 3))
      (vPathValue (energyAt s0) 3 1 (BoundaryDiff 1 (-1) 3))) (vPathValue (energyAt s0) 3 1 1) = _
    rw [b1p, b1m, ← q0, ← q1, ← q2, p01, p11, p21, e12]
    simp [min_eq_right hle]
  have p22 : vPathAt s1 2 2 = 0 := by
    rw [hvp 2 2 (by decide) (by decide)]
    have q1 := hvp 1 1 (by decide) (by decide)
    have q2 := hvp 2 1 (by decide) (by decide)
    show energyAt s0 2 2 + min (min (vPathValue (energyAt s0) 3 1 (BoundaryDiff 2 1 3))
      (vPathValue (energyAt s0) 3 1 (BoundaryDiff 2 (-1) 3))) (vPathValue (energyAt s0) 3 1 2) = 0
    rw [b2p, b2m, ← q1, ← q2, p11, p21, e22]
    simp [min_eq_left hle, min_eq_right hle]
  -- the seed
  have hseed : seam.getD 2 0 = 0 := by
    have h3 := hlt 2 (by decide)
    have hf := hfirst 0
    simp only [show (3 : Nat) - 1 = 2 from rfl] at hf
    rcases Nat.lt_or_ge 0 (seam.getD 2 0) with hp | hp
    · have hneg := hf hp
      rw [p02] at hneg
      have h12 : seam.getD 2 0 = 1 ∨ seam.getD 2 0 = 2 := by omega
      rcases h12 with h | h
      · rw [h, p12] at hneg
        exact absurd (lt_trans hneg hpos) (lt_irrefl _)
      · rw [h, p22] at hneg
        exact absurd hneg (lt_irrefl _)
    · omega
  have hmid : seam.getD 1 0 = 1 := by
    rw [hpick 1 (by decide), hseed]
    unfold pickNext
    simp [b00, b0m, b0p, p01, p11, hpos]
  have htop : seam.getD 0 0 = 0 := by
    rw [hpick 0 (by decide), hmid]
    unfold pickNext
    simp [b10, b1m, b1p, p00, p10, p20, hpos]
  refine ⟨s0, s1, hnew, ?_⟩
  rw [hfind, list_of_length_three seam hlen, htop, hmid, hseed]

/-- Horizontal seam of the freshly constructed engine over `centreImage`: it is
`[0, 1, 0]`, through the centre pixel. -/
theorem centreImage_horizontal_seam {α : Type} [LinearOrderedCommRing α] (sqrt : Int → α)
    (dark bright : Pixel) (h0 : sqrt 0 = 0) (hpos : 0 < sqrt (pairDiff bright dark)) :
    ∃ s0 s1, SeamCarver.new sqrt (centreImage dark bright) = Except.ok s0 ∧
      FindHorizontalSeam s0 = Except.ok ([0, 1, 0], s1) := by
  have himg : Rect (centreImage dark bright).m_table 3 3 := ⟨rfl, by simp [centreImage]⟩
  obtain ⟨s0, seam, s1, hnew, hfind, hlen, -, hvp, hlt, hmin, hfirst, hpick⟩ :=
    FindHorizontalSeam_fresh_spec sqrt (centreImage dark bright) himg (by decide) (by decide)
      (by decide) (by decide)
  obtain ⟨⟨e00, e01, e02⟩, ⟨e10, e11, e12⟩, ⟨e20, e21, e22⟩⟩ :=
    centreImage_energy sqrt dark bright h0 hnew
  obtain ⟨b00, b10, b20, b0m, b1m, b2m, b0p, b1p, b2p⟩ := BoundaryDiff_three
  have hle : (0 : α) ≤ sqrt (pairDiff bright dark) := le_of_lt hpos
  -- the path table
  have p00 : hPathAt s1 0 0 = 0 := by rw [hvp 0 0 (by decide) (by decide)]; exact e00
  have p01 : hPathAt s1 0 1 = sqrt (pairDiff bright dark) := by
    rw [hvp 0 1 (by decide) (by decide)]; exact e01
  have p02 : hPathAt s1 0 2 = 0 := by rw [hvp 0 2 (by decide) (by decide)]; exact e02
  have p10 : hPathAt s1 1 0 = sqrt (pairDiff bright dark) := by
    rw [hvp 1 0 (by decide) (by decide)]
    simp [hPathValue, b0m, b0p, e00, e01, e10, min_eq_right hle]
  have p11 : hPathAt s1 1 1 = 0 := by
    rw [hvp 1 1 (by decide) (by decide)]
    simp [hPathValue, b1m, b1p, e00, e01, e02, e11, min_eq_left hle]
  have p12 : hPathAt s1 1 2 = sqrt (pairDiff bright dark) := by
    rw [hvp 1 2 (by decide) (by decide)]
    simp [hPathValue, b2m, b2p, e02, e01, e12, min_eq_left hle, min_eq_right hle]
  have q0 := hvp 1 0 (by decide) (by decide)
  have q1 := hvp 1 1 (by decide) (by decide)
  have q2 := hvp 1 2 (by decide) (by decide)
  have p20 : hPathAt s1 2 0 = 0 := by
    rw [hvp 2 0 (by decide) (by decide)]
    show energyAt s0 2 0 + min (min (hPathValue (energyAt s0) 3 1 (BoundaryDiff 0 1 3))
      (hPathValue (energyAt s0) 3 1 (BoundaryDiff 0 (-1) 3))) (hPathValue (energyAt s0) 3 1 0) = 0
    rw [b0p, b0m, ← q0, ← q1, p10, p11, e20]
    simp [min_eq_left hle]
  have p21 : hPathAt s1 2 1 = sqrt (pairDiff bright dark) := by
    rw [hvp 2 1 (by decide) (by decide)]
    show energyAt s0 2 1 + min (min (hPathValue (energyAt s0) 3 1 (BoundaryDiff 1 1 3))
      (hPathValue (energyAt s0) 3 1 (BoundaryDiff 1 (-1) 3))) (hPathValue (energyAt s0) 3 1 1) = _
    rw [b1p, b1m, ← q0, ← q1, ← q2, p10, p11, p12, e21]
    simp [min_eq_right hle]
  have p22 : hPathAt s1 2 2 = 0 := by
    rw [hvp 2 2 (by decide) (by decide)]
    show energyAt s0 2 2 + min (min (hPathValue (energyAt s0) 3 1 (BoundaryDiff 2 1 3))
      (hPathValue (energyAt s0) 3 1 (BoundaryDiff 2 (-1) 3))) (hPathValue (energyAt s0) 3 1 2) = 0
    rw [b2p, b2m, ← q1, ← q2, p11, p12, e22]
    simp [min_eq_left hle, min_eq_right hle]
  -- the seed
  have hseed : seam.getD 2 0 = 0 := by
    have h3 := hlt 2 (by decide)
    have hf := hfirst 0
    simp only [show (3 : Nat) - 1 = 2 from rfl] at hf
    rcases Nat.lt_or_ge 0 (seam.getD 2 0) with hp | hp
    · have hneg := hf hp
      rw [p20] at hneg
      have h12 : seam.getD 2 0 = 1 ∨ seam.getD 2 0 = 2 := by omega
      rcases h12 with h | h
      · rw [h, p21] at hneg
        exact absurd (lt_trans hneg hpos) (lt_irrefl _)
      · rw [h, p22] at hneg
        exact absurd hneg (lt_irrefl _)
    · omega
  have hmid : seam.getD 1 0 = 1 := by
    rw [hpick 1 (by decide), hseed]
    unfold pickNext
    simp [b00, b0m, b0p, p10, p11, hpos]
  have htop : seam.getD 0 0 = 0 := by
    rw [hpick 0 (by decide), hmid]
    unfold pickNext
    simp [b10, b1m, b1p, p00, p01, p02, hpos]
  refine ⟨s0, s1, hnew, ?_⟩
  rw [hfind, list_of_length_three seam hlen, htop, hmid, hseed]

/-- C16, counterexample: for dark `(0, 0, 0)` and bright `(3, 0, 0)` the vertical seam of
the freshly constructed engine is `[0, 1, 0]`, so it does contain column 1 at row 1, and the
horizontal seam is `[0, 1, 0]`, so it does contain row 1 at column 1. -/
theorem centreImage_seams_through_centre_run :
    (SeamCarver.new intSqrt (centreImage (red 0) (red 3)) >>= FindVerticalSeam).map Prod.fst
      = Except.ok [0, 1, 0] ∧
    (SeamCarver.new intSqrt (centreImage (red 0) (red 3)) >>= FindHorizontalSeam).map Prod.fst
      = Except.ok [0, 1, 0] ∧
    [0, 1, 0].getD 1 0 = 1 := by
  refine ⟨by rfl, by rfl, by rfl⟩

/-- C16, as amended: for the `3 × 3` image with a bright centre and eight dark pixels (the
energy of a pixel whose two neighbours on an axis differ being positive), the energy is `0`
at the centre and at the corners and positive at the four edge midpoints; on a freshly
constructed engine `FindVerticalSeam` and `FindHorizontalSeam` both return `[0, 1, 0]`: each
seam passes through the centre pixel `(1, 1)` and through no pixel of highest energy of the
centre column `(1, 0)`, `(1, 2)`, resp. of the centre row `(0, 1)`, `(2, 1)`. -/
theorem centreImage_seams_pass_through_centre {α : Type} [LinearOrderedCommRing α]
    (sqrt : Int → α) (dark bright : Pixel) (h0 : sqrt 0 = 0)
    (hpos : 0 < sqrt (pairDiff bright dark)) :
    ∃ s0 s1 s2, SeamCarver.new sqrt (centreImage dark bright) = Except.ok s0 ∧
      FindVerticalSeam s0 = Except.ok ([0, 1, 0], s1) ∧
      FindHorizontalSeam s0 = Except.ok ([0, 1, 0], s2) ∧
      GetPixelEnergy s0 1 1 = Except.ok 0 ∧
      GetPixelEnergy s0 0 0 = Except.ok 0 ∧ GetPixelEnergy s0 0 2 = Except.ok 0 ∧
      GetPixelEnergy s0 2 0 = Except.ok 0 ∧ GetPixelEnergy s0 2 2 = Except.ok 0 ∧
      GetPixelEnergy s0 1 0 = Except.ok (sqrt (pairDiff bright dark)) ∧
      GetPixelEnergy s0 1 2 = Except.ok (sqrt (pairDiff bright dark)) ∧
      GetPixelEnergy s0 0 1 = Except.ok (sqrt (pairDiff bright dark)) ∧
      GetPixelEnergy s0 2 1 = Except.ok (sqrt (pairDiff bright dark)) := by
  obtain ⟨s0, s1, hnew, hv⟩ := centreImage_vertical_seam sqrt dark bright h0 hpos
  obtain ⟨s0', s2, hnew', hh⟩ := centreImage_horizontal_seam sqrt dark bright h0 hpos
  rw [hnew] at hnew'
  cases hnew'
  have himg : Rect (centreImage dark bright).m_table 3 3 := ⟨rfl, by simp [centreImage]⟩
  have hs0 : Sized s0 3 3 3 3 :=
    new_sized sqrt _ himg (by decide) (by decide) (by decide) (by decide) hnew
  have he := hs0.2.2.2.2.2.2.2.1
  obtain ⟨⟨e00, e01, e02⟩, ⟨e10, e11, e12⟩, ⟨e20, e21, e22⟩⟩ :=
    centreImage_energy sqrt dark bright h0 hnew
  have g : ∀ c r, c < 3 → r < 3 → GetPixelEnergy s0 c r = Except.ok (energyAt s0 c r) :=
    fun c r hc hr => energyAt_tabGet he hc hr
  refine ⟨s0, s1, s2, hnew, hv, hh, ?_, ?_, ?_, ?_, ?_, ?_, ?_, ?_, ?_⟩
  · rw [g 1 1 (by decide) (by decide), e11]
  · rw [g 0 0 (by decide) (by decide), e00]
  · rw [g 0 2 (by decide) (by decide), e02]
  · rw [g 2 0 (by decide) (by decide), e20]
  · rw [g 2 2 (by decide) (by decide), e22]
  · rw [g 1 0 (by decide) (by decide), e10]
  · rw [g 1 2 (by decide) (by decide), e12]
  · rw [g 0 1 (by decide) (by decide), e01]
  · rw [g 2 1 (by decide) (by decide), e21]

/-- Witness for the amended C16: dark `(0, 0, 0)`, bright `(3, 0, 0)` over the integers. -/
theorem centreImage_seams_pass_through_centre_witness :
    ∃ s0 s1 s2, SeamCarver.new intSqrt (centreImage (red 0) (red 3)) = Except.ok s0 ∧
      FindVerticalSeam s0 = Except.ok ([0, 1, 0], s1) ∧
      FindHorizontalSeam s0 = Except.ok ([0, 1, 0], s2) ∧
      GetPixelEnergy s0 1 1 = Except.ok 0 ∧
      GetPixelEnergy s0 0 0 = Except.ok 0 ∧ GetPixelEnergy s0 0 2 = Except.ok 0 ∧
      GetPixelEnergy s0 2 0 = Except.ok 0 ∧ GetPixelEnergy s0 2 2 = Except.ok 0 ∧
      GetPixelEnergy s0 1 0 = Except.ok (intSqrt (pairDiff (red 3) (red 0))) ∧
      GetPixelEnergy s0 1 2 = Except.ok (intSqrt (pairDiff (red 3) (red 0))) ∧
      GetPixelEnergy s0 0 1 = Except.ok (intSqrt (pairDiff (red 3) (red 0))) ∧
      GetPixelEnergy s0 2 1 = Except.ok (intSqrt (pairDiff (red 3) (red 0))) :=
  centreImage_seams_pass_through_centre intSqrt (red 0) (red 3) (by decide) (by decide)

/-! ## The recurrence of the vertical path table -/

/-- C13, counterexample: on the `3 × 2` image with red values `0, 0, 1` in both rows the
energies are `1, 1, 0` in both rows and `RecalcVerticalEnergyPathTable` stores
`path[0][1] = 2 = energy[0][1] + min(path[0][0], path[0][0], path[1][0])`: column 0 looks at
itself, not at column `W - 1 = 2`, whereas the toroidal recurrence would give `1`. -/
theorem RecalcVerticalEnergyPathTable_not_toroidal_run :
    (do let s ← SeamCarver.new intSqrt ⟨[[red 0, red 0], [red 0, red 0], [red 1, red 1]]⟩
        let s ← RecalcVerticalEnergyPathTable s
        pure (s.m_energyTable, s.m_vEnergyPathTable, vPathAt s 0 1,
          toroidalRecurrenceRhs (energyAt s) (vPathAt s) 3 0 1))
      = Except.ok ([[1, 1], [1, 1], [0, 0]], [[1, 2], [1, 1], [0, 0]], 2, 1) := by
  rfl

/-- C13, as amended: on a sized engine whose image is `W × H` with `W ≥ 2`,
`RecalcVerticalEnergyPathTable` returns, leaves the energies alone, makes row 0 of the
vertical path table equal to row 0 of the energy table, and for every row `r` in
`1 .. H-1` and column `c < W` stores
`path[c][r] = energy[c][r] + min(path[c+1 clamped][r-1], path[c-1 clamped][r-1], path[c][r-1])`
where the neighbours are clamped at the grid edges: column 0 looks at itself and column 1,
column `W - 1` looks at column `W - 2` and itself. -/
theorem RecalcVerticalEnergyPathTable_clamped_recurrence {α : Type} [LinearOrder α] [Add α]
    [Zero α] (s : SeamCarver α) (W H TW TH : Nat) (hs : Sized s W H TW TH) (hW : 2 ≤ W) :
    ∃ s', RecalcVerticalEnergyPathTable s = Except.ok s' ∧
      (∀ c r, energyAt s' c r = energyAt s c r) ∧
      (∀ c, c < W → vPathAt s' c 0 = energyAt s c 0) ∧
      ∀ c r, c < W → 1 ≤ r → r < H →
        vPathAt s' c r = energyAt s c r +
          min (min (vPathAt s' (min (c + 1) (W - 1)) (r - 1)) (vPathAt s' (c - 1) (r - 1)))
            (vPathAt s' c (r - 1)) := by
  obtain ⟨s', hrec, t, rfl, hrt, hct⟩ := RecalcVerticalEnergyPathTable_spec s hs hW
  have hWm : W ≤ maxDim := le_trans hs.2.2.2.1 hs.2.2.2.2.2.1
  have hH1 := hs.2.2.1
  have hvp : ∀ c r, c < W → r < H →
      vPathAt ({ s with m_vEnergyPathTable := t, m_vEnergyPathTableIsValid := true }) c r =
        vPathValue (energyAt s) W r c :=
    fun c r hc hr => tabGetD_of_tabGet 0 (by rw [hct, if_pos ⟨hc, hr⟩])
  refine ⟨_, hrec, fun _ _ => rfl, fun c hc => ?_, fun c r hc hr1 hr => ?_⟩
  · rw [hvp c 0 hc (by omega)]; rfl
  · obtain ⟨r', rfl⟩ : ∃ r', r = r' + 1 := ⟨r - 1, by omega⟩
    rw [Nat.add_sub_cancel, hvp c (r' + 1) hc hr,
      hvp (min (c + 1) (W - 1)) r' (by rw [Nat.min_def]; split_ifs <;> omega) (by omega),
      hvp (c - 1) r' (by omega) (by omega), hvp c r' hc (by omega),
      ← BoundaryDiff_one_clamped hc hW hWm, ← BoundaryDiff_neg_one hc hWm]
    rfl

/-- Witness for the amended C13: the sample engine. -/
theorem RecalcVerticalEnergyPathTable_clamped_recurrence_witness :
    ∃ s', RecalcVerticalEnergyPathTable sampleEngine = Except.ok s' ∧
      (∀ c r, energyAt s' c r = energyAt sampleEngine c r) ∧
      (∀ c, c < 3 → vPathAt s' c 0 = energyAt sampleEngine c 0) ∧
      ∀ c r, c < 3 → 1 ≤ r → r < 3 →
        vPathAt s' c r = energyAt sampleEngine c r +
          min (min (vPathAt s' (min (c + 1) (3 - 1)) (r - 1)) (vPathAt s' (c - 1) (r - 1)))
            (vPathAt s' c (r - 1)) :=
  RecalcVerticalEnergyPathTable_clamped_recurrence sampleEngine 3 3 3 3 (by decide) (by decide)

/-! ## Constant images and the incremental engine on concrete images -/

/-- C11 (the code departs from the claim): on the constant `1 × 2` image the constructor
stores energy `0` in both cells, but recomputing the vertical path table indexes column
`BoundaryDiff(0, 1, 1) = 1` of the one-column table; on the constant `2 × 1` image the
energies are `0` too, but recomputing the horizontal path table indexes row 1 of a one-row
column.  In both cases no path table is produced. -/
theorem constant_thin_image_path_table_runs :
    (do let s ← SeamCarver.new intSqrt ⟨[[red 5, red 5]]⟩
        pure s.m_energyTable) = Except.ok [[0, 0]] ∧
    (SeamCarver.new intSqrt ⟨[[red 5, red 5]]⟩ >>= RecalcVerticalEnergyPathTable)
      = Except.error Fault.outOfRange ∧
    (do let s ← SeamCarver.new intSqrt ⟨[[red 5], [red 5]]⟩
        pure s.m_energyTable) = Except.ok [[0], [0]] ∧
    (SeamCarver.new intSqrt ⟨[[red 5], [red 5]]⟩ >>= RecalcHorizontalEnergyPathTable)
      = Except.error Fault.outOfRange := by
  refine ⟨by rfl, by rfl, by rfl, by rfl⟩

/-- C20 (the code departs from the claim): on the `3 × 3` image whose columns have the red
values `0, 0, 0`, `0, 0, 0` and `2, 1, 2`, after `s = FindVerticalSeam()` (`[2, 2, 2]`) and
`RemoveVerticalSeam(s)` the image is the constant `2 × 3` image; the same engine then
returns the vertical seam `[1, 1, 2]` and the horizontal seam `[1, 0]`, whereas an engine
newly constructed from that image returns `[0, 0, 0]` and `[0, 0]`.  After
`s = FindHorizontalSeam()` (`[1, 1, 1]`) and `RemoveHorizontalSeam(s)` the image has the
columns `0, 0`, `0, 0`, `2, 2`; the same engine returns `[0, 0]` and `[1, 1, 0]`, a new
engine `[2, 2]` and `[0, 0, 0]`. -/
theorem incremental_engine_differs_from_fresh_runs :
    (do let s ← SeamCarver.new intSqrt
          ⟨[[red 0, red 0, red 0], [red 0, red 0, red 0], [red 2, red 1, red 2]]⟩
        let (seam, s) ← FindVerticalSeam s
        let s ← RemoveVerticalSeam intSqrt s seam
        let (v1, s1) ← FindVerticalSeam s
        let (h1, _) ← FindHorizontalSeam s1
        let f ← SeamCarver.new intSqrt s.m_image
        let (v2, f1) ← FindVerticalSeam f
        let (h2, _) ← FindHorizontalSeam f1
        pure (seam, s.m_image, v1, h1, v2, h2))
      = Except.ok ([2, 2, 2], ⟨[[red 0, red 0, red 0], [red 0, red 0, red 0]]⟩,
          [1, 1, 2], [1, 0], [0, 0, 0], [0, 0]) ∧
    (do let s ← SeamCarver.new intSqrt
          ⟨[[red 0, red 0, red 0], [red 0, red 0, red 0], [red 2, red 1, red 2]]⟩
        let (seam, s) ← FindHorizontalSeam s
        let s ← RemoveHorizontalSeam intSqrt s seam
        let (v1, s1) ← FindVerticalSeam s
        let (h1, _) ← FindHorizontalSeam s1
        let f ← SeamCarver.new intSqrt s.m_image
        let (v2, f1) ← FindVerticalSeam f
        let (h2, _) ← FindHorizontalSeam f1
        pure (seam, s.m_image, v1, h1, v2, h2))
      = Except.ok ([1, 1, 1], ⟨[[red 0, red 0], [red 0, red 0], [red 2, red 2]]⟩,
          [0, 0], [1, 1, 0], [2, 2], [0, 0, 0]) := by
  refine ⟨by rfl, by rfl⟩

/-! ## Cache validity -/

/-- Partial-correctness rule for the ascending loop: an invariant that every returning
iteration preserves holds whenever the loop returns. -/
theorem forLoop_partial {β : Type} (body : Nat → β → M β) (P : Nat → β → Prop) :
    ∀ (count start : Nat) (s s' : β), P start s →
      (∀ i s s', start ≤ i → i < start + count → P i s → body i s = Except.ok s' →
        P (i + 1) s') →
      forLoop body start count s = Except.ok s' → P (start + count) s' := by
  intro count
  induction count with
  | zero =>
    intro start s s' h0 _ h
    cases h
    exact h0
  | succ n ih =>
    intro start s s' h0 hstep h
    obtain ⟨s1, hb, hl⟩ := bind_eq_ok.mp
      (show (body start s >>= fun s1 => forLoop body (start + 1) n s1) = Except.ok s' from h)
    have h1 := hstep start s s1 (le_refl _) (by omega) h0 hb
    have := ih (start + 1) s1 s' h1
      (fun i s s' hi hlt hp hb => hstep i s s' (by omega) (by omega) hp hb) hl
    have e : start + (n + 1) = start + 1 + n := by omega
    rw [e]; exact this

theorem set_of_getElem? {β : Type} {l : List β} {i : Nat} {a : β} (h : l[i]? = some a) :
    l.set i a = l := by
  apply List.ext_getElem?
  intro j
  rw [List.getElem?_set]
  split_ifs with h1 h2
  · subst h1; exact h.symm
  · subst h1
    exact absurd (List.getElem?_eq_some_iff.mp h).1 h2
  · rfl

/-- Writing into a cell the value it already holds leaves the table as it is. -/
theorem tabSet_same {β : Type} {t : List (List β)} {c r : Nat} {v : β}
    (h : tabGet t c r = Except.ok v) : tabSet t c r v = Except.ok t := by
  obtain ⟨col, hc, hr⟩ := tabGet_eq_ok.mp h
  refine tabSet_eq_ok.mpr ⟨col, hc, (List.getElem?_eq_some_iff.mp hr).1, ?_⟩
  rw [set_of_getElem? hr, set_of_getElem? hc]

/-- A table write does not change the reads of other cells. -/
theorem tabGet_tabSet_ne {β : Type} {t t' : List (List β)} {c r : Nat} {v : β}
    (h : tabSet t c r v = Except.ok t') {c' r' : Nat} (hne : ¬ (c' = c ∧ r' = r)) :
    tabGet t' c' r' = tabGet t c' r' := by
  rw [tabGet_tabSet h, if_neg hne]

theorem tabGet_tabSet_self {β : Type} {t t' : List (List β)} {c r : Nat} {v : β}
    (h : tabSet t c r v = Except.ok t') : tabGet t' c r = Except.ok v := by
  rw [tabGet_tabSet h, if_pos ⟨rfl, rfl⟩]

/-- A write at row `i` keeps the vertical recurrence of every other cell of rows up to
`i`. -/
theorem VRec_of_tabSet {α : Type} [LinearOrder α] [Add α] {e : Table α} {W : Nat}
    {t t' : Table α} {i j : Nat} {v : α} (hset : tabSet t j i v = Except.ok t')
    {r c : Nat} (hr1 : 1 ≤ r) (hri : r ≤ i) (hne : r = i → c ≠ j) (h : VRec e W t r c) :
    VRec e W t' r c := by
  obtain ⟨ev, a, b, d, h1, h2, h3, h4, h5⟩ := h
  refine ⟨ev, a, b, d, h1, ?_, ?_, ?_, ?_⟩
  · rw [tabGet_tabSet_ne hset (by omega)]; exact h2
  · rw [tabGet_tabSet_ne hset (by omega)]; exact h3
  · rw [tabGet_tabSet_ne hset (by omega)]; exact h4
  · rw [tabGet_tabSet_ne hset (fun hh => by
      obtain ⟨hc, hr⟩ := hh
      exact hne hr hc)]
    exact h5

/-- Whenever `RecalcVerticalEnergyPathTable` returns, it has changed only the vertical path
table and flag, and the new table satisfies the recurrence: row 0 is row 0 of the energy
table and every cell of rows `1 .. H-1`, columns `< W`, satisfies `VRec`. -/
theorem RecalcVerticalEnergyPathTable_partial {α : Type} [LinearOrder α] [Add α]
    {s s' : SeamCarver α} (h : RecalcVerticalEnergyPathTable s = Except.ok s') :
    ∃ t H, s' = { s with m_vEnergyPathTable := t, m_vEnergyPathTableIsValid := true } ∧
      GetImageHeight s = Except.ok H ∧
      (∀ c, c < GetImageWidth s →
        ∃ v, tabGet s.m_energyTable c 0 = Except.ok v ∧ tabGet t c 0 = Except.ok v) ∧
      ∀ r c, 1 ≤ r → r < H → c < GetImageWidth s →
        VRec s.m_energyTable (GetImageWidth s) t r c := by
  unfold RecalcVerticalEnergyPathTable at h
  obtain ⟨t1, hl1, h⟩ := bind_eq_ok.mp h
  obtain ⟨H, hH, h⟩ := bind_eq_ok.mp h
  obtain ⟨t2, hl2, h⟩ := bind_eq_ok.mp h
  cases h
  have P1 : ∀ c, c < 0 + GetImageWidth s →
      ∃ v, tabGet s.m_energyTable c 0 = Except.ok v ∧ tabGet t1 c 0 = Except.ok v := by
    refine forLoop_partial _
      (fun i t => ∀ c, c < i →
        ∃ v, tabGet s.m_energyTable c 0 = Except.ok v ∧ tabGet t c 0 = Except.ok v)
      _ _ _ _ (fun c hc => by omega) ?_ hl1
    intro i t t' _ _ hP hb c hc
    obtain ⟨x, hx, hset⟩ := bind_eq_ok.mp hb
    by_cases hci : c = i
    · subst hci
      exact ⟨x, hx, tabGet_tabSet_self hset⟩
    · obtain ⟨v, hv1, hv2⟩ := hP c (by omega)
      exact ⟨v, hv1, by rw [tabGet_tabSet_ne hset (by omega)]; exact hv2⟩
  have P2 : (∀ c, c < GetImageWidth s →
        ∃ v, tabGet s.m_energyTable c 0 = Except.ok v ∧ tabGet t2 c 0 = Except.ok v) ∧
      ∀ r c, 1 ≤ r → r < 1 + (H - 1) → c < GetImageWidth s →
        VRec s.m_energyTable (GetImageWidth s) t2 r c := by
    refine forLoop_partial _
      (fun i t => (∀ c, c < GetImageWidth s →
          ∃ v, tabGet s.m_energyTable c 0 = Except.ok v ∧ tabGet t c 0 = Except.ok v) ∧
        ∀ r c, 1 ≤ r → r < i → c < GetImageWidth s →
          VRec s.m_energyTable (GetImageWidth s) t r c)
      _ _ _ _ ⟨fun c hc => P1 c (by omega), fun r c h1 h2 => by omega⟩ ?_ hl2
    intro i t t' hi1 _ hP hb
    have P3 : (∀ c, c < GetImageWidth s →
          ∃ v, tabGet s.m_energyTable c 0 = Except.ok v ∧ tabGet t' c 0 = Except.ok v) ∧
        (∀ r c, 1 ≤ r → r < i → c < GetImageWidth s →
          VRec s.m_energyTable (GetImageWidth s) t' r c) ∧
        ∀ c, c < 0 + GetImageWidth s → VRec s.m_energyTable (GetImageWidth s) t' i c := by
      refine forLoop_partial _
        (fun j u => (∀ c, c < GetImageWidth s →
            ∃ v, tabGet s.m_energyTable c 0 = Except.ok v ∧ tabGet u c 0 = Except.ok v) ∧
          (∀ r c, 1 ≤ r → r < i → c < GetImageWidth s →
            VRec s.m_energyTable (GetImageWidth s) u r c) ∧
          ∀ c, c < j → VRec s.m_energyTable (GetImageWidth s) u i c)
        _ _ _ _ ⟨hP.1, hP.2, fun c hc => by omega⟩ ?_ hb
      intro j u u' _ hj ⟨hrow0, hold, hcur⟩ hbody
      obtain ⟨ev, hev, hbody⟩ := bind_eq_ok.mp hbody
      obtain ⟨a, ha, hbody⟩ := bind_eq_ok.mp hbody
      obtain ⟨b, hb', hbody⟩ := bind_eq_ok.mp hbody
      obtain ⟨d, hd, hset⟩ := bind_eq_ok.mp hbody
      refine ⟨fun c hc => ?_, fun r c h1 h2 hc => ?_, fun c hc => ?_⟩
      · obtain ⟨v, hv1, hv2⟩ := hrow0 c hc
        exact ⟨v, hv1, by rw [tabGet_tabSet_ne hset (by omega)]; exact hv2⟩
      · exact VRec_of_tabSet hset h1 (by omega) (by omega) (hold r c h1 h2 hc)
      · by_cases hcj : c = j
        · subst hcj
          refine ⟨ev, a, b, d, hev, ?_, ?_, ?_, tabGet_tabSet_self hset⟩
          · rw [tabGet_tabSet_ne hset (by omega)]; exact ha
          · rw [tabGet_tabSet_ne hset (by omega)]; exact hb'
          · rw [tabGet_tabSet_ne hset (by omega)]; exact hd
        · exact VRec_of_tabSet hset hi1 (le_refl _) (fun _ => hcj) (hcur c (by omega))
    refine ⟨P3.1, fun r c h1 h2 hc => ?_⟩
    by_cases hri : r = i
    · subst hri; exact P3.2.2 c (by omega)
    · exact P3.2.1 r c h1 (by omega) hc
  exact ⟨t2, H, rfl, hH, P2.1, fun r c h1 h2 hc => P2.2 r c h1 (by omega) hc⟩

/-- On an engine whose vertical path table already satisfies the recurrence,
`RecalcVerticalEnergyPathTable` returns and changes nothing but the flag, which it sets. -/
theorem RecalcVerticalEnergyPathTable_of_fixed {α : Type} [LinearOrder α] [Add α]
    (s : SeamCarver α) (H : Nat) (hH : GetImageHeight s = Except.ok H)
    (hrow0 : ∀ c, c < GetImageWidth s →
      ∃ v, tabGet s.m_energyTable c 0 = Except.ok v ∧
        tabGet s.m_vEnergyPathTable c 0 = Except.ok v)
    (hrec : ∀ r c, 1 ≤ r → r < H → c < GetImageWidth s →
      VRec s.m_energyTable (GetImageWidth s) s.m_vEnergyPathTable r c) :
    ∃ s', RecalcVerticalEnergyPathTable s = Except.ok s' ∧
      s' = { s with m_vEnergyPathTableIsValid := true } := by
  unfold RecalcVerticalEnergyPathTable
  apply exists_bind_ok
  refine forLoop_inv _ (fun _ t => t = s.m_vEnergyPathTable) _ _ _ _ rfl ?_ ?_
  · rintro i t _ hi rfl
    obtain ⟨v, hv1, hv2⟩ := hrow0 i (by omega)
    rw [hv1]
    exact ⟨_, tabSet_same hv2, rfl⟩
  · rintro t rfl
    rw [hH]
    simp only [ok_bind]
    apply exists_bind_ok
    refine forLoop_inv _ (fun _ t => t = s.m_vEnergyPathTable) _ _ _ _ rfl ?_ ?_
    · rintro i t hi1 hi2 rfl
      refine forLoop_inv _ (fun _ t => t = s.m_vEnergyPathTable) _ _ _ _ rfl ?_
        (fun _ h => h)
      rintro j t _ hj rfl
      obtain ⟨ev, a, b, d, h1, h2, h3, h4, h5⟩ := hrec i j hi1 (by omega) (by omega)
      rw [h1, ok_bind, h2, ok_bind, h3, ok_bind, h4, ok_bind]
      exact ⟨_, tabSet_same h5, rfl⟩
    · rintro t rfl
      exact ⟨_, rfl, rfl⟩

/-- Recomputing the vertical path table twice is the same as recomputing it once. -/
theorem RecalcVerticalEnergyPathTable_idempotent {α : Type} [LinearOrder α] [Add α]
    {s s' : SeamCarver α} (h : RecalcVerticalEnergyPathTable s = Except.ok s') :
    RecalcVerticalEnergyPathTable s' = Except.ok s' := by
  obtain ⟨t, H, rfl, hH, hrow0, hrec⟩ := RecalcVerticalEnergyPathTable_partial h
  obtain ⟨s2, hs2, rfl⟩ := RecalcVerticalEnergyPathTable_of_fixed
    ({ s with m_vEnergyPathTable := t, m_vEnergyPathTableIsValid := true }) H hH hrow0 hrec
  exact hs2

theorem tabSet_getElem?_ne {β : Type} {t t' : List (List β)} {c r : Nat} {v : β}
    (h : tabSet t c r v = Except.ok t') {c' : Nat} (hne : c ≠ c') : t'[c']? = t[c']? := by
  obtain ⟨col, -, -, rfl⟩ := tabSet_eq_ok.mp h
  exact List.getElem?_set_ne hne

theorem GetImageHeight_of_width_pos {α : Type} (s : SeamCarver α) (h : 0 < GetImageWidth s) :
    ∃ H, GetImageHeight s = Except.ok H :=
  ⟨_, GetImageHeight_eq_ok.mpr ⟨_, List.getElem?_eq_getElem h, rfl⟩⟩

/-- A write in column `i` keeps the horizontal recurrence of every other cell of columns up
to `i`. -/
theorem HRec_of_tabSet {α : Type} [LinearOrder α] [Add α] {e : Table α} {H : Nat}
    {t t' : Table α} {i j : Nat} {v : α} (hset : tabSet t i j v = Except.ok t')
    {c r : Nat} (hc1 : 1 ≤ c) (hci : c ≤ i) (hne : c = i → r ≠ j) (h : HRec e H t c r) :
    HRec e H t' c r := by
  obtain ⟨ev, a, b, d, h1, h2, h3, h4, h5⟩ := h
  refine ⟨ev, a, b, d, h1, ?_, ?_, ?_, ?_⟩
  · rw [tabGet_tabSet_ne hset (by omega)]; exact h2
  · rw [tabGet_tabSet_ne hset (by omega)]; exact h3
  · rw [tabGet_tabSet_ne hset (by omega)]; exact h4
  · rw [tabGet_tabSet_ne hset (fun hh => by
      obtain ⟨hc, hr⟩ := hh
      exact hne hc hr)]
    exact h5

/-- Whenever `RecalcHorizontalEnergyPathTable` returns, it has changed only the horizontal
path table and flag, and the new table satisfies the recurrence: column 0 is column 0 of the
energy table and every cell of columns `1 .. W-1`, rows `< H`, satisfies `HRec`. -/
theorem RecalcHorizontalEnergyPathTable_partial {α : Type} [LinearOrder α] [Add α]
    {s s' : SeamCarver α} (h : RecalcHorizontalEnergyPathTable s = Except.ok s') :
    ∃ t, s' = { s with m_hEnergyPathTable := t, m_hEnergyPathTableIsValid := true } ∧
      (∃ ecol, s.m_energyTable[0]? = some ecol ∧ t[0]? = some ecol) ∧
      ∀ H, GetImageHeight s = Except.ok H →
        ∀ c r, 1 ≤ c → c < GetImageWidth s → r < H → HRec s.m_energyTable H t c r := by
  unfold RecalcHorizontalEnergyPathTable at h
  obtain ⟨ecol, hecol, h⟩ := bind_eq_ok.mp h
  obtain ⟨t1, ht1, h⟩ := bind_eq_ok.mp h
  obtain ⟨t2, hl, h⟩ := bind_eq_ok.mp h
  cases h
  obtain ⟨hlen0, rfl⟩ := vecSet_eq_ok.mp ht1
  have hcol0 : (s.m_hEnergyPathTable.set 0 ecol)[0]? = some ecol := by
    rw [List.getElem?_set]; simp [hlen0]
  have P2 : t2[0]? = some ecol ∧
      ∀ H, GetImageHeight s = Except.ok H →
        ∀ c r, 1 ≤ c → c < 1 + (GetImageWidth s - 1) → r < H →
          HRec s.m_energyTable H t2 c r := by
    refine forLoop_partial _
      (fun i t => t[0]? = some ecol ∧
        ∀ H, GetImageHeight s = Except.ok H →
          ∀ c r, 1 ≤ c → c < i → r < H → HRec s.m_energyTable H t c r)
      _ _ _ _ ⟨hcol0, fun H _ c r h1 h2 => by omega⟩ ?_ hl
    intro i t t' hi1 _ hP hb
    obtain ⟨hgt, hhgt, hb⟩ := bind_eq_ok.mp hb
    have P3 : t'[0]? = some ecol ∧
        (∀ c r, 1 ≤ c → c < i → r < hgt → HRec s.m_energyTable hgt t' c r) ∧
        ∀ r, r < 0 + hgt → HRec s.m_energyTable hgt t' i r := by
      refine forLoop_partial _
        (fun j u => u[0]? = some ecol ∧
          (∀ c r, 1 ≤ c → c < i → r < hgt → HRec s.m_energyTable hgt u c r) ∧
          ∀ r, r < j → HRec s.m_energyTable hgt u i r)
        _ _ _ _ ⟨hP.1, hP.2 hgt hhgt, fun r hr => by omega⟩ ?_ hb
      intro j u u' _ hj ⟨hc0, hold, hcur⟩ hbody
      obtain ⟨ev, hev, hbody⟩ := bind_eq_ok.mp hbody
      obtain ⟨a, ha, hbody⟩ := bind_eq_ok.mp hbody
      obtain ⟨b, hb', hbody⟩ := bind_eq_ok.mp hbody
      obtain ⟨d, hd, hset⟩ := bind_eq_ok.mp hbody
      refine ⟨?_, fun c r h1 h2 hr => ?_, fun r hr => ?_⟩
      · rw [tabSet_getElem?_ne hset (by omega)]; exact hc0
      · exact HRec_of_tabSet hset h1 (by omega) (by omega) (hold c r h1 h2 hr)
      · by_cases hrj : r = j
        · subst hrj
          refine ⟨ev, a, b, d, hev, ?_, ?_, ?_, tabGet_tabSet_self hset⟩
          · rw [tabGet_tabSet_ne hset (by omega)]; exact ha
          · rw [tabGet_tabSet_ne hset (by omega)]; exact hb'
          · rw [tabGet_tabSet_ne hset (by omega)]; exact hd
        · exact HRec_of_tabSet hset hi1 (le_refl _) (fun _ => hrj) (hcur r (by omega))
    refine ⟨P3.1, fun H hH c r h1 h2 hr => ?_⟩
    have hHeq : H = hgt := by
      rw [hhgt] at hH
      cases hH
      rfl
    subst hHeq
    by_cases hci : c = i
    · subst hci; exact P3.2.2 r (by omega)
    · exact P3.2.1 c r h1 (by omega) hr
  refine ⟨t2, rfl, ⟨ecol, vecGet_eq_ok.mp hecol, P2.1⟩, fun H hH c r h1 h2 hr => ?_⟩
  exact P2.2 H hH c r h1 (by omega) hr

/-- On an engine whose horizontal path table already satisfies the recurrence,
`RecalcHorizontalEnergyPathTable` returns and changes nothing but the flag, which it
sets. -/
theorem RecalcHorizontalEnergyPathTable_of_fixed {α : Type} [LinearOrder α] [Add α]
    (s : SeamCarver α)
    (hcol0 : ∃ ecol, s.m_energyTable[0]? = some ecol ∧ s.m_hEnergyPathTable[0]? = some ecol)
    (hrec : ∀ H, GetImageHeight s = Except.ok H →
      ∀ c r, 1 ≤ c → c < GetImageWidth s → r < H →
        HRec s.m_energyTable H s.m_hEnergyPathTable c r) :
    ∃ s', RecalcHorizontalEnergyPathTable s = Except.ok s' ∧
      s' = { s with m_hEnergyPathTableIsValid := true } := by
  obtain ⟨ecol, he0, ht0⟩ := hcol0
  unfold RecalcHorizontalEnergyPathTable
  have hget : vecGet s.m_energyTable 0 = Except.ok ecol := vecGet_eq_ok.mpr he0
  have hset : vecSet s.m_hEnergyPathTable 0 ecol = Except.ok s.m_hEnergyPathTable := by
    rw [vecSet_of_lt ecol (List.getElem?_eq_some_iff.mp ht0).1, set_of_getElem? ht0]
  simp only [hget, hset, ok_bind]
  apply exists_bind_ok
  refine forLoop_inv _ (fun _ t => t = s.m_hEnergyPathTable) _ _ _ _ rfl ?_ ?_
  · rintro i t hi1 hi2 rfl
    obtain ⟨H, hH⟩ := GetImageHeight_of_width_pos s (by omega)
    rw [hH]
    simp only [ok_bind]
    refine forLoop_inv _ (fun _ t => t = s.m_hEnergyPathTable) _ _ _ _ rfl ?_
      (fun _ h => h)
    rintro j t _ hj rfl
    obtain ⟨ev, a, b, d, h1, h2, h3, h4, h5⟩ := hrec H hH i j hi1 (by omega) (by omega)
    rw [h1, ok_bind, h2, ok_bind, h3, ok_bind, h4, ok_bind]
    exact ⟨_, tabSet_same h5, rfl⟩
  · rintro t rfl
    exact ⟨_, rfl, rfl⟩

/-- Recomputing the horizontal path table twice is the same as recomputing it once. -/
theorem RecalcHorizontalEnergyPathTable_idempotent {α : Type} [LinearOrder α] [Add α]
    {s s' : SeamCarver α} (h : RecalcHorizontalEnergyPathTable s = Except.ok s') :
    RecalcHorizontalEnergyPathTable s' = Except.ok s' := by
  obtain ⟨t, rfl, hcol0, hrec⟩ := RecalcHorizontalEnergyPathTable_partial h
  obtain ⟨s2, hs2, rfl⟩ := RecalcHorizontalEnergyPathTable_of_fixed
    ({ s with m_hEnergyPathTable := t, m_hEnergyPathTableIsValid := true }) hcol0 hrec
  exact hs2

/-- A valid horizontal cache stays valid when only the vertical cache members change. -/
theorem RecalcHorizontalEnergyPathTable_frame {α : Type} [LinearOrder α] [Add α]
    {s : SeamCarver α} (h : RecalcHorizontalEnergyPathTable s = Except.ok s)
    (t : Table α) (b : Bool) :
    RecalcHorizontalEnergyPathTable
        ({ s with m_vEnergyPathTable := t, m_vEnergyPathTableIsValid := b }) =
      Except.ok ({ s with m_vEnergyPathTable := t, m_vEnergyPathTableIsValid := b }) := by
  obtain ⟨t', hs, hcol0, hrec⟩ := RecalcHorizontalEnergyPathTable_partial h
  have ht' : s.m_hEnergyPathTable = t' := congrArg SeamCarver.m_hEnergyPathTable hs
  have hf : s.m_hEnergyPathTableIsValid = true :=
    congrArg SeamCarver.m_hEnergyPathTableIsValid hs
  rw [← ht'] at hcol0 hrec
  obtain ⟨s2, hs2, rfl⟩ := RecalcHorizontalEnergyPathTable_of_fixed
    ({ s with m_vEnergyPathTable := t, m_vEnergyPathTableIsValid := b }) hcol0 hrec
  rw [hs2]
  show Except.ok (SeamCarver.mk s.m_image s.m_energyTable t s.m_hEnergyPathTable b true) =
    Except.ok (SeamCarver.mk s.m_image s.m_energyTable t s.m_hEnergyPathTable b
      s.m_hEnergyPathTableIsValid)
  rw [hf]

/-- A valid vertical cache stays valid when only the horizontal cache members change. -/
theorem RecalcVerticalEnergyPathTable_frame {α : Type} [LinearOrder α] [Add α]
    {s : SeamCarver α} (h : RecalcVerticalEnergyPathTable s = Except.ok s)
    (t : Table α) (b : Bool) :
    RecalcVerticalEnergyPathTable
        ({ s with m_hEnergyPathTable := t, m_hEnergyPathTableIsValid := b }) =
      Except.ok ({ s with m_hEnergyPathTable := t, m_hEnergyPathTableIsValid := b }) := by
  obtain ⟨t', H, hs, hH, hrow0, hrec⟩ := RecalcVerticalEnergyPathTable_partial h
  have ht' : s.m_vEnergyPathTable = t' := congrArg SeamCarver.m_vEnergyPathTable hs
  have hf : s.m_vEnergyPathTableIsValid = true :=
    congrArg SeamCarver.m_vEnergyPathTableIsValid hs
  rw [← ht'] at hrow0 hrec
  obtain ⟨s2, hs2, rfl⟩ := RecalcVerticalEnergyPathTable_of_fixed
    ({ s with m_hEnergyPathTable := t, m_hEnergyPathTableIsValid := b }) H hH hrow0 hrec
  rw [hs2]
  show Except.ok (SeamCarver.mk s.m_image s.m_energyTable s.m_vEnergyPathTable t true b) =
    Except.ok (SeamCarver.mk s.m_image s.m_energyTable s.m_vEnergyPathTable t
      s.m_vEnergyPathTableIsValid b)
  rw [hf]

/-- A returning `FindVerticalSeam` either found the cache valid and left the engine as it
is, or found it invalid and recomputed the vertical path table. -/
theorem FindVerticalSeam_cases {α : Type} [LinearOrder α] [Add α] {s s' : SeamCarver α}
    {seam : Seam} (h : FindVerticalSeam s = Except.ok (seam, s')) :
    (s.m_vEnergyPathTableIsValid = true ∧ s' = s) ∨
      (s.m_vEnergyPathTableIsValid = false ∧ RecalcVerticalEnergyPathTable s = Except.ok s') := by
  cases hv : s.m_vEnergyPathTableIsValid with
  | true =>
    rw [FindVerticalSeam_of_valid s hv] at h
    obtain ⟨seam', -, h⟩ := bind_eq_ok.mp h
    cases h
    exact Or.inl ⟨rfl, rfl⟩
  | false =>
    rw [FindVerticalSeam_of_invalid s hv] at h
    obtain ⟨s1, hrec, h⟩ := bind_eq_ok.mp h
    obtain ⟨seam', -, h⟩ := bind_eq_ok.mp h
    cases h
    exact Or.inr ⟨rfl, hrec⟩

/-- A returning `FindHorizontalSeam` either found the cache valid and left the engine as it
is, or found it invalid and recomputed the horizontal path table. -/
theorem FindHorizontalSeam_cases {α : Type} [LinearOrder α] [Add α] {s s' : SeamCarver α}
    {seam : Seam} (h : FindHorizontalSeam s = Except.ok (seam, s')) :
    (s.m_hEnergyPathTableIsValid = true ∧ s' = s) ∨
      (s.m_hEnergyPathTableIsValid = false ∧
        RecalcHorizontalEnergyPathTable s = Except.ok s') := by
  cases hv : s.m_hEnergyPathTableIsValid with
  | true =>
    rw [FindHorizontalSeam_of_valid s hv] at h
    obtain ⟨seam', -, h⟩ := bind_eq_ok.mp h
    cases h
    exact Or.inl ⟨rfl, rfl⟩
  | false =>
    rw [FindHorizontalSeam_of_invalid s hv] at h
    obtain ⟨s1, hrec, h⟩ := bind_eq_ok.mp h
    obtain ⟨seam', -, h⟩ := bind_eq_ok.mp h
    cases h
    exact Or.inr ⟨rfl, hrec⟩

/-- Whenever `RecalcPixelEnergy` returns, it has changed at most the energy table. -/
theorem RecalcPixelEnergy_only_energy {α : Type} {sqrt : Int → α} {s s' : SeamCarver α}
    {c r : Nat} (h : RecalcPixelEnergy sqrt s c r = Except.ok s') :
    ∃ e, s' = { s with m_energyTable := e } := by
  unfold RecalcPixelEnergy at h
  simp only [bind_eq_ok, pure_eq_ok, Except.ok.injEq] at h
  obtain ⟨_, _, _, _, _, _, _, _, _, _, _, _, _, _, _, _, _, _, _, _, e, _, rfl⟩ := h
  exact ⟨e, rfl⟩

/-- Whenever `RecalcTableEnergy` returns, the validity flags are as before. -/
theorem RecalcTableEnergy_flags {α : Type} {sqrt : Int → α} {s s' : SeamCarver α}
    (h : RecalcTableEnergy sqrt s = Except.ok s') :
    s'.m_vEnergyPathTableIsValid = s.m_vEnergyPathTableIsValid ∧
      s'.m_hEnergyPathTableIsValid = s.m_hEnergyPathTableIsValid := by
  unfold RecalcTableEnergy at h
  refine forLoop_partial _
    (fun _ u => u.m_vEnergyPathTableIsValid = s.m_vEnergyPathTableIsValid ∧
      u.m_hEnergyPathTableIsValid = s.m_hEnergyPathTableIsValid)
    _ _ _ _ ⟨rfl, rfl⟩ ?_ h
  intro i u u' _ _ hP hb
  obtain ⟨hgt, -, hb⟩ := bind_eq_ok.mp hb
  refine forLoop_partial _
    (fun _ w => w.m_vEnergyPathTableIsValid = s.m_vEnergyPathTableIsValid ∧
      w.m_hEnergyPathTableIsValid = s.m_hEnergyPathTableIsValid)
    _ _ _ _ hP ?_ hb
  intro j w w' _ _ hQ hbody
  obtain ⟨e, rfl⟩ := RecalcPixelEnergy_only_energy hbody
  exact hQ

/-- Right after construction both validity flags are false. -/
theorem new_flags {α : Type} [Zero α] {sqrt : Int → α} {img : Image} {s : SeamCarver α}
    (h : SeamCarver.new sqrt img = Except.ok s) :
    s.m_vEnergyPathTableIsValid = false ∧ s.m_hEnergyPathTableIsValid = false := by
  unfold SeamCarver.new at h
  obtain ⟨hgt, -, h⟩ := bind_eq_ok.mp h
  exact RecalcTableEnergy_flags h

/-- Right after a returning `RemoveVerticalSeam` both validity flags are false. -/
theorem RemoveVerticalSeam_flags {α : Type} {sqrt : Int → α} {s s' : SeamCarver α}
    {seam : Seam} (h : RemoveVerticalSeam sqrt s seam = Except.ok s') :
    s'.m_vEnergyPathTableIsValid = false ∧ s'.m_hEnergyPathTableIsValid = false := by
  unfold RemoveVerticalSeam at h
  obtain ⟨hgt, -, h⟩ := bind_eq_ok.mp h
  obtain ⟨s1, -, h⟩ := bind_eq_ok.mp h
  obtain ⟨img, -, h⟩ := bind_eq_ok.mp h
  cases h
  exact ⟨rfl, rfl⟩

/-- Right after a returning `RemoveHorizontalSeam` both validity flags are false. -/
theorem RemoveHorizontalSeam_flags {α : Type} {sqrt : Int → α} {s s' : SeamCarver α}
    {seam : Seam} (h : RemoveHorizontalSeam sqrt s seam = Except.ok s') :
    s'.m_vEnergyPathTableIsValid = false ∧ s'.m_hEnergyPathTableIsValid = false := by
  unfold RemoveHorizontalSeam at h
  obtain ⟨s1, -, h⟩ := bind_eq_ok.mp h
  cases h
  exact ⟨rfl, rfl⟩

/-- In every reachable engine state a set validity flag means that recomputing the
corresponding path table changes nothing. -/
theorem reachable_cache_valid {α : Type} [LinearOrder α] [Add α] [Zero α] (sqrt : Int → α)
    (s : SeamCarver α) (hr : Reachable sqrt s) :
    (s.m_vEnergyPathTableIsValid = true → RecalcVerticalEnergyPathTable s = Except.ok s) ∧
    (s.m_hEnergyPathTableIsValid = true → RecalcHorizontalEnergyPathTable s = Except.ok s) := by
  induction hr with
  | construct img s h =>
    obtain ⟨h1, h2⟩ := new_flags h
    exact ⟨fun hv => (by rw [h1] at hv; cases hv), fun hv => (by rw [h2] at hv; cases hv)⟩
  | findVertical s seam s' _ h ih =>
    rcases FindVerticalSeam_cases h with ⟨-, rfl⟩ | ⟨-, hrec⟩
    · exact ih
    · refine ⟨fun _ => RecalcVerticalEnergyPathTable_idempotent hrec, fun hv => ?_⟩
      obtain ⟨t, H, rfl, -⟩ := RecalcVerticalEnergyPathTable_partial hrec
      exact RecalcHorizontalEnergyPathTable_frame (ih.2 hv) t true
  | findHorizontal s seam s' _ h ih =>
    rcases FindHorizontalSeam_cases h with ⟨-, rfl⟩ | ⟨-, hrec⟩
    · exact ih
    · refine ⟨fun hv => ?_, fun _ => RecalcHorizontalEnergyPathTable_idempotent hrec⟩
      obtain ⟨t, rfl, -⟩ := RecalcHorizontalEnergyPathTable_partial hrec
      exact RecalcVerticalEnergyPathTable_frame (ih.1 hv) t true
  | removeVertical s seam s' _ h _ =>
    obtain ⟨h1, h2⟩ := RemoveVerticalSeam_flags h
    exact ⟨fun hv => (by rw [h1] at hv; cases hv), fun hv => (by rw [h2] at hv; cases hv)⟩
  | removeHorizontal s seam s' _ h _ =>
    obtain ⟨h1, h2⟩ := RemoveHorizontalSeam_flags h
    exact ⟨fun hv => (by rw [h1] at hv; cases hv), fun hv => (by rw [h2] at hv; cases hv)⟩

/-- C18: cache-validity invariant over the engine's step relation.  Both validity flags are
false right after construction and right after either removal; a returning
`FindVerticalSeam` sets the vertical flag and leaves the horizontal one as it was, and
symmetrically for `FindHorizontalSeam`; and in every reachable state in which a flag is set,
a full recomputation of the corresponding path table from the current energy table returns
the very same engine state, so the stored table is what the recomputation produces. -/
theorem cache_validity_invariant {α : Type} [LinearOrder α] [Add α] [Zero α]
    (sqrt : Int → α) :
    (∀ img s, SeamCarver.new sqrt img = Except.ok s →
      s.m_vEnergyPathTableIsValid = false ∧ s.m_hEnergyPathTableIsValid = false) ∧
    (∀ s seam s', RemoveVerticalSeam sqrt s seam = Except.ok s' →
      s'.m_vEnergyPathTableIsValid = false ∧ s'.m_hEnergyPathTableIsValid = false) ∧
    (∀ s seam s', RemoveHorizontalSeam sqrt s seam = Except.ok s' →
      s'.m_vEnergyPathTableIsValid = false ∧ s'.m_hEnergyPathTableIsValid = false) ∧
    (∀ (s : SeamCarver α) seam s', FindVerticalSeam s = Except.ok (seam, s') →
      s'.m_vEnergyPathTableIsValid = true ∧
        s'.m_hEnergyPathTableIsValid = s.m_hEnergyPathTableIsValid) ∧
    (∀ (s : SeamCarver α) seam s', FindHorizontalSeam s = Except.ok (seam, s') →
      s'.m_hEnergyPathTableIsValid = true ∧
        s'.m_vEnergyPathTableIsValid = s.m_vEnergyPathTableIsValid) ∧
    (∀ s, Reachable sqrt s →
      (s.m_vEnergyPathTableIsValid = true → RecalcVerticalEnergyPathTable s = Except.ok s) ∧
      (s.m_hEnergyPathTableIsValid = true →
        RecalcHorizontalEnergyPathTable s = Except.ok s)) := by
  refine ⟨fun _ _ h => new_flags h, fun _ _ _ h => RemoveVerticalSeam_flags h,
    fun _ _ _ h => RemoveHorizontalSeam_flags h, ?_, ?_, fun s hr => reachable_cache_valid sqrt s hr⟩
  · intro s seam s' h
    rcases FindVerticalSeam_cases h with ⟨hv, rfl⟩ | ⟨-, hrec⟩
    · exact ⟨hv, rfl⟩
    · obtain ⟨t, H, rfl, -⟩ := RecalcVerticalEnergyPathTable_partial hrec
      exact ⟨rfl, rfl⟩
  · intro s seam s' h
    rcases FindHorizontalSeam_cases h with ⟨hv, rfl⟩ | ⟨-, hrec⟩
    · exact ⟨hv, rfl⟩
    · obtain ⟨t, rfl, -⟩ := RecalcHorizontalEnergyPathTable_partial hrec
      exact ⟨rfl, rfl⟩

/-- Witness for C18: the sample image and engine over the integers. -/
theorem cache_validity_invariant_witness :
    (sampleEngine.m_vEnergyPathTableIsValid = false ∧
      sampleEngine.m_hEnergyPathTableIsValid = false) ∧
    (∃ s', RemoveVerticalSeam intSqrt sampleEngine [1, 0, 2] = Except.ok s' ∧
      s'.m_vEnergyPathTableIsValid = false ∧ s'.m_hEnergyPathTableIsValid = false) ∧
    (∃ s', RemoveHorizontalSeam intSqrt sampleEngine [2, 2, 1] = Except.ok s' ∧
      s'.m_vEnergyPathTableIsValid = false ∧ s'.m_hEnergyPathTableIsValid = false) ∧
    (∃ s', FindVerticalSeam sampleEngine = Except.ok ([1, 1, 1], s') ∧
      s'.m_vEnergyPathTableIsValid = true ∧
      s'.m_hEnergyPathTableIsValid = sampleEngine.m_hEnergyPathTableIsValid) ∧
    (∃ s', FindHorizontalSeam sampleEngine = Except.ok ([1, 1, 1], s') ∧
      s'.m_hEnergyPathTableIsValid = true ∧
      s'.m_vEnergyPathTableIsValid = sampleEngine.m_vEnergyPathTableIsValid) ∧
    (∃ s', FindVerticalSeam sampleEngine = Except.ok ([1, 1, 1], s') ∧
      (s'.m_vEnergyPathTableIsValid = true →
        RecalcVerticalEnergyPathTable s' = Except.ok s') ∧
      (s'.m_hEnergyPathTableIsValid = true →
        RecalcHorizontalEnergyPathTable s' = Except.ok s')) :=
  ⟨(cache_validity_invariant intSqrt).1 sampleImage sampleEngine sampleEngine_eq_new,
   ⟨_, rfl, (cache_validity_invariant intSqrt).2.1 sampleEngine [1, 0, 2] _ rfl⟩,
   ⟨_, rfl, (cache_validity_invariant intSqrt).2.2.1 sampleEngine [2, 2, 1] _ rfl⟩,
   ⟨_, rfl, (cache_validity_invariant intSqrt).2.2.2.1 sampleEngine [1, 1, 1] _ rfl⟩,
   ⟨_, rfl, (cache_validity_invariant intSqrt).2.2.2.2.1 sampleEngine [1, 1, 1] _ rfl⟩,
   ⟨_, rfl, (cache_validity_invariant intSqrt).2.2.2.2.2 _
      (Reachable.findVertical sampleEngine [1, 1, 1] _
        (Reachable.construct sampleImage sampleEngine sampleEngine_eq_new) rfl)⟩⟩

/-! ## Constant images of width and height at least 2 -/

theorem tabGetD_replicate {β : Type} {w h c r : Nat} (x d : β) (hc : c < w) (hr : r < h) :
    tabGetD (List.replicate w (List.replicate h x)) c r d = x := by
  simp [tabGetD, List.getD_eq_getElem?_getD, List.getElem?_replicate, hc, hr]

theorem vPathValue_of_zero {α : Type} [LinearOrderedCommRing α] (e : Nat → Nat → α)
    {W H : Nat} (hW : 2 ≤ W) (hWm : W ≤ maxDim) (he : ∀ c r, c < W → r < H → e c r = 0) :
    ∀ r c, r < H → c < W → vPathValue e W r c = 0 := by
  intro r
  induction r with
  | zero => intro c hr hc; exact he c 0 hc hr
  | succ r ih =>
    intro c hr hc
    have hr' : r < H := by omega
    show e c (r + 1) + min (min (vPathValue e W r (BoundaryDiff c 1 W))
      (vPathValue e W r (BoundaryDiff c (-1) W))) (vPathValue e W r c) = 0
    rw [he c (r + 1) hc hr, ih _ hr' (BoundaryDiff_lt c (Or.inr (Or.inr rfl)) hW hWm),
      ih _ hr' (BoundaryDiff_lt c (Or.inr (Or.inl rfl)) hW hWm), ih c hr' hc]
    simp

theorem hPathValue_of_zero {α : Type} [LinearOrderedCommRing α] (e : Nat → Nat → α)
    {W H : Nat} (hH : 2 ≤ H) (hHm : H ≤ maxDim) (he : ∀ c r, c < W → r < H → e c r = 0) :
    ∀ c r, c < W → r < H → hPathValue e H c r = 0 := by
  intro c
  induction c with
  | zero => intro r hc hr; exact he 0 r hc hr
  | succ c ih =>
    intro r hc hr
    have hc' : c < W := by omega
    show e (c + 1) r + min (min (hPathValue e H c (BoundaryDiff r 1 H))
      (hPathValue e H c (BoundaryDiff r (-1) H))) (hPathValue e H c r) = 0
    rw [he (c + 1) r hc hr, ih _ hc' (BoundaryDiff_lt r (Or.inr (Or.inr rfl)) hH hHm),
      ih _ hc' (BoundaryDiff_lt r (Or.inr (Or.inl rfl)) hH hHm), ih r hc' hr]
    simp

/-- On the constant `W × H` image with `W ≥ 2` and `H ≥ 2` the constructor returns, every
energy cell is `0`, both path-table recomputations return, and every entry of the vertical
and of the horizontal path table inside the image is `0`. -/
theorem constant_image_zero_energy_and_paths {α : Type} [LinearOrderedCommRing α]
    (sqrt : Int → α) (h0 : sqrt 0 = 0) (p : Pixel) (W H : Nat) (hW : 2 ≤ W) (hH : 2 ≤ H)
    (hWm : W ≤ maxDim) (hHm : H ≤ maxDim) :
    ∃ s sv sh, SeamCarver.new sqrt ⟨List.replicate W (List.replicate H p)⟩ = Except.ok s ∧
      RecalcVerticalEnergyPathTable s = Except.ok sv ∧
      RecalcHorizontalEnergyPathTable s = Except.ok sh ∧
      ∀ c r, c < W → r < H →
        GetPixelEnergy s c r = Except.ok 0 ∧
        tabGet sv.m_vEnergyPathTable c r = Except.ok 0 ∧
        tabGet sh.m_hEnergyPathTable c r = Except.ok 0 := by
  have himg : Rect (⟨List.replicate W (List.replicate H p)⟩ : Image).m_table W H :=
    rect_replicate W H p
  obtain ⟨s, hnew, -, hE, -, -, -, -, hcells⟩ := new_spec sqrt _ himg (by omega : 1 ≤ W)
  have hs : Sized s W H W H := new_sized sqrt _ himg (by omega) (by omega) hWm hHm hnew
  have harg : ∀ c r, c < W → r < H →
      pixelEnergyArg (List.replicate W (List.replicate H p)) W H c r = 0 := by
    intro c r hc hr
    have hW0 : 0 < W := by omega
    have hH0 : 0 < H := by omega
    unfold pixelEnergyArg
    rw [tabGetD_replicate p default hc (Nat.mod_lt _ hH0),
      tabGetD_replicate p default hc (Nat.mod_lt _ hH0),
      tabGetD_replicate p default (Nat.mod_lt _ hW0) hr,
      tabGetD_replicate p default (Nat.mod_lt _ hW0) hr, pairDiff_self]
    rfl
  have hen : ∀ c r, c < W → r < H → tabGet s.m_energyTable c r = Except.ok 0 := by
    intro c r hc hr
    have := hcells c r hc hr
    rw [harg c r hc hr, h0] at this
    exact this
  have he0 : ∀ c r, c < W → r < H → energyAt s c r = 0 :=
    fun c r hc hr => tabGetD_of_tabGet 0 (hen c r hc hr)
  obtain ⟨sv, hv, tv, rfl, -, hvt⟩ := RecalcVerticalEnergyPathTable_spec s hs hW
  obtain ⟨sh, hh, th, rfl, -, hht⟩ := RecalcHorizontalEnergyPathTable_spec s hs hH
  refine ⟨s, _, _, hnew, hv, hh, fun c r hc hr => ⟨hen c r hc hr, ?_, ?_⟩⟩
  · show tabGet tv c r = Except.ok 0
    rw [hvt, if_pos ⟨hc, hr⟩, vPathValue_of_zero (energyAt s) hW hWm he0 r c hr hc]
  · show tabGet th c r = Except.ok 0
    rw [hht]
    by_cases hc0 : c = 0
    · subst hc0; rw [if_pos rfl]; exact hen 0 r hc hr
    · rw [if_neg hc0, if_pos ⟨hc, hr⟩, hPathValue_of_zero (energyAt s) hH hHm he0 c r hc hr]

end SeamCarving
